import Mathlib

/-!
# Verification of `emonomials` (src/src/util/lp/emonomials.h)

A shallow embedding of the monomial congruence-tracking structure of the
nonlinear-arithmetic module: monomials (a defining variable together with an
ordered factor list) are kept canonized with respect to a union-find over
variables, with a per-root occurrence list, a congruence table keyed by
canonical factor content, sign-equivalence ring links, and push/pop scoping.

Inline header code (the `signed_vars` operations, the accessors `canonize`,
`var2canonical`, `rep`, `orig_sign`, `is_monomial_var`, `eq_canonical`) is
translated directly from the source.  Method bodies that live in
`emonomials.cpp` (not part of this repository snapshot) are modelled from the
specification, as marked in their doc comments.
-/

namespace EmonSpec

/-- A variable paired with a sign, as produced by the union-find collaborator
(`var_eqs`): `find(v)` yields the current class representative of `v` and the
sign of `v` relative to it. -/
structure SignedVar where
  var  : Nat
  sign : Bool
deriving DecidableEq, Repr

/-- A monomial definition `v := vs` (header: `monomial`): the defining
variable and the ordered factor list, duplicates and order as given. -/
structure Monomial where
  var  : Nat
  vars : List Nat
deriving DecidableEq, Repr, Inhabited

/-- Canonized monomial (header: class `signed_vars`): the defining variable,
the collected factor representatives, and the accumulated sign. -/
structure SignedVars where
  var  : Nat
  vars : List Nat
  sign : Bool
deriving DecidableEq, Repr, Inhabited

/-- Header `signed_vars::rsign`: `rational(m_sign ? -1 : 1)`. -/
def SignedVars.rsign (s : SignedVars) : Rat := if s.sign then -1 else 1

/-- Header `signed_vars::push_var`: `m_sign ^= sv.sign(); m_vars.push_back(sv.var())`. -/
def SignedVars.push_var (s : SignedVars) (sv : SignedVar) : SignedVars :=
  { s with sign := xor s.sign sv.sign, vars := s.vars ++ [sv.var] }

/-- Header `signed_vars::done_push`: `std::sort(m_vars.begin(), m_vars.end())`.
Sorting on `Nat` keys determines the result uniquely, so the choice of sorting
algorithm is irrelevant; we use insertion sort. -/
def SignedVars.done_push (s : SignedVars) : SignedVars :=
  { s with vars := s.vars.insertionSort (· ≤ ·) }

/-- Header `signed_vars::reset`: `m_sign = false; m_vars.reset()`. -/
def SignedVars.reset (s : SignedVars) : SignedVars :=
  { s with sign := false, vars := [] }

/-- Modelled from the spec: the body of `emonomials::do_canonize` is in
`emonomials.cpp`, which is not part of this snapshot.  Per spec section 4.2:
for each factor variable ask the union-find for its current
(representative, sign) pair, accumulate the sign by exclusive-or, collect the
representatives, then sort — realized through the header's `reset`,
`push_var` and `done_push` operations of `signed_vars`. -/
def do_canonize (ve : Nat → SignedVar) (m : Monomial) : SignedVars :=
  SignedVars.done_push
    (m.vars.foldl (fun s v => s.push_var (ve v)) (SignedVars.reset ⟨m.var, [], true⟩))

theorem push_var_fold_vars (ve : Nat → SignedVar) (l : List Nat) (s : SignedVars) :
    (l.foldl (fun t v => t.push_var (ve v)) s).vars
      = s.vars ++ l.map (fun v => (ve v).var) := by
  induction l generalizing s with
  | nil => simp
  | cons a l ih =>
    rw [List.foldl_cons, ih]
    simp [SignedVars.push_var]

theorem push_var_fold_sign (ve : Nat → SignedVar) (l : List Nat) (s : SignedVars) :
    (l.foldl (fun t v => t.push_var (ve v)) s).sign
      = (l.map (fun v => (ve v).sign)).foldl xor s.sign := by
  induction l generalizing s with
  | nil => simp
  | cons a l ih =>
    rw [List.foldl_cons, ih]
    simp [SignedVars.push_var]

theorem push_var_fold_var (ve : Nat → SignedVar) (l : List Nat) (s : SignedVars) :
    (l.foldl (fun t v => t.push_var (ve v)) s).var = s.var := by
  induction l generalizing s with
  | nil => rfl
  | cons a l ih =>
    rw [List.foldl_cons, ih]
    simp [SignedVars.push_var]

theorem do_canonize_var (ve : Nat → SignedVar) (m : Monomial) :
    (do_canonize ve m).var = m.var := by
  simp [do_canonize, SignedVars.done_push, push_var_fold_var, SignedVars.reset]

theorem do_canonize_vars (ve : Nat → SignedVar) (m : Monomial) :
    (do_canonize ve m).vars
      = (m.vars.map (fun v => (ve v).var)).insertionSort (· ≤ ·) := by
  simp [do_canonize, SignedVars.done_push, push_var_fold_vars, SignedVars.reset]

theorem do_canonize_sign (ve : Nat → SignedVar) (m : Monomial) :
    (do_canonize ve m).sign
      = (m.vars.map (fun v => (ve v).sign)).foldl xor false := by
  simp [do_canonize, SignedVars.done_push, push_var_fold_sign, SignedVars.reset]

theorem do_canonize_vars_sorted (ve : Nat → SignedVar) (m : Monomial) :
    (do_canonize ve m).vars.Sorted (· ≤ ·) := by
  rw [do_canonize_vars]
  exact List.sorted_insertionSort _ _

theorem do_canonize_vars_length (ve : Nat → SignedVar) (m : Monomial) :
    (do_canonize ve m).vars.length = m.vars.length := by
  rw [do_canonize_vars, List.length_insertionSort, List.length_map]

theorem do_canonize_vars_perm (ve : Nat → SignedVar) (m : Monomial) :
    (do_canonize ve m).vars.Perm (m.vars.map (fun v => (ve v).var)) := by
  rw [do_canonize_vars]
  exact List.perm_insertionSort _ _

/-- Modelled from the spec: the body of `emonomials::canonize_divides` is in
`emonomials.cpp`, which is not part of this snapshot.  Per spec section 4.6 it
is "a sorted-merge subset test over the two canonical sequences (both already
sorted)": advance both lists on a match, skip smaller elements of the second,
fail when the head of the first cannot be matched. -/
def sortedSubsetMerge : List Nat → List Nat → Bool
  | [], _ => true
  | _ :: _, [] => false
  | a :: as, b :: bs =>
    if a = b then sortedSubsetMerge as bs
    else if b < a then sortedSubsetMerge (a :: as) bs
    else false

theorem sortedSubsetMerge_nil (l : List Nat) : sortedSubsetMerge [] l = true := by
  cases l <;> rfl

/-- Soundness half: a successful sorted-merge subset test gives a count
inequality for every value (multiplicity-aware sub-multiset). -/
theorem sortedSubsetMerge_count {l1 l2 : List Nat}
    (h1 : l1.Sorted (· ≤ ·)) (h2 : l2.Sorted (· ≤ ·))
    (h : sortedSubsetMerge l1 l2 = true) (x : Nat) :
    l1.count x ≤ l2.count x := by
  induction l2 generalizing l1 with
  | nil =>
    cases l1 with
    | nil => simp
    | cons a as => simp [sortedSubsetMerge] at h
  | cons b bs ih =>
    cases l1 with
    | nil => simp
    | cons a as =>
      by_cases hab : a = b
      · subst hab
        rw [sortedSubsetMerge, if_pos rfl] at h
        have := ih (List.Sorted.of_cons h1) (List.Sorted.of_cons h2) h
        by_cases hx : x = a
        · subst hx
          simpa [List.count_cons] using this
        · simpa [List.count_cons, hx] using this
      · rw [sortedSubsetMerge, if_neg hab] at h
        by_cases hba : b < a
        · rw [if_pos hba] at h
          have := ih h1 (List.Sorted.of_cons h2) h
          by_cases hx : x = b
          · subst hx
            have hcnt : (a :: as).count x = 0 := by
              rw [List.count_eq_zero]
              intro hmem
              rcases List.mem_cons.mp hmem with h' | h'
              · exact absurd h'.symm (by omega)
              · have := List.rel_of_sorted_cons h1 _ h'
                omega
            simp [hcnt]
          · calc (a :: as).count x ≤ bs.count x := this
              _ ≤ (b :: bs).count x := by simp [List.count_cons, hx]
        · rw [if_neg hba] at h
          exact absurd h (by simp)

/-- Completeness half: when every value of the first sorted list occurs in the
second with at least the same multiplicity, the sorted-merge test succeeds. -/
theorem sortedSubsetMerge_of_count {l1 l2 : List Nat}
    (h1 : l1.Sorted (· ≤ ·)) (h2 : l2.Sorted (· ≤ ·))
    (h : ∀ x, l1.count x ≤ l2.count x) :
    sortedSubsetMerge l1 l2 = true := by
  induction l2 generalizing l1 with
  | nil =>
    cases l1 with
    | nil => rfl
    | cons a as =>
      have := h a
      simp [List.count_cons] at this
  | cons b bs ih =>
    cases l1 with
    | nil => exact sortedSubsetMerge_nil _
    | cons a as =>
      by_cases hab : a = b
      · subst hab
        rw [sortedSubsetMerge, if_pos rfl]
        apply ih (List.Sorted.of_cons h1) (List.Sorted.of_cons h2)
        intro x
        have := h x
        by_cases hx : x = a
        · subst hx
          simpa [List.count_cons] using this
        · simpa [List.count_cons, hx] using this
      · have hb_lt : b < a := by
          by_contra hba
          have hb : a < b := by omega
          have := h a
          have ha_pos : 0 < (a :: as).count a := by simp [List.count_cons]
          have : 0 < (b :: bs).count a := lt_of_lt_of_le ha_pos this
          rw [List.count_pos_iff] at this
          rcases List.mem_cons.mp this with h' | h'
          · omega
          · have := List.rel_of_sorted_cons h2 _ h'
            omega
        rw [sortedSubsetMerge, if_neg hab, if_pos hb_lt]
        apply ih h1 (List.Sorted.of_cons h2)
        intro x
        have := h x
        by_cases hx : x = b
        · subst hx
          have hcnt : (a :: as).count x = 0 := by
            rw [List.count_eq_zero]
            intro hmem
            rcases List.mem_cons.mp hmem with h' | h'
            · exact absurd h'.symm (by omega)
            · have := List.rel_of_sorted_cons h1 _ h'
              omega
          simp [hcnt]
        · simpa [List.count_cons, hx] using this

/-- The sorted-merge subset test decides the multiplicity-aware sub-multiset
relation on sorted lists. -/
theorem sortedSubsetMerge_iff_count {l1 l2 : List Nat}
    (h1 : l1.Sorted (· ≤ ·)) (h2 : l2.Sorted (· ≤ ·)) :
    sortedSubsetMerge l1 l2 = true ↔ ∀ x, l1.count x ≤ l2.count x :=
  ⟨fun h x => sortedSubsetMerge_count h1 h2 h x, sortedSubsetMerge_of_count h1 h2⟩

/-! ## The emonomials state

The mutable state of the `emonomials` class, with raw pointers replaced by
indices as the spec's design notes prescribe: occurrence cells hold the
monomial index (`cell::m_index`); each variable's `head_tail` list is a plain
index list with insertion at the head; the sign-equivalence ring links
`m_next`/`m_prev` of `signed_vars_ts` are index lists parallel to
`m_canonized`; the congruence hashtable is the list of member variables
(hash-order is unobservable).  The union-find collaborator is out of scope
and enters only through its interface: the current `find` map from variables
to (representative, sign), changed by merges and restored on unmerge (its own
scoping), recorded here in `ve` and in the merge trail. -/

/-- `UINT_MAX`, the absent-entry sentinel used by `m_var2index.get(v, UINT_MAX)`. -/
def UINT_MAX : Nat := 4294967295

/-- A record of one merge, as the union-find collaborator would replay it for
the unmerge notification: old root `r1` was absorbed into root `r2` with
relative sign `s`; `veOld` is the union-find state the collaborator restores
when this merge is undone. -/
structure TrailRec where
  r1    : Nat
  r2    : Nat
  s     : Bool
  veOld : Nat → SignedVar

/-- State of the `emonomials` structure together with the interface state of
its union-find collaborator. -/
structure EState where
  /-- the union-find interface: current (representative, sign) of a variable -/
  ve        : Nat → SignedVar
  /-- `m_monomials` -/
  monomials : List Monomial
  /-- `m_canonized` (the `signed_vars` part) -/
  canonized : List SignedVars
  /-- `m_canonized[i].m_next` (sign-equivalence ring) -/
  ringNext  : List Nat
  /-- `m_canonized[i].m_prev` (sign-equivalence ring) -/
  ringPrev  : List Nat
  /-- whether slot `i` is currently linked into the congruence structure
  (in the source this is implicit: a slot is linked between its `insert_cg`
  and its `remove_cg`) -/
  cgIn      : List Bool
  /-- `m_var2index`, `UINT_MAX` marking absent entries -/
  var2index : List Nat
  /-- `m_use_lists`: per variable, the occurrence list of monomial indices,
  head first -/
  useLists  : Nat → List Nat
  /-- `m_cg_table`: the member variables of the congruence table -/
  cgTable   : List Nat
  /-- `m_lim`: monomial-store lengths at push points -/
  lim       : List Nat
  /-- trail lengths at push points (the union-find's own scope stack) -/
  trailLim  : List Nat
  /-- merges performed and not yet undone, newest first -/
  trail     : List TrailRec

/-- Header `m_var2index.get(v, UINT_MAX)`. -/
def EState.v2i (S : EState) (v : Nat) : Nat := S.var2index.getD v UINT_MAX

/-- Header `emonomials::is_monomial_var`:
`m_var2index.get(v, UINT_MAX) != UINT_MAX`. -/
def EState.is_monomial_var (S : EState) (v : Nat) : Bool :=
  S.v2i v != UINT_MAX

/-- Header `emonomials::var2monomial`: `SASSERT(is_monomial_var(v));
return m_monomials[m_var2index[v]];` — the asserted precondition is made
explicit by returning `none` outside it. -/
def EState.var2monomial (S : EState) (v : Nat) : Option Monomial :=
  if S.is_monomial_var v then some (S.monomials.getD (S.v2i v) default) else none

/-- Header `emonomials::canonize`: `return m_canonized[m_var2index[m.var()]];`
— a read of the cached canonical form, with no recomputation. -/
def EState.canonize (S : EState) (m : Monomial) : SignedVars :=
  S.canonized.getD (S.v2i m.var) default

/-- Header `emonomials::var2canonical`: `canonize(var2monomial(v))`. -/
def EState.var2canonical (S : EState) (v : Nat) : Option SignedVars :=
  (S.var2monomial v).map (fun m => S.canonize m)

/-- Header `eq_canonical`: two member variables are equal when the cached
canonical factor vectors of their slots coincide. -/
def EState.cgVarsOf (S : EState) (u : Nat) : List Nat :=
  (S.canonized.getD (S.v2i u) default).vars

/-- Lookup of `v` in `m_cg_table`: the stored member variable whose canonical
factor vector equals `v`'s (hashtable lookup with `hash_canonical` /
`eq_canonical`). -/
def EState.cgLookup (S : EState) (v : Nat) : Option Nat :=
  S.cgTable.find? (fun u => S.cgVarsOf u == S.cgVarsOf v)

/-- Header `emonomials::rep`:
`m_canonized[m_var2index[m_cg_table[sv.var()]]]`. -/
def EState.rep (S : EState) (sv : SignedVars) : SignedVars :=
  S.canonized.getD (S.v2i ((S.cgLookup sv.var).getD sv.var)) default

/-- Header `emonomials::orig_sign`: `rep(sv).rsign()`. -/
def EState.orig_sign (S : EState) (sv : SignedVars) : Rat :=
  (S.rep sv).rsign

/-- Header `emonomials::canonize_divides` (body modelled from the spec, see
`sortedSubsetMerge`): does `m1`'s canonical multiset divide `m2`'s? -/
def EState.canonize_divides (S : EState) (m1 m2 : Monomial) : Bool :=
  sortedSubsetMerge (S.canonize m1).vars (S.canonize m2).vars

/-- Modelled from the spec: the body of `emonomials::find_canonical` is in
`emonomials.cpp`, which is not part of this snapshot.  Per spec section 4.4:
given an already-sorted variable sequence, look up whether any live monomial
currently has exactly this canonical factor sequence; return that monomial's
canonical record or "not found". -/
def EState.find_canonical (S : EState) (vars : List Nat) : Option SignedVars :=
  (S.cgTable.find? (fun u => S.cgVarsOf u == vars)).map
    (fun u => S.canonized.getD (S.v2i u) default)

/-- Modelled from the spec: `head(v)` (body in `emonomials.cpp`) resolves a
variable to its equivalence-class root, which owns the occurrence list
(spec section 4.3: "each equivalence-class root owns one occurrence list;
non-root class members own no list of their own"). -/
def EState.headList (S : EState) (v : Nat) : List Nat :=
  S.useLists ((S.ve v).var)

/-- The monomial indices produced by iterating `get_use_list(v)` (header
classes `use_list` / `iterator`: traversal of the cyclic cell list from
`head(v)` back to itself, i.e. exactly the cells of the root's list). -/
def EState.useListIdxs (S : EState) (v : Nat) : List Nat := S.headList v

/-! ## Operations

The bodies of `add`, `insert_cg`, `remove_cg`, `merge_eh`/`after_merge_eh`,
`unmerge_eh`, `push` and `pop` are in `emonomials.cpp`, which is not part of
this snapshot; each is modelled from the spec as marked. -/

/-- Doubly-linked ring surgery: unlink slot `i` from its ring, leaving it
self-looped (spec section 3: the sign-equivalence ring is "rebuilt on
insert/remove into the congruence table"). -/
def ringUnlink (nx pv : List Nat) (i : Nat) : List Nat × List Nat :=
  let ni := nx.getD i i
  let pi := pv.getD i i
  (((nx.set pi ni).set i i), ((pv.set ni pi).set i i))

/-- Doubly-linked ring surgery: insert a self-looped slot `i` right after
slot `j`. -/
def ringLink (nx pv : List Nat) (i j : Nat) : List Nat × List Nat :=
  let nj := nx.getD j j
  (((nx.set j i).set i nj), ((pv.set nj i).set i j))

/-- The defining variable of slot `i`. -/
def EState.mvarOf (S : EState) (i : Nat) : Nat := (S.monomials.getD i default).var

/-- Modelled from the spec: body of `emonomials::insert_cg` is in
`emonomials.cpp`.  Per spec section 4.4 it maintains the hash table and the
sign-equivalence ring linkage: when a member with the same canonical factor
content already exists, link `v`'s slot into that member's ring; otherwise
`v` becomes a new table member with a singleton ring. -/
def EState.insert_cg (S : EState) (v : Nat) : EState :=
  let i := S.v2i v
  match S.cgTable.find? (fun u => S.cgVarsOf u == S.cgVarsOf v) with
  | some u =>
    let r := ringLink S.ringNext S.ringPrev i (S.v2i u)
    { S with ringNext := r.1, ringPrev := r.2, cgIn := S.cgIn.set i true }
  | none =>
    { S with cgTable := S.cgTable ++ [v], cgIn := S.cgIn.set i true }

/-- Modelled from the spec: body of `emonomials::remove_cg` is in
`emonomials.cpp`.  It unlinks `v`'s slot from the sign-equivalence ring; when
`v` itself is the table member for its class and the class has another linked
slot, that slot's variable takes over the table entry (keeping the table
complete for the remaining slots); when the ring was a singleton the entry is
simply removed. -/
def EState.remove_cg (S : EState) (v : Nat) : EState :=
  let i := S.v2i v
  let r := ringUnlink S.ringNext S.ringPrev i
  let S1 := { S with ringNext := r.1, ringPrev := r.2, cgIn := S.cgIn.set i false }
  if v ∈ S.cgTable then
    match (List.range S.monomials.length).find?
        (fun j => (j != i) && S1.cgIn.getD j false
          && ((S.canonized.getD j default).vars == (S.canonized.getD i default).vars)) with
    | some j =>
      { S1 with cgTable := S.cgTable.map (fun u => if u = v then S.mvarOf j else u) }
    | none =>
      { S1 with cgTable := S.cgTable.erase v }
  else S1

/-- `rehash_cg` applied while re-canonizing one monomial slot (spec section
4.3: "for each, remove the stale congruence-table entry before recomputation
and reinsert the fresh one after"). -/
def EState.rehash1 (S : EState) (i : Nat) : EState :=
  let m := S.monomials.getD i default
  let S1 := S.remove_cg m.var
  let S2 := { S1 with canonized := S1.canonized.set i (do_canonize S1.ve m) }
  S2.insert_cg m.var

/-- `m_var2index` update in `add`: grow the vector with `UINT_MAX` up to `v`,
then store the slot index. -/
def setV2I (l : List Nat) (v idx : Nat) : List Nat :=
  (l ++ List.replicate (v + 1 - l.length) UINT_MAX).set v idx

/-- Modelled from the spec: body of `emonomials::add` is in `emonomials.cpp`.
Per spec section 4.1: append the monomial, compute and cache its initial
canonical form immediately, insert occurrence cells for every distinct
current-representative factor (inserted at the head of each root's list), and
insert the canonical key into the congruence table (which may link the new
record into an existing sign-equivalence ring). -/
def EState.add (S : EState) (v : Nat) (vs : List Nat) : EState :=
  let idx := S.monomials.length
  let m : Monomial := ⟨v, vs⟩
  let c := do_canonize S.ve m
  let roots := c.vars.dedup
  let S1 : EState :=
    { S with
      monomials := S.monomials ++ [m],
      canonized := S.canonized ++ [c],
      ringNext := S.ringNext ++ [idx],
      ringPrev := S.ringPrev ++ [idx],
      cgIn := S.cgIn ++ [false],
      var2index := setV2I S.var2index v idx,
      useLists := fun w => if w ∈ roots then idx :: S.useLists w else S.useLists w }
  S1.insert_cg v

/-- The union-find interface: merging root `r1` into root `r2`, every member
of `r1`'s class now reports representative `r2`, with its sign composed with
the sign `s` of the union. -/
def mergeVE (ve : Nat → SignedVar) (r1 r2 : Nat) (s : Bool) : Nat → SignedVar :=
  fun v => if (ve v).var = r1 then ⟨r2, xor (ve v).sign s⟩ else ve v

/-- Modelled from the spec: bodies of `emonomials::merge_eh` and
`after_merge_eh` are in `emonomials.cpp`.  Per spec sections 4.3 and 9 the
two notification points jointly satisfy one contract, modelled as a single
step: splice `r1`'s occurrence list onto `r2`'s (`merge_cells`; `r1`'s own
head/tail keep addressing its cells, which is what makes the later unmerge
split possible), then re-canonize every monomial that was in either list,
removing its stale congruence-table entry before recomputation and
reinserting the fresh one after. -/
def EState.onMerge (S : EState) (r1 r2 : Nat) (s : Bool) : EState :=
  let L1 := S.useLists r1
  let L2 := S.useLists r2
  let affected := (L1 ++ L2).dedup
  let S0 : EState :=
    { S with
      ve := mergeVE S.ve r1 r2 s,
      useLists := fun w => if w = r2 then L1 ++ L2 else S.useLists w,
      trail := ⟨r1, r2, s, S.ve⟩ :: S.trail }
  affected.foldl EState.rehash1 S0

/-- Remove the first contiguous occurrence of `pat` from `l` (the pointer
excision done by `unmerge_cells`: `r1`'s stored head/tail delimit its cells
inside the spliced list, and they are cut back out). -/
def cutRun (l pat : List Nat) : List Nat :=
  match (List.range (l.length + 1)).find? (fun k => (l.drop k).take pat.length == pat) with
  | some k => l.take k ++ l.drop (k + pat.length)
  | none => l

/-- Modelled from the spec: body of `emonomials::unmerge_eh` is in
`emonomials.cpp`.  Per spec section 4.3: split the spliced list back into
`r1`'s and `r2`'s original lists based on which cells belonged to which
before the merge (`r1`'s stored boundary), and re-canonize and re-key the
congruence table for every affected monomial back to the pre-merge form; the
union-find collaborator has restored its own pre-merge state, which the trail
record carries. -/
def EState.unmerge1 (S : EState) : EState :=
  match S.trail with
  | [] => S
  | t :: rest =>
    let L1 := S.useLists t.r1
    let L2 := cutRun (S.useLists t.r2) L1
    let affected := (L1 ++ L2).dedup
    let S0 : EState :=
      { S with
        ve := t.veOld,
        trail := rest,
        useLists := fun w => if w = t.r2 then L2 else S.useLists w }
    affected.foldl EState.rehash1 S0

/-- `unmerge1` iterated (the unmerge cascade fired by the union-find's pop). -/
def EState.unmergeN (S : EState) : Nat → EState
  | 0 => S
  | k + 1 => (S.unmerge1).unmergeN k

/-- Modelled from the spec: the part of `emonomials::pop` that retires one
monomial slot (spec section 4.7: truncation removes "all associated
occurrence/table entries for monomials created after the restored boundary"):
remove its congruence-table entry, unlink its cells from every occurrence
list, and clear its `m_var2index` entry. -/
def EState.removeMon (S : EState) (i : Nat) : EState :=
  let v := S.mvarOf i
  let S1 := S.remove_cg v
  { S1 with
    useLists := fun w => (S1.useLists w).filter (fun x => x != i),
    var2index := S1.var2index.set v UINT_MAX }

/-- Modelled from the spec: body of `emonomials::push` is in
`emonomials.cpp`.  Per spec section 4.7: record the current monomial-store
length as a new boundary and delegate to the union-find to push (recording
its trail mark). -/
def EState.push (S : EState) : EState :=
  { S with
    lim := S.monomials.length :: S.lim,
    trailLim := S.trail.length :: S.trailLim }

/-- Retire the monomial slots `n0 + k - 1, …, n0`, highest first. -/
def EState.removeDownFrom (S : EState) (n0 : Nat) : Nat → EState
  | 0 => S
  | k + 1 => ((S.removeMon (n0 + k)).removeDownFrom n0 k)

/-- Modelled from the spec: body of `emonomials::pop` is in `emonomials.cpp`.
Per spec section 4.7, popping one scope: the union-find pops first, firing
the unmerge cascade in reverse merge order; then the monomial store and the
canonical cache are truncated to the recorded boundary, retiring every
monomial created after it. -/
def EState.pop1 (S : EState) : EState :=
  match S.lim, S.trailLim with
  | n0 :: lims, t0 :: tls =>
    let S1 := S.unmergeN (S.trail.length - t0)
    let S2 := S1.removeDownFrom n0 (S1.monomials.length - n0)
    { S2 with
      monomials := S2.monomials.take n0,
      canonized := S2.canonized.take n0,
      ringNext := S2.ringNext.take n0,
      ringPrev := S2.ringPrev.take n0,
      cgIn := S2.cgIn.take n0,
      lim := lims,
      trailLim := tls }
  | _, _ => S

/-- `emonomials::pop(n)`. -/
def EState.pop (S : EState) : Nat → EState
  | 0 => S
  | n + 1 => (S.pop1).pop n

/-- The union-find with no unions yet: every variable is its own
representative with positive sign. -/
def veId : Nat → SignedVar := fun v => ⟨v, false⟩

/-- A freshly constructed `emonomials` over a fresh union-find. -/
def EState.init : EState :=
  { ve := veId, monomials := [], canonized := [], ringNext := [], ringPrev := [],
    cgIn := [], var2index := [], useLists := fun _ => [], cgTable := [],
    lim := [], trailLim := [], trail := [] }

/-- A variable is currently a class root. -/
def IsRoot (ve : Nat → SignedVar) (r : Nat) : Prop := ve r = ⟨r, false⟩

/-- States reachable through the public protocol: registration of fresh
monomial variables, merges of distinct roots delivered by the union-find,
and the scope protocol (`push`, `pop`).  Merge and unmerge notifications
arrive only in the orders the union-find produces them. -/
inductive Reachable : EState → Prop where
  | init : Reachable EState.init
  | add {S v vs} : Reachable S → S.is_monomial_var v = false → v < UINT_MAX →
      Reachable (S.add v vs)
  | merge {S r1 r2 s} : Reachable S → IsRoot S.ve r1 → IsRoot S.ve r2 → r1 ≠ r2 →
      Reachable (S.onMerge r1 r2 s)
  | push {S} : Reachable S → Reachable S.push
  | pop1 {S} : Reachable S → S.lim ≠ [] → Reachable S.pop1

/-! ## List access helpers -/

theorem getD_of_len_le {α : Type} {l : List α} {i : Nat} (d : α)
    (h : l.length ≤ i) : l.getD i d = d := by
  simp [List.getD_eq_getElem?_getD, List.getElem?_eq_none h]

theorem getD_append_lt {α : Type} {l l' : List α} {i : Nat} (d : α)
    (h : i < l.length) : (l ++ l').getD i d = l.getD i d := by
  simp [List.getD_eq_getElem?_getD, List.getElem?_append_left h]

theorem getD_append_len {α : Type} {l : List α} (d a : α) :
    (l ++ [a]).getD l.length d = a := by
  simp [List.getD_eq_getElem?_getD, List.getElem?_concat_length]

theorem getD_set_self {α : Type} {l : List α} {i : Nat} (d a : α)
    (h : i < l.length) : (l.set i a).getD i d = a := by
  simp [List.getD_eq_getElem?_getD, List.getElem?_set, h]

theorem getD_set_ne {α : Type} {l : List α} {i j : Nat} (d a : α)
    (h : i ≠ j) : (l.set i a).getD j d = l.getD j d := by
  simp [List.getD_eq_getElem?_getD, List.getElem?_set, h]

theorem getD_set_elsewhere {α : Type} {l : List α} {i j : Nat} (d a : α) :
    j ≠ i → (l.set i a).getD j d = l.getD j d := fun h =>
  getD_set_ne d a (fun e => h e.symm)

theorem getD_take_lt {α : Type} {l : List α} {i n : Nat} (d : α)
    (h : i < n) : (l.take n).getD i d = l.getD i d := by
  simp [List.getD_eq_getElem?_getD, List.getElem?_take, h]

theorem getD_lt_mem {α : Type} {l : List α} {i : Nat} (d : α)
    (h : i < l.length) : l.getD i d ∈ l := by
  rw [List.getD_eq_getElem?_getD, List.getElem?_eq_getElem h]
  exact List.getElem_mem h

theorem list_ext_getD {α : Type} {l1 l2 : List α} (d : α)
    (hlen : l1.length = l2.length)
    (h : ∀ i, i < l1.length → l1.getD i d = l2.getD i d) : l1 = l2 := by
  apply List.ext_getElem hlen
  intro i h1 h2
  have := h i h1
  rwa [List.getD_eq_getElem?_getD, List.getD_eq_getElem?_getD,
    List.getElem?_eq_getElem h1, List.getElem?_eq_getElem h2] at this

theorem length_set_eq {α : Type} (l : List α) (i : Nat) (a : α) :
    (l.set i a).length = l.length := List.length_set ..

/-- `setV2I` behaves as a map update under `getD _ UINT_MAX`. -/
theorem setV2I_getD (l : List Nat) (v idx w : Nat) :
    (setV2I l v idx).getD w UINT_MAX
      = if w = v then idx else l.getD w UINT_MAX := by
  unfold setV2I
  by_cases hw : w = v
  · subst hw
    rw [if_pos rfl]
    apply getD_set_self
    simp only [List.length_append, List.length_replicate]
    omega
  · rw [getD_set_ne _ _ (fun e => hw e.symm), if_neg hw]
    by_cases hlt : w < l.length
    · exact getD_append_lt _ hlt
    · have hr : l.getD w UINT_MAX = UINT_MAX := getD_of_len_le _ (by omega)
      rw [hr]
      by_cases hlt2 : w < l.length + (v + 1 - l.length)
      · rw [List.getD_eq_getElem?_getD, List.getElem?_append_right (by omega),
          List.getElem?_replicate, if_pos (by omega)]
        rfl
      · apply getD_of_len_le
        simp only [List.length_append, List.length_replicate]
        omega

/-- Setting an entry to `UINT_MAX` always reads back as `UINT_MAX` at that
position (out-of-range sets are no-ops but then the default applies). -/
theorem set_UINT_getD_self (l : List Nat) (v : Nat) :
    (l.set v UINT_MAX).getD v UINT_MAX = UINT_MAX := by
  by_cases h : v < l.length
  · exact getD_set_self _ _ h
  · rw [getD_of_len_le]
    rw [List.length_set]
    omega

theorem find?_congr_mem {α : Type} {p q : α → Bool} {l : List α}
    (h : ∀ x ∈ l, p x = q x) : l.find? p = l.find? q := by
  induction l with
  | nil => rfl
  | cons a t ih =>
    have ha := h a (by simp)
    by_cases hp : p a = true
    · rw [List.find?_cons_of_pos _ hp, List.find?_cons_of_pos _ (ha ▸ hp)]
    · rw [List.find?_cons_of_neg _ hp, List.find?_cons_of_neg _ (ha ▸ hp)]
      exact ih (fun x hx => h x (by simp [hx]))

/-- `cutRun` of a leading run. -/
theorem cutRun_append_self (l1 l2 : List Nat) : cutRun (l1 ++ l2) l1 = l2 := by
  unfold cutRun
  rw [List.range_succ_eq_map,
    List.find?_cons_of_pos _ (by simp [List.take_left])]
  simp [List.drop_left]

/-- `cutRun` passes over a head element that does not occur in the pattern. -/
theorem cutRun_cons_of_not_head (a : Nat) (l pat : List Nat)
    (h : a ∉ pat) : cutRun (a :: l) pat = a :: cutRun l pat := by
  unfold cutRun
  cases hpat : pat with
  | nil =>
    rw [List.range_succ_eq_map, List.find?_cons_of_pos _ (by simp),
      List.range_succ_eq_map, List.find?_cons_of_pos _ (by simp)]
    simp
  | cons p ps =>
    rw [← hpat]
    have hne : pat ≠ [] := by simp [hpat]
    have h0 : ¬ ((((a :: l).drop 0).take pat.length) == pat) = true := by
      simp only [List.drop_zero]
      intro hcon
      rw [beq_iff_eq] at hcon
      apply h
      rw [← hcon]
      cases pat with
      | nil => simp at hne
      | cons q qs => simp [List.take_cons]
    have hlen : (a :: l).length = l.length + 1 := by simp
    rw [hlen, List.range_succ_eq_map, List.find?_cons_of_neg _ (by simpa using h0),
      List.find?_map]
    have hcg : ((List.range (l.length + 1)).find?
          ((fun k => (((a :: l).drop k).take pat.length) == pat) ∘ Nat.succ))
        = (List.range (l.length + 1)).find? (fun k => ((l.drop k).take pat.length) == pat) := by
      apply find?_congr_mem
      intro x hx
      simp [Function.comp, List.drop_succ_cons]
    rw [hcg]
    cases hf : (List.range (l.length + 1)).find?
        (fun k => ((l.drop k).take pat.length) == pat) with
    | none => simp
    | some k =>
      simp only [Option.map_some]
      show List.take (k + 1) (a :: l) ++ List.drop (k + 1 + pat.length) (a :: l)
          = a :: (List.take k l ++ List.drop (k + pat.length) l)
      have he : k + 1 + pat.length = (k + pat.length) + 1 := by omega
      rw [he, List.drop_succ_cons, List.take_succ_cons]
      rfl

theorem mem_of_mem_cutRun {x : Nat} {l pat : List Nat}
    (h : x ∈ cutRun l pat) : x ∈ l := by
  unfold cutRun at h
  cases hf : (List.range (l.length + 1)).find?
      (fun k => ((l.drop k).take pat.length) == pat) with
  | none => rwa [hf] at h
  | some k =>
    rw [hf] at h
    rcases List.mem_append.mp h with h' | h'
    · exact List.mem_of_mem_take h'
    · exact List.mem_of_mem_drop h'

/-! ## State abbreviations and invariants -/

/-- Number of live monomial slots. -/
def EState.mlen (S : EState) : Nat := S.monomials.length

/-- The monomial stored in slot `i`. -/
def EState.monAt (S : EState) (i : Nat) : Monomial := S.monomials.getD i default

/-- The cached canonical form of slot `i`. -/
def EState.canonAt (S : EState) (i : Nat) : SignedVars := S.canonized.getD i default

/-- Whether slot `i` is currently linked into the congruence structure. -/
def EState.markedAt (S : EState) (i : Nat) : Bool := S.cgIn.getD i false

/-- Sign-equivalence ring successor of slot `i`. -/
def EState.nxAt (S : EState) (i : Nat) : Nat := S.ringNext.getD i i

/-- Sign-equivalence ring predecessor of slot `i`. -/
def EState.pvAt (S : EState) (i : Nat) : Nat := S.ringPrev.getD i i

/-- Structural well-formedness that holds at every step, including in the
middle of a merge or unmerge cascade or of the slot-retirement loop of a
`pop`.  The cut `c` is the number of slots still fully registered: slots
`≥ c` have already been retired (their `m_var2index` entry cleared, their
congruence entry removed, their ring links self-looped).  Outside a `pop`,
`c = S.mlen`.  The components: lengths agree, `m_var2index` is a two-sided
inverse of the slot-to-variable map on registered slots, congruence-table
members are registered linked slots, every linked slot's canonical content
has a table member, distinct members have distinct content, the ring links
form a permutation pairing, and occurrence lists mention registered slots
only. -/
structure Jp (S : EState) (c : Nat) : Prop where
  hc : c ≤ S.mlen
  len_c : S.canonized.length = S.mlen
  len_nx : S.ringNext.length = S.mlen
  len_pv : S.ringPrev.length = S.mlen
  len_in : S.cgIn.length = S.mlen
  v2i_mvar : ∀ i, i < c → S.v2i (S.monAt i).var = i
  mvar_lt : ∀ i, i < S.mlen → (S.monAt i).var < UINT_MAX
  v2i_sound : ∀ v, S.v2i v ≠ UINT_MAX → S.v2i v < c ∧ (S.monAt (S.v2i v)).var = v
  unmarked_high : ∀ i, c ≤ i → S.markedAt i = false
  cg_sound : ∀ u ∈ S.cgTable,
    S.v2i u < c ∧ (S.monAt (S.v2i u)).var = u ∧ S.markedAt (S.v2i u) = true
  cg_mix : ∀ i, i < c → S.markedAt i = true →
    ∃ u ∈ S.cgTable, S.cgVarsOf u = (S.canonAt i).vars
  table_fun : ∀ u ∈ S.cgTable, ∀ w ∈ S.cgTable, u ≠ w → S.cgVarsOf u ≠ S.cgVarsOf w
  table_nodup : S.cgTable.Nodup
  ring_nx_lt : ∀ i, i < S.mlen → S.nxAt i < S.mlen
  ring_pv_lt : ∀ i, i < S.mlen → S.pvAt i < S.mlen
  ring_pn : ∀ i, i < S.mlen → S.pvAt (S.nxAt i) = i
  ring_np : ∀ i, i < S.mlen → S.nxAt (S.pvAt i) = i
  ring_high_self : ∀ i, c ≤ i → S.nxAt i = i ∧ S.pvAt i = i
  ul_lt : ∀ v, ∀ x ∈ S.useLists v, x < c

/-- The well-formedness holding at every protocol step and throughout merge
and unmerge cascades: `Jp` with no retired slots. -/
def Jinv (S : EState) : Prop := Jp S S.mlen

/-- The quiescent invariant: `Jinv` together with the facts that hold
between protocol steps — the union-find map is idempotent, every cached
canonical form is fresh with respect to it, every live slot is linked into
the congruence structure, the use lists of class roots index exactly the
monomials whose canonical form mentions the root, pending merge-trail entries
name absorbed (non-root) variables whose lists are frozen, and the scope
stacks line up. -/
structure Inv (S : EState) : Prop where
  j : Jinv S
  vewf : ∀ v, S.ve ((S.ve v).var) = ⟨(S.ve v).var, false⟩
  fresh : ∀ i, i < S.mlen → S.canonAt i = do_canonize S.ve (S.monAt i)
  all_marked : ∀ i, i < S.mlen → S.markedAt i = true
  ul_mem : ∀ r, IsRoot S.ve r → ∀ i, i < S.mlen →
    (i ∈ S.useLists r ↔ r ∈ (S.canonAt i).vars)
  trail_nonroot : ∀ t ∈ S.trail, ¬ IsRoot S.ve t.r1
  trail_pw : S.trail.Pairwise (fun a b => a.r1 ≠ b.r1 ∧ a.r2 ≠ b.r1)
  lim_len : S.lim.length = S.trailLim.length
  lim_le : ∀ n ∈ S.lim, n ≤ S.mlen
  lim_sorted : S.lim.Sorted (fun a b => b ≤ a)
  tlim_le : ∀ t ∈ S.trailLim, t ≤ S.trail.length
  tlim_sorted : S.trailLim.Sorted (fun a b => b ≤ a)

/-- Observational agreement: equality of every component that the claims and
the protocol can observe.  The congruence table is deliberately excluded
(only its content up to congruence is determined — which member variable
represents a class depends on rehash processing order), and so are the ring
links and the table-membership flags' interaction with them. -/
structure ObsEq (A B : EState) : Prop where
  ve : A.ve = B.ve
  monomials : A.monomials = B.monomials
  canonized : A.canonized = B.canonized
  useLists : ∀ v, A.useLists v = B.useLists v
  v2i : ∀ v, A.v2i v = B.v2i v
  cgIn : A.cgIn = B.cgIn
  trail : A.trail = B.trail
  lim : A.lim = B.lim
  trailLim : A.trailLim = B.trailLim

theorem ObsEq.refl (A : EState) : ObsEq A A :=
  ⟨rfl, rfl, rfl, fun _ => rfl, fun _ => rfl, rfl, rfl, rfl, rfl⟩

theorem ObsEq.trans {A B C : EState} (h1 : ObsEq A B) (h2 : ObsEq B C) : ObsEq A C :=
  ⟨h1.ve.trans h2.ve, h1.monomials.trans h2.monomials, h1.canonized.trans h2.canonized,
   fun v => (h1.useLists v).trans (h2.useLists v), fun v => (h1.v2i v).trans (h2.v2i v),
   h1.cgIn.trans h2.cgIn, h1.trail.trans h2.trail, h1.lim.trans h2.lim,
   h1.trailLim.trans h2.trailLim⟩

/-- The scope stack discipline: each entry is the quiescent state a `pop1`
restores observationally. -/
inductive GoodStack : EState → List EState → Prop where
  | nil {S} : S.lim = [] → S.trailLim = [] → GoodStack S []
  | cons {S S1 st} : ObsEq S.pop1 S1 → Inv S1 → GoodStack S1 st →
      GoodStack S (S1 :: st)

/-! ## Projection lemmas for the operations -/

theorem insert_cg_skel (S : EState) (v : Nat) :
    (S.insert_cg v).ve = S.ve ∧ (S.insert_cg v).monomials = S.monomials ∧
    (S.insert_cg v).canonized = S.canonized ∧ (S.insert_cg v).var2index = S.var2index ∧
    (S.insert_cg v).useLists = S.useLists ∧ (S.insert_cg v).lim = S.lim ∧
    (S.insert_cg v).trailLim = S.trailLim ∧ (S.insert_cg v).trail = S.trail := by
  unfold EState.insert_cg
  split <;> exact ⟨rfl, rfl, rfl, rfl, rfl, rfl, rfl, rfl⟩

theorem insert_cg_cgIn (S : EState) (v : Nat) :
    (S.insert_cg v).cgIn = S.cgIn.set (S.v2i v) true := by
  unfold EState.insert_cg
  split <;> rfl

theorem remove_cg_skel (S : EState) (v : Nat) :
    (S.remove_cg v).ve = S.ve ∧ (S.remove_cg v).monomials = S.monomials ∧
    (S.remove_cg v).canonized = S.canonized ∧ (S.remove_cg v).var2index = S.var2index ∧
    (S.remove_cg v).useLists = S.useLists ∧ (S.remove_cg v).lim = S.lim ∧
    (S.remove_cg v).trailLim = S.trailLim ∧ (S.remove_cg v).trail = S.trail := by
  unfold EState.remove_cg
  dsimp only
  split
  · split <;> exact ⟨rfl, rfl, rfl, rfl, rfl, rfl, rfl, rfl⟩
  · exact ⟨rfl, rfl, rfl, rfl, rfl, rfl, rfl, rfl⟩

theorem remove_cg_cgIn (S : EState) (v : Nat) :
    (S.remove_cg v).cgIn = S.cgIn.set (S.v2i v) false := by
  unfold EState.remove_cg
  dsimp only
  split
  · split <;> rfl
  · rfl

theorem remove_cg_rings (S : EState) (v : Nat) :
    (S.remove_cg v).ringNext = (ringUnlink S.ringNext S.ringPrev (S.v2i v)).1 ∧
    (S.remove_cg v).ringPrev = (ringUnlink S.ringNext S.ringPrev (S.v2i v)).2 := by
  unfold EState.remove_cg
  dsimp only
  split
  · split <;> exact ⟨rfl, rfl⟩
  · exact ⟨rfl, rfl⟩

theorem insert_cg_ve (S : EState) (v : Nat) : (S.insert_cg v).ve = S.ve :=
  (insert_cg_skel S v).1

theorem insert_cg_monomials (S : EState) (v : Nat) :
    (S.insert_cg v).monomials = S.monomials := (insert_cg_skel S v).2.1

theorem insert_cg_canonized (S : EState) (v : Nat) :
    (S.insert_cg v).canonized = S.canonized := (insert_cg_skel S v).2.2.1

theorem insert_cg_var2index (S : EState) (v : Nat) :
    (S.insert_cg v).var2index = S.var2index := (insert_cg_skel S v).2.2.2.1

theorem insert_cg_useLists (S : EState) (v : Nat) :
    (S.insert_cg v).useLists = S.useLists := (insert_cg_skel S v).2.2.2.2.1

theorem insert_cg_lim (S : EState) (v : Nat) :
    (S.insert_cg v).lim = S.lim := (insert_cg_skel S v).2.2.2.2.2.1

theorem insert_cg_trailLim (S : EState) (v : Nat) :
    (S.insert_cg v).trailLim = S.trailLim := (insert_cg_skel S v).2.2.2.2.2.2.1

theorem insert_cg_trail (S : EState) (v : Nat) :
    (S.insert_cg v).trail = S.trail := (insert_cg_skel S v).2.2.2.2.2.2.2

theorem remove_cg_ve (S : EState) (v : Nat) : (S.remove_cg v).ve = S.ve :=
  (remove_cg_skel S v).1

theorem remove_cg_monomials (S : EState) (v : Nat) :
    (S.remove_cg v).monomials = S.monomials := (remove_cg_skel S v).2.1

theorem remove_cg_canonized (S : EState) (v : Nat) :
    (S.remove_cg v).canonized = S.canonized := (remove_cg_skel S v).2.2.1

theorem remove_cg_var2index (S : EState) (v : Nat) :
    (S.remove_cg v).var2index = S.var2index := (remove_cg_skel S v).2.2.2.1

theorem remove_cg_useLists (S : EState) (v : Nat) :
    (S.remove_cg v).useLists = S.useLists := (remove_cg_skel S v).2.2.2.2.1

theorem remove_cg_lim (S : EState) (v : Nat) :
    (S.remove_cg v).lim = S.lim := (remove_cg_skel S v).2.2.2.2.2.1

theorem remove_cg_trailLim (S : EState) (v : Nat) :
    (S.remove_cg v).trailLim = S.trailLim := (remove_cg_skel S v).2.2.2.2.2.2.1

theorem remove_cg_trail (S : EState) (v : Nat) :
    (S.remove_cg v).trail = S.trail := (remove_cg_skel S v).2.2.2.2.2.2.2

theorem rehash1_skel (S : EState) (i : Nat) :
    (S.rehash1 i).ve = S.ve ∧ (S.rehash1 i).monomials = S.monomials ∧
    (S.rehash1 i).var2index = S.var2index ∧
    (S.rehash1 i).useLists = S.useLists ∧ (S.rehash1 i).lim = S.lim ∧
    (S.rehash1 i).trailLim = S.trailLim ∧ (S.rehash1 i).trail = S.trail := by
  unfold EState.rehash1
  dsimp only
  refine ⟨?_, ?_, ?_, ?_, ?_, ?_, ?_⟩ <;>
    simp only [insert_cg_ve, insert_cg_monomials, insert_cg_var2index,
      insert_cg_useLists, insert_cg_lim, insert_cg_trailLim, insert_cg_trail,
      remove_cg_ve, remove_cg_monomials, remove_cg_var2index,
      remove_cg_useLists, remove_cg_lim, remove_cg_trailLim, remove_cg_trail]

theorem rehash1_canonized (S : EState) (i : Nat) :
    (S.rehash1 i).canonized
      = S.canonized.set i (do_canonize S.ve (S.monomials.getD i default)) := by
  unfold EState.rehash1
  dsimp only
  simp only [insert_cg_canonized, remove_cg_ve, remove_cg_canonized]

theorem foldl_rehash_skel (l : List Nat) (S : EState) :
    (l.foldl EState.rehash1 S).ve = S.ve ∧
    (l.foldl EState.rehash1 S).monomials = S.monomials ∧
    (l.foldl EState.rehash1 S).var2index = S.var2index ∧
    (l.foldl EState.rehash1 S).useLists = S.useLists ∧
    (l.foldl EState.rehash1 S).lim = S.lim ∧
    (l.foldl EState.rehash1 S).trailLim = S.trailLim ∧
    (l.foldl EState.rehash1 S).trail = S.trail := by
  induction l generalizing S with
  | nil => exact ⟨rfl, rfl, rfl, rfl, rfl, rfl, rfl⟩
  | cons a t ih =>
    rw [List.foldl_cons]
    have h1 := ih (S.rehash1 a)
    have h2 := rehash1_skel S a
    exact ⟨h1.1.trans h2.1, h1.2.1.trans h2.2.1, h1.2.2.1.trans h2.2.2.1,
      h1.2.2.2.1.trans h2.2.2.2.1, h1.2.2.2.2.1.trans h2.2.2.2.2.1,
      h1.2.2.2.2.2.1.trans h2.2.2.2.2.2.1, h1.2.2.2.2.2.2.trans h2.2.2.2.2.2.2⟩

/-- Canonical-cache contents after a rehash fold: every index in the list is
rewritten to its recomputation against the (unchanged) union-find state, the
rest is untouched. -/
theorem foldl_rehash_canonAt (l : List Nat) (S : EState) (j : Nat)
    (hl : ∀ x ∈ l, x < S.canonized.length) :
    (l.foldl EState.rehash1 S).canonized.getD j default
      = if j ∈ l then do_canonize S.ve (S.monomials.getD j default)
        else S.canonized.getD j default := by
  induction l generalizing S with
  | nil => simp
  | cons a t ih =>
    rw [List.foldl_cons, ih _ (by
      intro x hx
      rw [rehash1_canonized, List.length_set]
      exact hl x (List.mem_cons_of_mem _ hx))]
    have hsk := rehash1_skel S a
    rw [hsk.1, hsk.2.1, rehash1_canonized]
    by_cases hj : j ∈ a :: t
    · rw [if_pos hj]
      by_cases hjt : j ∈ t
      · rw [if_pos hjt]
      · have hja : j = a := by
          rcases List.mem_cons.mp hj with h | h
          · exact h
          · exact absurd h hjt
        subst hja
        rw [if_neg hjt]
        exact getD_set_self _ _ (hl j (List.mem_cons_self _ _))
    · rw [if_neg hj]
      have hjt : j ∉ t := fun h => hj (List.mem_cons_of_mem _ h)
      have hja : j ≠ a := fun h => hj (h ▸ List.mem_cons_self _ _)
      rw [if_neg hjt, getD_set_elsewhere _ _ hja]

theorem foldl_rehash_canonized_length (l : List Nat) (S : EState) :
    (l.foldl EState.rehash1 S).canonized.length = S.canonized.length := by
  induction l generalizing S with
  | nil => rfl
  | cons a t ih =>
    rw [List.foldl_cons, ih, rehash1_canonized, List.length_set]

theorem set_getD_eq_self {α : Type} {l : List α} {i : Nat} {a : α} (d : α)
    (h : l.getD i d = a) : l.set i a = l := by
  apply list_ext_getD d (List.length_set ..)
  intro j hj
  rw [List.length_set] at hj
  by_cases hji : j = i
  · subst hji
    rw [getD_set_self _ _ hj]
    exact h.symm
  · exact getD_set_elsewhere _ _ hji

theorem rehash1_cgIn (S : EState) (i : Nat) :
    (S.rehash1 i).cgIn = S.cgIn.set (S.v2i (S.mvarOf i)) true := by
  unfold EState.rehash1
  dsimp only
  rw [insert_cg_cgIn]
  show ((S.remove_cg (S.monomials.getD i default).var).cgIn.set
      ((S.remove_cg (S.monomials.getD i default).var).v2i
        (S.monomials.getD i default).var) true)
    = S.cgIn.set (S.v2i (S.mvarOf i)) true
  rw [remove_cg_cgIn]
  have hvv : (S.remove_cg (S.monomials.getD i default).var).v2i
      (S.monomials.getD i default).var
      = S.v2i (S.monomials.getD i default).var := by
    show ((S.remove_cg (S.monomials.getD i default).var).var2index).getD
        (S.monomials.getD i default).var UINT_MAX = _
    rw [remove_cg_var2index]
    rfl
  rw [hvv, List.set_set]
  rfl

theorem foldl_rehash_cgIn (l : List Nat) (S : EState) (j : Nat)
    (hl : ∀ x ∈ l, S.v2i (S.mvarOf x) = x ∧ x < S.cgIn.length) :
    (l.foldl EState.rehash1 S).cgIn.getD j false
      = if j ∈ l then true else S.cgIn.getD j false := by
  induction l generalizing S with
  | nil => simp
  | cons a t ih =>
    obtain ⟨hva, hla⟩ := hl a (List.mem_cons_self _ _)
    have hsk := rehash1_skel S a
    rw [List.foldl_cons, ih _ (by
      intro x hx
      obtain ⟨h1, h2⟩ := hl x (List.mem_cons_of_mem _ hx)
      constructor
      · show ((S.rehash1 a).var2index).getD
          (((S.rehash1 a).monomials.getD x default).var) UINT_MAX = x
        rw [hsk.2.1, hsk.2.2.1]
        exact h1
      · rw [rehash1_cgIn, List.length_set]
        exact h2)]
    rw [rehash1_cgIn, hva]
    by_cases hj : j ∈ a :: t
    · rw [if_pos hj]
      by_cases hjt : j ∈ t
      · rw [if_pos hjt]
      · have hja : j = a := by
          rcases List.mem_cons.mp hj with h | h
          · exact h
          · exact absurd h hjt
        subst hja
        rw [if_neg hjt]
        exact getD_set_self _ _ hla
    · rw [if_neg hj]
      have hjt : j ∉ t := fun h => hj (List.mem_cons_of_mem _ h)
      have hja : j ≠ a := fun h => hj (h ▸ List.mem_cons_self _ _)
      rw [if_neg hjt, getD_set_elsewhere _ _ hja]

theorem foldl_rehash_cgIn_length (l : List Nat) (S : EState) :
    (l.foldl EState.rehash1 S).cgIn.length = S.cgIn.length := by
  induction l generalizing S with
  | nil => rfl
  | cons a t ih =>
    rw [List.foldl_cons, ih, rehash1_cgIn, List.length_set]

theorem removeMon_skel (S : EState) (i : Nat) :
    (S.removeMon i).ve = S.ve ∧ (S.removeMon i).monomials = S.monomials ∧
    (S.removeMon i).canonized = S.canonized ∧
    (S.removeMon i).lim = S.lim ∧
    (S.removeMon i).trailLim = S.trailLim ∧ (S.removeMon i).trail = S.trail := by
  unfold EState.removeMon
  have h2 := remove_cg_skel S (S.mvarOf i)
  exact ⟨h2.1, h2.2.1, h2.2.2.1, h2.2.2.2.2.2.1, h2.2.2.2.2.2.2.1, h2.2.2.2.2.2.2.2⟩

theorem removeMon_useLists (S : EState) (i : Nat) :
    (S.removeMon i).useLists = fun w => (S.useLists w).filter (fun x => x != i) := by
  unfold EState.removeMon
  have h2 := remove_cg_skel S (S.mvarOf i)
  simp only [h2.2.2.2.2.1]

theorem removeMon_var2index (S : EState) (i : Nat) :
    (S.removeMon i).var2index = S.var2index.set (S.mvarOf i) UINT_MAX := by
  unfold EState.removeMon
  have h2 := remove_cg_skel S (S.mvarOf i)
  simp only [h2.2.2.2.1]

theorem removeMon_cgIn (S : EState) (i : Nat) :
    (S.removeMon i).cgIn = S.cgIn.set (S.v2i (S.mvarOf i)) false := by
  unfold EState.removeMon
  rw [remove_cg_cgIn]

theorem removeDownFrom_skel (S : EState) (n0 k : Nat) :
    (S.removeDownFrom n0 k).ve = S.ve ∧
    (S.removeDownFrom n0 k).monomials = S.monomials ∧
    (S.removeDownFrom n0 k).canonized = S.canonized ∧
    (S.removeDownFrom n0 k).lim = S.lim ∧
    (S.removeDownFrom n0 k).trailLim = S.trailLim ∧
    (S.removeDownFrom n0 k).trail = S.trail := by
  induction k generalizing S with
  | zero => exact ⟨rfl, rfl, rfl, rfl, rfl, rfl⟩
  | succ k ih =>
    show ((S.removeMon (n0 + k)).removeDownFrom n0 k).ve = S.ve ∧ _
    have h1 := ih (S.removeMon (n0 + k))
    have h2 := removeMon_skel S (n0 + k)
    exact ⟨h1.1.trans h2.1, h1.2.1.trans h2.2.1, h1.2.2.1.trans h2.2.2.1,
      h1.2.2.2.1.trans h2.2.2.2.1, h1.2.2.2.2.1.trans h2.2.2.2.2.1,
      h1.2.2.2.2.2.trans h2.2.2.2.2.2⟩

theorem onMerge_skel (S : EState) (r1 r2 : Nat) (s : Bool) :
    (S.onMerge r1 r2 s).ve = mergeVE S.ve r1 r2 s ∧
    (S.onMerge r1 r2 s).monomials = S.monomials ∧
    (S.onMerge r1 r2 s).var2index = S.var2index ∧
    (S.onMerge r1 r2 s).useLists
      = (fun w => if w = r2 then S.useLists r1 ++ S.useLists r2 else S.useLists w) ∧
    (S.onMerge r1 r2 s).lim = S.lim ∧
    (S.onMerge r1 r2 s).trailLim = S.trailLim ∧
    (S.onMerge r1 r2 s).trail = ⟨r1, r2, s, S.ve⟩ :: S.trail := by
  unfold EState.onMerge
  have h := foldl_rehash_skel ((S.useLists r1 ++ S.useLists r2).dedup)
    { S with
      ve := mergeVE S.ve r1 r2 s,
      useLists := fun w => if w = r2 then S.useLists r1 ++ S.useLists r2 else S.useLists w,
      trail := ⟨r1, r2, s, S.ve⟩ :: S.trail }
  exact ⟨h.1, h.2.1, h.2.2.1, h.2.2.2.1, h.2.2.2.2.1, h.2.2.2.2.2.1, h.2.2.2.2.2.2⟩

/-! ## Ring surgery -/

theorem ringUnlink_nx_char (nx pv : List Nat) (n i : Nat)
    (hnx : nx.length = n) (hi : i < n) (hpv_lt : pv.getD i i < n) (j : Nat) :
    (ringUnlink nx pv i).1.getD j j
      = if j = i then i
        else if j = pv.getD i i then nx.getD i i else nx.getD j j := by
  unfold ringUnlink
  dsimp only
  by_cases hji : j = i
  · subst hji
    rw [if_pos rfl]
    exact getD_set_self _ _ (by rw [List.length_set]; omega)
  · rw [if_neg hji, getD_set_elsewhere _ _ hji]
    by_cases hjp : j = pv.getD i i
    · subst hjp
      rw [if_pos rfl]
      exact getD_set_self _ _ (by omega)
    · rw [if_neg hjp, getD_set_elsewhere _ _ hjp]

theorem ringUnlink_pv_char (nx pv : List Nat) (n i : Nat)
    (hpv : pv.length = n) (hi : i < n) (hnx_lt : nx.getD i i < n) (j : Nat) :
    (ringUnlink nx pv i).2.getD j j
      = if j = i then i
        else if j = nx.getD i i then pv.getD i i else pv.getD j j := by
  unfold ringUnlink
  dsimp only
  by_cases hji : j = i
  · subst hji
    rw [if_pos rfl]
    exact getD_set_self _ _ (by rw [List.length_set]; omega)
  · rw [if_neg hji, getD_set_elsewhere _ _ hji]
    by_cases hjp : j = nx.getD i i
    · subst hjp
      rw [if_pos rfl]
      exact getD_set_self _ _ (by omega)
    · rw [if_neg hjp, getD_set_elsewhere _ _ hjp]

theorem ringUnlink_lengths (nx pv : List Nat) (i : Nat) :
    (ringUnlink nx pv i).1.length = nx.length ∧
    (ringUnlink nx pv i).2.length = pv.length := by
  unfold ringUnlink
  dsimp only
  rw [List.length_set, List.length_set, List.length_set, List.length_set]
  exact ⟨rfl, rfl⟩

theorem ringLink_nx_char (nx pv : List Nat) (n i j : Nat)
    (hnx : nx.length = n) (hi : i < n) (hj : j < n) (hij : i ≠ j) (w : Nat) :
    (ringLink nx pv i j).1.getD w w
      = if w = i then nx.getD j j
        else if w = j then i else nx.getD w w := by
  unfold ringLink
  dsimp only
  by_cases hwi : w = i
  · subst hwi
    rw [if_pos rfl]
    exact getD_set_self _ _ (by rw [List.length_set]; omega)
  · rw [if_neg hwi, getD_set_elsewhere _ _ hwi]
    by_cases hwj : w = j
    · subst hwj
      rw [if_pos rfl]
      exact getD_set_self _ _ (by omega)
    · rw [if_neg hwj, getD_set_elsewhere _ _ hwj]

theorem ringLink_pv_char (nx pv : List Nat) (n i j : Nat)
    (hpv : pv.length = n) (hi : i < n) (_hj : j < n) (hij : i ≠ j)
    (hnj_lt : nx.getD j j < n) (w : Nat) :
    (ringLink nx pv i j).2.getD w w
      = if w = i then j
        else if w = nx.getD j j then i else pv.getD w w := by
  unfold ringLink
  dsimp only
  by_cases hwi : w = i
  · subst hwi
    rw [if_pos rfl]
    exact getD_set_self _ _ (by rw [List.length_set]; omega)
  · rw [if_neg hwi, getD_set_elsewhere _ _ hwi]
    by_cases hwj : w = nx.getD j j
    · subst hwj
      rw [if_pos rfl]
      exact getD_set_self _ _ (by omega)
    · rw [if_neg hwj, getD_set_elsewhere _ _ hwj]

theorem ringLink_lengths (nx pv : List Nat) (i j : Nat) :
    (ringLink nx pv i j).1.length = nx.length ∧
    (ringLink nx pv i j).2.length = pv.length := by
  unfold ringLink
  dsimp only
  rw [List.length_set, List.length_set, List.length_set, List.length_set]
  exact ⟨rfl, rfl⟩

/-- A well-formed doubly-linked pairing on `[0, n)`. -/
structure RingWf (nx pv : List Nat) (n : Nat) : Prop where
  len_nx : nx.length = n
  len_pv : pv.length = n
  nx_lt : ∀ i, i < n → nx.getD i i < n
  pv_lt : ∀ i, i < n → pv.getD i i < n
  pn : ∀ i, i < n → pv.getD (nx.getD i i) (nx.getD i i) = i
  np : ∀ i, i < n → nx.getD (pv.getD i i) (pv.getD i i) = i

theorem RingWf.nx_inj {nx pv : List Nat} {n : Nat} (h : RingWf nx pv n)
    {a b : Nat} (ha : a < n) (hb : b < n)
    (hab : nx.getD a a = nx.getD b b) : a = b := by
  have h1 := h.pn a ha
  have h2 := h.pn b hb
  rw [hab] at h1
  omega

/-- Unlinking preserves ring well-formedness, self-loops the unlinked slot,
and leaves no link pointing at it. -/
theorem ringUnlink_wf {nx pv : List Nat} {n i : Nat}
    (h : RingWf nx pv n) (hi : i < n) :
    RingWf (ringUnlink nx pv i).1 (ringUnlink nx pv i).2 n ∧
    (ringUnlink nx pv i).1.getD i i = i ∧
    (ringUnlink nx pv i).2.getD i i = i ∧
    (∀ k, k < n → k ≠ i →
      (ringUnlink nx pv i).1.getD k k ≠ i ∧ (ringUnlink nx pv i).2.getD k k ≠ i) ∧
    (∀ k, k ≠ i → k ≠ pv.getD i i →
      (ringUnlink nx pv i).1.getD k k = nx.getD k k) ∧
    (∀ k, k ≠ i → k ≠ nx.getD i i →
      (ringUnlink nx pv i).2.getD k k = pv.getD k k) := by
  have hNi := h.nx_lt i hi
  have hPi := h.pv_lt i hi
  have hnxc := ringUnlink_nx_char nx pv n i h.len_nx hi hPi
  have hpvc := ringUnlink_pv_char nx pv n i h.len_pv hi hNi
  have hlen := ringUnlink_lengths nx pv i
  -- pairing facts of the original
  have hpn := h.pn
  have hnp := h.np
  -- basic consequences
  have hNi_ne : nx.getD i i = i → pv.getD i i = i := fun e => by
    have := hpn i hi
    rw [e] at this
    exact this
  have hPi_ne : pv.getD i i = i → nx.getD i i = i := fun e => by
    have := hnp i hi
    rw [e] at this
    exact this
  refine ⟨⟨hlen.1.trans h.len_nx, hlen.2.trans h.len_pv, ?_, ?_, ?_, ?_⟩, ?_, ?_, ?_, ?_, ?_⟩
  · -- nx bounds
    intro k hk
    rw [hnxc k]
    by_cases h1 : k = i
    · simpa [h1] using hi
    · rw [if_neg h1]
      by_cases h2 : k = pv.getD i i
      · rw [if_pos h2]; exact hNi
      · rw [if_neg h2]; exact h.nx_lt k hk
  · -- pv bounds
    intro k hk
    rw [hpvc k]
    by_cases h1 : k = i
    · simpa [h1] using hi
    · rw [if_neg h1]
      by_cases h2 : k = nx.getD i i
      · rw [if_pos h2]; exact hPi
      · rw [if_neg h2]; exact h.pv_lt k hk
  · -- pv' (nx' k) = k
    intro k hk
    rw [hnxc k]
    by_cases h1 : k = i
    · rw [if_pos h1, hpvc i, if_pos rfl]; exact h1.symm
    · rw [if_neg h1]
      by_cases h2 : k = pv.getD i i
      · -- k = P i, nx' k = N i
        rw [if_pos h2, hpvc (nx.getD i i)]
        have hNii : nx.getD i i ≠ i := by
          intro e
          exact h1 (h2.trans (hNi_ne e))
        rw [if_neg hNii, if_pos rfl]
        exact h2.symm
      · rw [if_neg h2, hpvc (nx.getD k k)]
        have hNk_ne_i : nx.getD k k ≠ i := by
          intro e
          apply h2
          have := hpn k hk
          rw [e] at this
          exact this.symm
        rw [if_neg hNk_ne_i]
        have hNk_ne_Ni : nx.getD k k ≠ nx.getD i i := by
          intro e
          exact h1 (h.nx_inj hk hi e)
        rw [if_neg hNk_ne_Ni]
        exact hpn k hk
  · -- nx' (pv' k) = k
    intro k hk
    rw [hpvc k]
    by_cases h1 : k = i
    · rw [if_pos h1, hnxc i, if_pos rfl]; exact h1.symm
    · rw [if_neg h1]
      by_cases h2 : k = nx.getD i i
      · rw [if_pos h2, hnxc (pv.getD i i)]
        have hPii : pv.getD i i ≠ i := by
          intro e
          exact h1 (h2.trans (hPi_ne e))
        rw [if_neg hPii, if_pos rfl]
        exact h2.symm
      · rw [if_neg h2, hnxc (pv.getD k k)]
        have hPk_ne_i : pv.getD k k ≠ i := by
          intro e
          apply h2
          have := hnp k hk
          rw [e] at this
          exact this.symm
        rw [if_neg hPk_ne_i]
        have hPk_ne_Pi : pv.getD k k ≠ pv.getD i i := by
          intro e
          apply h1
          have e1 := hnp k hk
          have e2 := hnp i hi
          rw [e] at e1
          omega
        rw [if_neg hPk_ne_Pi]
        exact hnp k hk
  · rw [hnxc i, if_pos rfl]
  · rw [hpvc i, if_pos rfl]
  · -- nothing points at i afterwards
    intro k hk hki
    constructor
    · rw [hnxc k, if_neg hki]
      by_cases h2 : k = pv.getD i i
      · rw [if_pos h2]
        intro e
        exact hki (h2.trans (hNi_ne e))
      · rw [if_neg h2]
        intro e
        apply h2
        have := hpn k hk
        rw [e] at this
        exact this.symm
    · rw [hpvc k, if_neg hki]
      by_cases h2 : k = nx.getD i i
      · rw [if_pos h2]
        intro e
        exact hki (h2.trans (hPi_ne e))
      · rw [if_neg h2]
        intro e
        apply h2
        have := hnp k hk
        rw [e] at this
        exact this.symm
  · intro k hk1 hk2
    rw [hnxc k, if_neg hk1, if_neg hk2]
  · intro k hk1 hk2
    rw [hpvc k, if_neg hk1, if_neg hk2]

/-- Linking a self-looped slot `i` after a slot `j` preserves ring
well-formedness. -/
theorem ringLink_wf {nx pv : List Nat} {n i j : Nat}
    (h : RingWf nx pv n) (hi : i < n) (hj : j < n) (hij : i ≠ j)
    (hself_n : nx.getD i i = i) (hself_p : pv.getD i i = i) :
    RingWf (ringLink nx pv i j).1 (ringLink nx pv i j).2 n := by
  have hNj := h.nx_lt j hj
  have hnxc := ringLink_nx_char nx pv n i j h.len_nx hi hj hij
  have hpvc := ringLink_pv_char nx pv n i j h.len_pv hi hj hij hNj
  have hlen := ringLink_lengths nx pv i j
  have hNj_ne_i : nx.getD j j ≠ i := by
    intro e
    have := h.pn j hj
    rw [e, hself_p] at this
    exact hij this
  have hPw_ne_i : ∀ w, w < n → w ≠ i → pv.getD w w ≠ i := by
    intro w hw hwi e
    have := h.np w hw
    rw [e, hself_n] at this
    exact hwi this.symm
  have hNw_ne_i : ∀ w, w < n → w ≠ i → nx.getD w w ≠ i := by
    intro w hw hwi e
    have := h.pn w hw
    rw [e, hself_p] at this
    exact hwi this.symm
  refine ⟨hlen.1.trans h.len_nx, hlen.2.trans h.len_pv, ?_, ?_, ?_, ?_⟩
  · intro k hk
    rw [hnxc k]
    by_cases h1 : k = i
    · rw [if_pos h1]; exact hNj
    · rw [if_neg h1]
      by_cases h2 : k = j
      · rw [if_pos h2]; exact hi
      · rw [if_neg h2]; exact h.nx_lt k hk
  · intro k hk
    rw [hpvc k]
    by_cases h1 : k = i
    · rw [if_pos h1]; exact hj
    · rw [if_neg h1]
      by_cases h2 : k = nx.getD j j
      · rw [if_pos h2]; exact hi
      · rw [if_neg h2]; exact h.pv_lt k hk
  · intro k hk
    rw [hnxc k]
    by_cases h1 : k = i
    · -- nx' i = N j; pv' (N j) = i
      rw [if_pos h1, hpvc (nx.getD j j), if_neg hNj_ne_i, if_pos rfl]
      exact h1.symm
    · rw [if_neg h1]
      by_cases h2 : k = j
      · rw [if_pos h2, hpvc i, if_pos rfl]
        exact h2.symm
      · rw [if_neg h2, hpvc (nx.getD k k), if_neg (hNw_ne_i k hk h1)]
        have : nx.getD k k ≠ nx.getD j j := by
          intro e
          exact h2 (h.nx_inj hk hj e)
        rw [if_neg this]
        exact h.pn k hk
  · intro k hk
    rw [hpvc k]
    by_cases h1 : k = i
    · rw [if_pos h1, hnxc j, if_neg (fun e => hij e.symm), if_pos rfl]
      exact h1.symm
    · rw [if_neg h1]
      by_cases h2 : k = nx.getD j j
      · rw [if_pos h2, hnxc i, if_pos rfl]
        exact h2.symm
      · rw [if_neg h2]
        rw [hnxc (pv.getD k k), if_neg (hPw_ne_i k hk h1)]
        by_cases h3 : pv.getD k k = j
        · exfalso
          apply h2
          have := h.np k hk
          rw [h3] at this
          exact this.symm
        · rw [if_neg h3]
          exact h.np k hk

/-! ## Characterizations of the congruence-table operations -/

theorem set_false_getD_self (l : List Bool) (i : Nat) :
    (l.set i false).getD i false = false := by
  by_cases h : i < l.length
  · exact getD_set_self _ _ h
  · rw [getD_of_len_le]
    rw [List.length_set]
    omega

theorem v2i_eq_of_var2index {A B : EState} (h : A.var2index = B.var2index) (w : Nat) :
    A.v2i w = B.v2i w := by
  unfold EState.v2i
  rw [h]

theorem cgVarsOf_eq_of {A B : EState} (hc : A.canonized = B.canonized)
    (hv : A.var2index = B.var2index) (u : Nat) : A.cgVarsOf u = B.cgVarsOf u := by
  unfold EState.cgVarsOf
  rw [hc, v2i_eq_of_var2index hv]

theorem remove_cg_cgTable_char (S : EState) (v : Nat) :
    (S.remove_cg v).cgTable
      = if v ∈ S.cgTable then
          match (List.range S.monomials.length).find?
              (fun j => (j != S.v2i v) && (S.cgIn.set (S.v2i v) false).getD j false
                && ((S.canonized.getD j default).vars
                      == (S.canonized.getD (S.v2i v) default).vars)) with
          | some j => S.cgTable.map (fun u => if u = v then S.mvarOf j else u)
          | none => S.cgTable.erase v
        else S.cgTable := by
  unfold EState.remove_cg
  dsimp only
  split
  · split <;> rfl
  · rfl

theorem insert_cg_cgTable_char (S : EState) (v : Nat) :
    (S.insert_cg v).cgTable
      = match S.cgTable.find? (fun u => S.cgVarsOf u == S.cgVarsOf v) with
        | some _ => S.cgTable
        | none => S.cgTable ++ [v] := by
  unfold EState.insert_cg
  dsimp only
  split <;> rfl

theorem insert_cg_ringNext_char (S : EState) (v : Nat) :
    (S.insert_cg v).ringNext
      = match S.cgTable.find? (fun u => S.cgVarsOf u == S.cgVarsOf v) with
        | some u => (ringLink S.ringNext S.ringPrev (S.v2i v) (S.v2i u)).1
        | none => S.ringNext := by
  unfold EState.insert_cg
  dsimp only
  split <;> rfl

theorem insert_cg_ringPrev_char (S : EState) (v : Nat) :
    (S.insert_cg v).ringPrev
      = match S.cgTable.find? (fun u => S.cgVarsOf u == S.cgVarsOf v) with
        | some u => (ringLink S.ringNext S.ringPrev (S.v2i v) (S.v2i u)).2
        | none => S.ringPrev := by
  unfold EState.insert_cg
  dsimp only
  split <;> rfl

/-- The ring links of registered slots stay among registered slots. -/
theorem Jp.ring_low_closed {S : EState} {c : Nat} (hJ : Jp S c)
    {i : Nat} (hi : i < c) : S.nxAt i < c ∧ S.pvAt i < c := by
  have him : i < S.mlen := by
    have := hJ.hc
    omega
  constructor
  · by_contra hn
    push_neg at hn
    have hself := (hJ.ring_high_self _ hn).2
    have := hJ.ring_pn i him
    rw [hself] at this
    omega
  · by_contra hn
    push_neg at hn
    have hself := (hJ.ring_high_self _ hn).1
    have := hJ.ring_np i him
    rw [hself] at this
    omega

/-- The ring components of `Jp` as a `RingWf`. -/
theorem Jp.ringWf {S : EState} {c : Nat} (hJ : Jp S c) :
    RingWf S.ringNext S.ringPrev S.mlen :=
  ⟨hJ.len_nx, hJ.len_pv, hJ.ring_nx_lt, hJ.ring_pv_lt, hJ.ring_pn, hJ.ring_np⟩

/-! ## Invariant preservation: congruence-table operations -/

theorem remove_cg_Jp {S : EState} {c v : Nat} (hJ : Jp S c)
    (hic : S.v2i v < c) (hmv : (S.monAt (S.v2i v)).var = v) :
    Jp (S.remove_cg v) c ∧ v ∉ (S.remove_cg v).cgTable ∧
    (S.remove_cg v).markedAt (S.v2i v) = false ∧
    (S.remove_cg v).nxAt (S.v2i v) = S.v2i v ∧
    (S.remove_cg v).pvAt (S.v2i v) = S.v2i v ∧
    (v ∉ S.cgTable → (S.remove_cg v).cgTable = S.cgTable) := by
  have him : S.v2i v < S.mlen := lt_of_lt_of_le hic hJ.hc
  have hml : (S.remove_cg v).mlen = S.mlen := by
    unfold EState.mlen
    rw [remove_cg_monomials]
  have hveq : ∀ w, (S.remove_cg v).v2i w = S.v2i w :=
    v2i_eq_of_var2index (remove_cg_var2index S v)
  have hcvars : ∀ u, (S.remove_cg v).cgVarsOf u = S.cgVarsOf u :=
    cgVarsOf_eq_of (remove_cg_canonized S v) (remove_cg_var2index S v)
  have hmona : ∀ k, (S.remove_cg v).monAt k = S.monAt k := by
    intro k
    unfold EState.monAt
    rw [remove_cg_monomials]
  have hcanon : ∀ k, (S.remove_cg v).canonAt k = S.canonAt k := by
    intro k
    unfold EState.canonAt
    rw [remove_cg_canonized]
  have hmarked : ∀ k, k ≠ S.v2i v → (S.remove_cg v).markedAt k = S.markedAt k := by
    intro k hk
    unfold EState.markedAt
    rw [remove_cg_cgIn]
    exact getD_set_elsewhere _ _ hk
  have hmarkedi : (S.remove_cg v).markedAt (S.v2i v) = false := by
    unfold EState.markedAt
    rw [remove_cg_cgIn]
    exact set_false_getD_self _ _
  have hrings := remove_cg_rings S v
  have hwfall := ringUnlink_wf hJ.ringWf him
  have hnxAt : ∀ k, (S.remove_cg v).nxAt k = (ringUnlink S.ringNext S.ringPrev (S.v2i v)).1.getD k k := by
    intro k
    unfold EState.nxAt
    rw [hrings.1]
  have hpvAt : ∀ k, (S.remove_cg v).pvAt k = (ringUnlink S.ringNext S.ringPrev (S.v2i v)).2.getD k k := by
    intro k
    unfold EState.pvAt
    rw [hrings.2]
  have hvu_ne : ∀ u ∈ S.cgTable, u ≠ v → S.v2i u ≠ S.v2i v := by
    intro u hu hne he
    apply hne
    have h1 := (hJ.cg_sound u hu).2.1
    rw [he, hmv] at h1
    exact h1.symm
  -- the promote-candidate facts
  have hfind_some : ∀ j, (List.range S.monomials.length).find?
      (fun j => (j != S.v2i v) && (S.cgIn.set (S.v2i v) false).getD j false
        && ((S.canonized.getD j default).vars
              == (S.canonized.getD (S.v2i v) default).vars)) = some j →
      j < S.mlen ∧ j ≠ S.v2i v ∧ S.markedAt j = true ∧
      (S.canonAt j).vars = (S.canonAt (S.v2i v)).vars ∧ j < c := by
    intro j hj
    have hjm : j < S.mlen := by
      have := List.mem_of_find?_eq_some hj
      exact List.mem_range.mp this
    have hp := List.find?_some hj
    simp only [Bool.and_eq_true, bne_iff_ne, beq_iff_eq] at hp
    obtain ⟨⟨hne, hmk⟩, hvars⟩ := hp
    have hmk' : S.markedAt j = true := by
      unfold EState.markedAt
      rw [← hmk]
      exact (getD_set_elsewhere _ _ hne).symm
    have hjc : j < c := by
      by_contra hcon
      push_neg at hcon
      have := hJ.unmarked_high j hcon
      rw [this] at hmk'
      exact Bool.false_ne_true hmk'
    exact ⟨hjm, hne, hmk', hvars, hjc⟩
  have hfind_none : (List.range S.monomials.length).find?
      (fun j => (j != S.v2i v) && (S.cgIn.set (S.v2i v) false).getD j false
        && ((S.canonized.getD j default).vars
              == (S.canonized.getD (S.v2i v) default).vars)) = none →
      ∀ j, j < S.mlen → j ≠ S.v2i v → S.markedAt j = true →
        (S.canonAt j).vars ≠ (S.canonAt (S.v2i v)).vars := by
    intro hn j hjm hne hmk hvars
    have := List.find?_eq_none.mp hn j (List.mem_range.mpr hjm)
    apply this
    simp only [Bool.and_eq_true, bne_iff_ne, beq_iff_eq]
    refine ⟨⟨hne, ?_⟩, hvars⟩
    unfold EState.markedAt at hmk
    rw [getD_set_elsewhere _ _ hne]
    exact hmk
  -- table membership characterization, case split once and for all
  have htab := remove_cg_cgTable_char S v
  -- the three Jp components that depend on the table, plus the extras
  have hTable : (∀ u ∈ (S.remove_cg v).cgTable,
        S.v2i u < c ∧ (S.monAt (S.v2i u)).var = u ∧
          (S.remove_cg v).markedAt (S.v2i u) = true) ∧
      (∀ k, k < c → (S.remove_cg v).markedAt k = true →
        ∃ u ∈ (S.remove_cg v).cgTable, S.cgVarsOf u = (S.canonAt k).vars) ∧
      (∀ u ∈ (S.remove_cg v).cgTable, ∀ w ∈ (S.remove_cg v).cgTable, u ≠ w →
        S.cgVarsOf u ≠ S.cgVarsOf w) ∧
      (S.remove_cg v).cgTable.Nodup ∧
      v ∉ (S.remove_cg v).cgTable ∧
      (v ∉ S.cgTable → (S.remove_cg v).cgTable = S.cgTable) := by
    by_cases hv : v ∈ S.cgTable
    · rw [htab, if_pos hv]
      cases hfind : (List.range S.monomials.length).find?
          (fun j => (j != S.v2i v) && (S.cgIn.set (S.v2i v) false).getD j false
            && ((S.canonized.getD j default).vars
                  == (S.canonized.getD (S.v2i v) default).vars)) with
      | some j =>
        obtain ⟨hjm, hjne, hjmk, hjvars, hjc⟩ := hfind_some j hfind
        have hmvj : S.mvarOf j = (S.monAt j).var := rfl
        have hv2ij : S.v2i ((S.monAt j).var) = j := hJ.v2i_mvar j hjc
        have hmvj_ne_v : (S.monAt j).var ≠ v := by
          intro e
          apply hjne
          rw [← hv2ij, e]
        have hcgv_v : S.cgVarsOf v = (S.canonAt (S.v2i v)).vars := rfl
        have hcgv_j : S.cgVarsOf ((S.monAt j).var) = (S.canonAt j).vars := by
          unfold EState.cgVarsOf
          rw [hv2ij]
          rfl
        have hmvj_not : (S.monAt j).var ∉ S.cgTable := by
          intro hin
          apply hJ.table_fun _ hin _ hv hmvj_ne_v
          rw [hcgv_j, hjvars, hcgv_v]
        -- membership in the mapped table
        have hmem : ∀ u, u ∈ S.cgTable.map (fun u => if u = v then S.mvarOf j else u)
            ↔ ((u ∈ S.cgTable ∧ u ≠ v) ∨ u = (S.monAt j).var) := by
          intro u
          constructor
          · intro hu
            rcases List.mem_map.mp hu with ⟨u0, hu0, he⟩
            by_cases h0 : u0 = v
            · rw [h0, if_pos rfl] at he
              exact Or.inr he.symm
            · rw [if_neg h0] at he
              exact Or.inl ⟨he ▸ hu0, he ▸ h0⟩
          · intro hu
            rcases hu with ⟨hu, hne⟩ | he
            · exact List.mem_map.mpr ⟨u, hu, by rw [if_neg hne]⟩
            · exact List.mem_map.mpr ⟨v, hv, by rw [if_pos rfl, he, hmvj]⟩
        -- canonical contents of members of the mapped table
        have hcontent : ∀ u, u ∈ S.cgTable.map (fun u => if u = v then S.mvarOf j else u) →
            (u ∈ S.cgTable ∧ u ≠ v ∧ S.cgVarsOf u = S.cgVarsOf u) ∨
            (u = (S.monAt j).var ∧ S.cgVarsOf u = S.cgVarsOf v) := by
          intro u hu
          rcases (hmem u).mp hu with ⟨hu0, hne⟩ | he
          · exact Or.inl ⟨hu0, hne, rfl⟩
          · refine Or.inr ⟨he, ?_⟩
            rw [he, hcgv_j, hjvars, hcgv_v]
        refine ⟨?_, ?_, ?_, ?_, ?_, fun hnv => absurd hv hnv⟩
        · -- cg_sound
          intro u hu
          rcases (hmem u).mp hu with ⟨hu0, hne⟩ | he
          · have hs := hJ.cg_sound u hu0
            refine ⟨hs.1, hs.2.1, ?_⟩
            rw [hmarked _ (hvu_ne u hu0 hne)]
            exact hs.2.2
          · rw [he, hv2ij]
            refine ⟨hjc, rfl, ?_⟩
            rw [hmarked _ hjne]
            exact hjmk
        · -- cg_mix
          intro k hkc hkm
          have hkne : k ≠ S.v2i v := by
            intro e
            rw [e, hmarkedi] at hkm
            exact Bool.false_ne_true hkm
          rw [hmarked _ hkne] at hkm
          obtain ⟨u, hu, hue⟩ := hJ.cg_mix k hkc hkm
          by_cases h0 : u = v
          · refine ⟨(S.monAt j).var, (hmem _).mpr (Or.inr rfl), ?_⟩
            rw [hcgv_j, hjvars, ← hcgv_v, ← h0]
            exact hue
          · exact ⟨u, (hmem u).mpr (Or.inl ⟨hu, h0⟩), hue⟩
        · -- table_fun
          intro u hu w hw hne
          rcases hcontent u hu with ⟨hu0, hune, _⟩ | ⟨hue, huc⟩ <;>
            rcases hcontent w hw with ⟨hw0, hwne, _⟩ | ⟨hwe, hwc⟩
          · exact hJ.table_fun u hu0 w hw0 hne
          · rw [hwc]
            intro e
            exact hJ.table_fun u hu0 v hv hune e
          · rw [huc]
            intro e
            exact hJ.table_fun v hv w hw0 (fun x => hwne x.symm) e
          · exact absurd (hue.trans hwe.symm) hne
        · -- table_nodup
          apply List.Nodup.map_on ?_ hJ.table_nodup
          intro x hx y hy he
          by_cases h0 : x = v
          · rw [h0, if_pos rfl] at he
            by_cases h1 : y = v
            · rw [h0, h1]
            · rw [if_neg h1] at he
              rw [hmvj] at he
              exact absurd (he ▸ hy) hmvj_not
          · rw [if_neg h0] at he
            by_cases h1 : y = v
            · rw [h1, if_pos rfl, hmvj] at he
              exact absurd (he ▸ hx) hmvj_not
            · rwa [if_neg h1] at he
        · -- v not a member
          intro hvin
          rcases (hmem v).mp hvin with ⟨_, hne⟩ | he
          · exact hne rfl
          · exact hmvj_ne_v he.symm
      | none =>
        have hnone := hfind_none hfind
        have hmem_erase : ∀ u, u ∈ S.cgTable.erase v ↔ u ≠ v ∧ u ∈ S.cgTable :=
          fun u => hJ.table_nodup.mem_erase_iff
        refine ⟨?_, ?_, ?_, hJ.table_nodup.erase v, ?_, fun hnv => absurd hv hnv⟩
        · intro u hu
          obtain ⟨hne, hu0⟩ := (hmem_erase u).mp hu
          have hs := hJ.cg_sound u hu0
          refine ⟨hs.1, hs.2.1, ?_⟩
          rw [hmarked _ (hvu_ne u hu0 hne)]
          exact hs.2.2
        · intro k hkc hkm
          have hkne : k ≠ S.v2i v := by
            intro e
            rw [e, hmarkedi] at hkm
            exact Bool.false_ne_true hkm
          have hkm' := hkm
          rw [hmarked _ hkne] at hkm'
          obtain ⟨u, hu, hue⟩ := hJ.cg_mix k hkc hkm'
          have hune : u ≠ v := by
            intro e
            subst e
            have hkml : k < S.mlen := lt_of_lt_of_le hkc hJ.hc
            exact hnone k hkml hkne hkm' (by rw [← hue]; rfl)
          exact ⟨u, (hmem_erase u).mpr ⟨hune, hu⟩, hue⟩
        · intro u hu w hw hne
          exact hJ.table_fun u ((hmem_erase u).mp hu).2 w ((hmem_erase w).mp hw).2 hne
        · intro hvin
          exact ((hmem_erase v).mp hvin).1 rfl
    · rw [htab, if_neg hv]
      refine ⟨?_, ?_, ?_, hJ.table_nodup, hv, fun _ => rfl⟩
      · intro u hu
        have hune : u ≠ v := fun e => hv (e ▸ hu)
        have hs := hJ.cg_sound u hu
        refine ⟨hs.1, hs.2.1, ?_⟩
        rw [hmarked _ (hvu_ne u hu hune)]
        exact hs.2.2
      · intro k hkc hkm
        have hkne : k ≠ S.v2i v := by
          intro e
          rw [e, hmarkedi] at hkm
          exact Bool.false_ne_true hkm
        rw [hmarked _ hkne] at hkm
        exact hJ.cg_mix k hkc hkm
      · exact hJ.table_fun
  -- assemble
  have hPi_lt := (hJ.ring_low_closed hic).2
  have hNi_lt := (hJ.ring_low_closed hic).1
  refine ⟨⟨?_, ?_, ?_, ?_, ?_, ?_, ?_, ?_, ?_, ?_, ?_, ?_, ?_, ?_, ?_, ?_, ?_, ?_, ?_⟩,
    hTable.2.2.2.2.1, hmarkedi, ?_, ?_, hTable.2.2.2.2.2⟩
  · rw [hml]
    exact hJ.hc
  · rw [remove_cg_canonized, hml]
    exact hJ.len_c
  · rw [hrings.1, (ringUnlink_lengths _ _ _).1, hml]
    exact hJ.len_nx
  · rw [hrings.2, (ringUnlink_lengths _ _ _).2, hml]
    exact hJ.len_pv
  · rw [remove_cg_cgIn, List.length_set, hml]
    exact hJ.len_in
  · intro k hk
    rw [hmona, hveq]
    exact hJ.v2i_mvar k hk
  · intro k hk
    rw [hml] at hk
    rw [hmona]
    exact hJ.mvar_lt k hk
  · intro w hw
    rw [hveq] at hw
    rw [hveq, hmona]
    exact hJ.v2i_sound w hw
  · intro k hk
    have hkne : k ≠ S.v2i v := by omega
    rw [hmarked _ hkne]
    exact hJ.unmarked_high k hk
  · intro u hu
    have := hTable.1 u hu
    rw [hveq, hmona]
    exact this
  · intro k hk hm
    obtain ⟨u, hu, he⟩ := hTable.2.1 k hk hm
    refine ⟨u, hu, ?_⟩
    rw [hcvars, hcanon]
    exact he
  · intro u hu w hw hne
    rw [hcvars, hcvars]
    exact hTable.2.2.1 u hu w hw hne
  · exact hTable.2.2.2.1
  · intro k hk
    rw [hml] at hk
    rw [hnxAt, hml]
    exact hwfall.1.nx_lt k hk
  · intro k hk
    rw [hml] at hk
    rw [hpvAt, hml]
    exact hwfall.1.pv_lt k hk
  · intro k hk
    rw [hml] at hk
    rw [hnxAt, hpvAt]
    exact hwfall.1.pn k hk
  · intro k hk
    rw [hml] at hk
    rw [hnxAt, hpvAt]
    exact hwfall.1.np k hk
  · intro k hk
    have hk1 : k ≠ S.v2i v := by omega
    have hk2 : k ≠ S.pvAt (S.v2i v) := by
      intro e
      rw [e] at hk
      omega
    have hk3 : k ≠ S.nxAt (S.v2i v) := by
      intro e
      rw [e] at hk
      omega
    rw [hnxAt, hpvAt, hwfall.2.2.2.2.1 k hk1 hk2, hwfall.2.2.2.2.2 k hk1 hk3]
    exact hJ.ring_high_self k hk
  · intro w x hx
    rw [remove_cg_useLists] at hx
    exact hJ.ul_lt w x hx
  · rw [hnxAt]
    exact hwfall.2.1
  · rw [hpvAt]
    exact hwfall.2.2.1

theorem insert_cg_Jp {S : EState} {c v : Nat} (hJ : Jp S c)
    (hic : S.v2i v < c) (hmv : (S.monAt (S.v2i v)).var = v)
    (hnot : v ∉ S.cgTable)
    (hselfn : S.nxAt (S.v2i v) = S.v2i v) (hselfp : S.pvAt (S.v2i v) = S.v2i v) :
    Jp (S.insert_cg v) c ∧ (S.insert_cg v).markedAt (S.v2i v) = true := by
  have him : S.v2i v < S.mlen := lt_of_lt_of_le hic hJ.hc
  have hml : (S.insert_cg v).mlen = S.mlen := by
    unfold EState.mlen
    rw [insert_cg_monomials]
  have hveq : ∀ w, (S.insert_cg v).v2i w = S.v2i w :=
    v2i_eq_of_var2index (insert_cg_var2index S v)
  have hcvars : ∀ u, (S.insert_cg v).cgVarsOf u = S.cgVarsOf u :=
    cgVarsOf_eq_of (insert_cg_canonized S v) (insert_cg_var2index S v)
  have hmona : ∀ k, (S.insert_cg v).monAt k = S.monAt k := by
    intro k
    unfold EState.monAt
    rw [insert_cg_monomials]
  have hcanon : ∀ k, (S.insert_cg v).canonAt k = S.canonAt k := by
    intro k
    unfold EState.canonAt
    rw [insert_cg_canonized]
  have hmarked : ∀ k, k ≠ S.v2i v → (S.insert_cg v).markedAt k = S.markedAt k := by
    intro k hk
    unfold EState.markedAt
    rw [insert_cg_cgIn]
    exact getD_set_elsewhere _ _ hk
  have hmarkedi : (S.insert_cg v).markedAt (S.v2i v) = true := by
    unfold EState.markedAt
    rw [insert_cg_cgIn]
    apply getD_set_self
    rw [hJ.len_in]
    exact him
  have hvu_ne : ∀ u ∈ S.cgTable, S.v2i u ≠ S.v2i v := by
    intro u hu he
    apply hnot
    have h1 := (hJ.cg_sound u hu).2.1
    rw [he, hmv] at h1
    rwa [h1]
  have hcgv_v : S.cgVarsOf v = (S.canonAt (S.v2i v)).vars := rfl
  have htab := insert_cg_cgTable_char S v
  have hrg1 := insert_cg_ringNext_char S v
  have hrg2 := insert_cg_ringPrev_char S v
  cases hfind : S.cgTable.find? (fun u => S.cgVarsOf u == S.cgVarsOf v) with
  | some u =>
    simp only [hfind] at htab hrg1 hrg2
    have humem : u ∈ S.cgTable := List.mem_of_find?_eq_some hfind
    have huvars : S.cgVarsOf u = S.cgVarsOf v := by
      have := List.find?_some hfind
      rwa [beq_iff_eq] at this
    have hus := hJ.cg_sound u humem
    have hune_i : S.v2i u ≠ S.v2i v := hvu_ne u humem
    have hwf := ringLink_wf hJ.ringWf him (lt_of_lt_of_le hus.1 hJ.hc)
      (fun e => hune_i e.symm) hselfn hselfp
    have hnxAt : ∀ k, (S.insert_cg v).nxAt k
        = (ringLink S.ringNext S.ringPrev (S.v2i v) (S.v2i u)).1.getD k k := by
      intro k
      unfold EState.nxAt
      rw [hrg1]
    have hpvAt : ∀ k, (S.insert_cg v).pvAt k
        = (ringLink S.ringNext S.ringPrev (S.v2i v) (S.v2i u)).2.getD k k := by
      intro k
      unfold EState.pvAt
      rw [hrg2]
    have hNu_lt : S.nxAt (S.v2i u) < c := (hJ.ring_low_closed hus.1).1
    have hnxc := ringLink_nx_char S.ringNext S.ringPrev S.mlen (S.v2i v) (S.v2i u)
      hJ.len_nx him (lt_of_lt_of_le hus.1 hJ.hc) (fun e => hune_i e.symm)
    have hpvc := ringLink_pv_char S.ringNext S.ringPrev S.mlen (S.v2i v) (S.v2i u)
      hJ.len_pv him (lt_of_lt_of_le hus.1 hJ.hc) (fun e => hune_i e.symm)
      (hJ.ring_nx_lt _ (lt_of_lt_of_le hus.1 hJ.hc))
    refine ⟨⟨?_, ?_, ?_, ?_, ?_, ?_, ?_, ?_, ?_, ?_, ?_, ?_, ?_, ?_, ?_, ?_, ?_, ?_, ?_⟩,
      hmarkedi⟩
    · rw [hml]
      exact hJ.hc
    · rw [insert_cg_canonized, hml]
      exact hJ.len_c
    · rw [hrg1, (ringLink_lengths _ _ _ _).1, hml]
      exact hJ.len_nx
    · rw [hrg2, (ringLink_lengths _ _ _ _).2, hml]
      exact hJ.len_pv
    · rw [insert_cg_cgIn, List.length_set, hml]
      exact hJ.len_in
    · intro k hk
      rw [hmona, hveq]
      exact hJ.v2i_mvar k hk
    · intro k hk
      rw [hml] at hk
      rw [hmona]
      exact hJ.mvar_lt k hk
    · intro w hw
      rw [hveq] at hw
      rw [hveq, hmona]
      exact hJ.v2i_sound w hw
    · intro k hk
      have hkne : k ≠ S.v2i v := by omega
      rw [hmarked _ hkne]
      exact hJ.unmarked_high k hk
    · intro w hw
      rw [htab] at hw
      have hs := hJ.cg_sound w hw
      rw [hveq, hmona]
      refine ⟨hs.1, hs.2.1, ?_⟩
      rw [hmarked _ (hvu_ne w hw)]
      exact hs.2.2
    · intro k hk hkm
      rw [htab]
      by_cases hki : k = S.v2i v
      · refine ⟨u, humem, ?_⟩
        rw [hcvars, hcanon, huvars, hki, hcgv_v]
      · rw [hmarked _ hki] at hkm
        obtain ⟨w, hw, hwe⟩ := hJ.cg_mix k hk hkm
        refine ⟨w, hw, ?_⟩
        rw [hcvars, hcanon]
        exact hwe
    · intro w1 hw1 w2 hw2 hne
      rw [htab] at hw1 hw2
      rw [hcvars, hcvars]
      exact hJ.table_fun w1 hw1 w2 hw2 hne
    · rw [htab]
      exact hJ.table_nodup
    · intro k hk
      rw [hml] at hk
      rw [hnxAt, hml]
      exact hwf.nx_lt k hk
    · intro k hk
      rw [hml] at hk
      rw [hpvAt, hml]
      exact hwf.pv_lt k hk
    · intro k hk
      rw [hml] at hk
      rw [hnxAt, hpvAt]
      exact hwf.pn k hk
    · intro k hk
      rw [hml] at hk
      rw [hnxAt, hpvAt]
      exact hwf.np k hk
    · intro k hk
      have hk1 : k ≠ S.v2i v := by omega
      have hk2 : k ≠ S.v2i u := by
        intro e
        rw [e] at hk
        omega
      have hk3 : k ≠ S.ringNext.getD (S.v2i u) (S.v2i u) := by
        intro e
        have : k ≠ S.nxAt (S.v2i u) := by
          intro e2
          rw [e2] at hk
          omega
        exact this e
      constructor
      · rw [hnxAt, hnxc k, if_neg hk1, if_neg hk2]
        exact (hJ.ring_high_self k hk).1
      · rw [hpvAt, hpvc k, if_neg hk1, if_neg hk3]
        exact (hJ.ring_high_self k hk).2
    · intro w x hx
      rw [insert_cg_useLists] at hx
      exact hJ.ul_lt w x hx
  | none =>
    simp only [hfind] at htab hrg1 hrg2
    have hnone : ∀ u ∈ S.cgTable, S.cgVarsOf u ≠ S.cgVarsOf v := by
      intro u hu he
      have := List.find?_eq_none.mp hfind u hu
      rw [beq_iff_eq] at this
      exact this he
    have hnxAt : ∀ k, (S.insert_cg v).nxAt k = S.nxAt k := by
      intro k
      unfold EState.nxAt
      rw [hrg1]
    have hpvAt : ∀ k, (S.insert_cg v).pvAt k = S.pvAt k := by
      intro k
      unfold EState.pvAt
      rw [hrg2]
    refine ⟨⟨?_, ?_, ?_, ?_, ?_, ?_, ?_, ?_, ?_, ?_, ?_, ?_, ?_, ?_, ?_, ?_, ?_, ?_, ?_⟩,
      hmarkedi⟩
    · rw [hml]
      exact hJ.hc
    · rw [insert_cg_canonized, hml]
      exact hJ.len_c
    · rw [hrg1, hml]
      exact hJ.len_nx
    · rw [hrg2, hml]
      exact hJ.len_pv
    · rw [insert_cg_cgIn, List.length_set, hml]
      exact hJ.len_in
    · intro k hk
      rw [hmona, hveq]
      exact hJ.v2i_mvar k hk
    · intro k hk
      rw [hml] at hk
      rw [hmona]
      exact hJ.mvar_lt k hk
    · intro w hw
      rw [hveq] at hw
      rw [hveq, hmona]
      exact hJ.v2i_sound w hw
    · intro k hk
      have hkne : k ≠ S.v2i v := by omega
      rw [hmarked _ hkne]
      exact hJ.unmarked_high k hk
    · intro w hw
      rw [htab] at hw
      rw [hveq, hmona]
      rcases List.mem_append.mp hw with hw0 | hw0
      · have hs := hJ.cg_sound w hw0
        refine ⟨hs.1, hs.2.1, ?_⟩
        rw [hmarked _ (hvu_ne w hw0)]
        exact hs.2.2
      · have hwv : w = v := by simpa using hw0
        subst hwv
        exact ⟨hic, hmv, hmarkedi⟩
    · intro k hk hkm
      rw [htab]
      by_cases hki : k = S.v2i v
      · refine ⟨v, List.mem_append.mpr (Or.inr (by simp)), ?_⟩
        rw [hcvars, hcanon, hki, hcgv_v]
      · rw [hmarked _ hki] at hkm
        obtain ⟨w, hw, hwe⟩ := hJ.cg_mix k hk hkm
        refine ⟨w, List.mem_append.mpr (Or.inl hw), ?_⟩
        rw [hcvars, hcanon]
        exact hwe
    · intro w1 hw1 w2 hw2 hne
      rw [htab] at hw1 hw2
      rw [hcvars, hcvars]
      rcases List.mem_append.mp hw1 with h1 | h1 <;>
        rcases List.mem_append.mp hw2 with h2 | h2
      · exact hJ.table_fun w1 h1 w2 h2 hne
      · have : w2 = v := by simpa using h2
        subst this
        exact hnone w1 h1
      · have : w1 = v := by simpa using h1
        subst this
        intro e
        exact hnone w2 h2 e.symm
      · have e1 : w1 = v := by simpa using h1
        have e2 : w2 = v := by simpa using h2
        exact absurd (e1.trans e2.symm) hne
    · rw [htab, ← List.concat_eq_append]
      exact hJ.table_nodup.concat hnot
    · intro k hk
      rw [hml] at hk
      rw [hnxAt, hml]
      exact hJ.ring_nx_lt k hk
    · intro k hk
      rw [hml] at hk
      rw [hpvAt, hml]
      exact hJ.ring_pv_lt k hk
    · intro k hk
      rw [hml] at hk
      rw [hnxAt, hpvAt]
      exact hJ.ring_pn k hk
    · intro k hk
      rw [hml] at hk
      rw [hpvAt, hnxAt]
      exact hJ.ring_np k hk
    · intro k hk
      rw [hnxAt, hpvAt]
      exact hJ.ring_high_self k hk
    · intro w x hx
      rw [insert_cg_useLists] at hx
      exact hJ.ul_lt w x hx

theorem canonized_set_Jp {S : EState} {c i : Nat} (hJ : Jp S c)
    (hmk : S.markedAt i = false) (hnotv : ∀ u ∈ S.cgTable, S.v2i u ≠ i)
    (x : SignedVars) :
    Jp { S with canonized := S.canonized.set i x } c := by
  have hcvars : ∀ u ∈ S.cgTable,
      EState.cgVarsOf { S with canonized := S.canonized.set i x } u = S.cgVarsOf u := by
    intro u hu
    show ((S.canonized.set i x).getD (S.v2i u) default).vars
      = (S.canonized.getD (S.v2i u) default).vars
    rw [getD_set_elsewhere _ _ (hnotv u hu)]
  have hcanon : ∀ k, k ≠ i →
      EState.canonAt { S with canonized := S.canonized.set i x } k = S.canonAt k := by
    intro k hk
    unfold EState.canonAt
    dsimp only
    exact getD_set_elsewhere _ _ hk
  refine ⟨hJ.hc, ?_, hJ.len_nx, hJ.len_pv, hJ.len_in, hJ.v2i_mvar, hJ.mvar_lt,
    hJ.v2i_sound, hJ.unmarked_high, hJ.cg_sound, ?_, ?_, hJ.table_nodup,
    hJ.ring_nx_lt, hJ.ring_pv_lt, hJ.ring_pn, hJ.ring_np, hJ.ring_high_self, hJ.ul_lt⟩
  · show (S.canonized.set i x).length = S.mlen
    rw [List.length_set]
    exact hJ.len_c
  · intro k hk hkm
    have hkm' : S.markedAt k = true := hkm
    have hki : k ≠ i := by
      intro e
      rw [e] at hkm'
      rw [hkm'] at hmk
      simp at hmk
    obtain ⟨u, hu, he⟩ := hJ.cg_mix k hk hkm'
    refine ⟨u, hu, ?_⟩
    rw [hcvars u hu, hcanon k hki]
    exact he
  · intro u hu w hw hne
    rw [hcvars u hu, hcvars w hw]
    exact hJ.table_fun u hu w hw hne

theorem rehash1_Jp {S : EState} {c i : Nat} (hJ : Jp S c) (hi : i < c) :
    Jp (S.rehash1 i) c ∧ (S.rehash1 i).markedAt i = true ∧
    (∀ k, k ≠ i → (S.rehash1 i).markedAt k = S.markedAt k) := by
  have hv2 : S.v2i ((S.monomials.getD i default).var) = i := hJ.v2i_mvar i hi
  have hrm := remove_cg_Jp hJ (v := (S.monomials.getD i default).var)
    (by rw [hv2]; exact hi) (by rw [hv2]; rfl)
  rw [hv2] at hrm
  set v := (S.monomials.getD i default).var with hvdef
  set S1 := S.remove_cg v with hS1
  obtain ⟨hJ1, hnot1, hmk1, hsn1, hsp1, _⟩ := hrm
  have hnotv1 : ∀ u ∈ S1.cgTable, S1.v2i u ≠ i := by
    intro u hu he
    apply hnot1
    have h1 := (hJ1.cg_sound u hu).2.1
    rw [he] at h1
    have h2 : S1.monAt i = S.monAt i := by
      unfold EState.monAt
      rw [hS1, remove_cg_monomials]
    rw [h2] at h1
    have h3 : v = u := by
      rw [hvdef]
      exact h1
    rw [h3]
    exact hu
  have hJ2 := canonized_set_Jp hJ1 hmk1 hnotv1
    (do_canonize S1.ve (S.monomials.getD i default))
  set S2 : EState := { S1 with
    canonized := S1.canonized.set i (do_canonize S1.ve (S.monomials.getD i default)) }
    with hS2
  have hv2' : S2.v2i v = i := by
    have : S2.v2i v = S1.v2i v := rfl
    rw [this]
    have : S1.v2i v = S.v2i v := v2i_eq_of_var2index (remove_cg_var2index S v) v
    rw [this, hv2]
  have hmv2 : (S2.monAt i).var = v := by
    have h2 : S2.monAt i = S.monAt i := by
      unfold EState.monAt
      show S1.monomials.getD i default = S.monomials.getD i default
      rw [hS1, remove_cg_monomials]
    rw [h2, hvdef]
    rfl
  have hnot2 : v ∉ S2.cgTable := hnot1
  have hsn2 : S2.nxAt i = i := hsn1
  have hsp2 : S2.pvAt i = i := hsp1
  have hins := insert_cg_Jp hJ2 (by rw [hv2']; exact hi) (by rw [hv2']; exact hmv2)
    hnot2 (by rw [hv2']; exact hsn2) (by rw [hv2']; exact hsp2)
  have hre : S.rehash1 i = S2.insert_cg v := by
    unfold EState.rehash1
    dsimp only
  rw [hre]
  refine ⟨hins.1, ?_, ?_⟩
  · have := hins.2
    rwa [hv2'] at this
  · intro k hk
    unfold EState.markedAt
    rw [insert_cg_cgIn, hv2', getD_set_elsewhere _ _ hk]
    have h4 : S2.cgIn = S.cgIn.set (S.v2i v) false := remove_cg_cgIn S v
    rw [h4, hv2]
    exact getD_set_elsewhere _ _ hk

theorem foldl_rehash_Jp (l : List Nat) {S : EState} {c : Nat} (hJ : Jp S c)
    (hl : ∀ x ∈ l, x < c) :
    Jp (l.foldl EState.rehash1 S) c ∧
    (∀ k, S.markedAt k = true → (l.foldl EState.rehash1 S).markedAt k = true) ∧
    (∀ k ∈ l, (l.foldl EState.rehash1 S).markedAt k = true) := by
  induction l generalizing S with
  | nil => exact ⟨hJ, fun k h => h, fun k h => absurd h (List.not_mem_nil k)⟩
  | cons a t ih =>
    have ha := hl a (List.mem_cons_self _ _)
    obtain ⟨hJ1, hma, hmk⟩ := rehash1_Jp hJ ha
    have iht := ih hJ1 (fun x hx => hl x (List.mem_cons_of_mem _ hx))
    rw [List.foldl_cons]
    refine ⟨iht.1, ?_, ?_⟩
    · intro k hk
      by_cases hka : k = a
      · subst hka
        exact iht.2.1 k hma
      · apply iht.2.1
        rw [hmk k hka]
        exact hk
    · intro k hk
      rcases List.mem_cons.mp hk with h | h
      · subst h
        exact iht.2.1 k hma
      · exact iht.2.2 k h

theorem unmerge1_skel (S : EState) :
    (S.unmerge1).monomials = S.monomials ∧
    (S.unmerge1).var2index = S.var2index ∧
    (S.unmerge1).lim = S.lim ∧
    (S.unmerge1).trailLim = S.trailLim ∧
    (S.unmerge1).trail = S.trail.tail := by
  unfold EState.unmerge1
  cases htr : S.trail with
  | nil => exact ⟨rfl, rfl, rfl, rfl, htr⟩
  | cons t rest =>
    dsimp only
    have h := foldl_rehash_skel
      ((S.useLists t.r1 ++ cutRun (S.useLists t.r2) (S.useLists t.r1)).dedup)
      { S with
        ve := t.veOld,
        trail := rest,
        useLists := fun w => if w = t.r2
          then cutRun (S.useLists t.r2) (S.useLists t.r1) else S.useLists w }
    exact ⟨h.2.1, h.2.2.1, h.2.2.2.2.1, h.2.2.2.2.2.1, h.2.2.2.2.2.2⟩

theorem unmerge1_Jp {S : EState} {c : Nat} (hJ : Jp S c) : Jp S.unmerge1 c := by
  unfold EState.unmerge1
  cases htr : S.trail with
  | nil => exact hJ
  | cons t rest =>
    dsimp only
    set S0 : EState := { S with
      ve := t.veOld,
      trail := rest,
      useLists := fun w => if w = t.r2
        then cutRun (S.useLists t.r2) (S.useLists t.r1) else S.useLists w } with hS0
    have hJ0 : Jp S0 c := by
      refine ⟨hJ.hc, hJ.len_c, hJ.len_nx, hJ.len_pv, hJ.len_in, hJ.v2i_mvar,
        hJ.mvar_lt, hJ.v2i_sound, hJ.unmarked_high, hJ.cg_sound, hJ.cg_mix,
        hJ.table_fun, hJ.table_nodup, hJ.ring_nx_lt, hJ.ring_pv_lt, hJ.ring_pn,
        hJ.ring_np, hJ.ring_high_self, ?_⟩
      intro w x hx
      change x ∈ (if w = t.r2
        then cutRun (S.useLists t.r2) (S.useLists t.r1) else S.useLists w) at hx
      by_cases hw : w = t.r2
      · rw [if_pos hw] at hx
        exact hJ.ul_lt _ _ (mem_of_mem_cutRun hx)
      · rw [if_neg hw] at hx
        exact hJ.ul_lt _ _ hx
    have hl : ∀ x ∈ (S.useLists t.r1 ++ cutRun (S.useLists t.r2) (S.useLists t.r1)).dedup,
        x < c := by
      intro x hx
      rw [List.mem_dedup] at hx
      rcases List.mem_append.mp hx with h | h
      · exact hJ.ul_lt _ _ h
      · exact hJ.ul_lt _ _ (mem_of_mem_cutRun h)
    exact (foldl_rehash_Jp _ hJ0 hl).1

theorem unmergeN_Jp {S : EState} {c : Nat} (hJ : Jp S c) (k : Nat) :
    Jp (S.unmergeN k) c := by
  induction k generalizing S with
  | zero => exact hJ
  | succ k ih => exact ih (unmerge1_Jp hJ)

theorem unmergeN_skel (S : EState) (k : Nat) :
    (S.unmergeN k).monomials = S.monomials ∧
    (S.unmergeN k).var2index = S.var2index ∧
    (S.unmergeN k).lim = S.lim ∧
    (S.unmergeN k).trailLim = S.trailLim ∧
    (S.unmergeN k).trail = S.trail.drop k := by
  induction k generalizing S with
  | zero => exact ⟨rfl, rfl, rfl, rfl, rfl⟩
  | succ k ih =>
    have he : S.unmergeN (k + 1) = (S.unmerge1).unmergeN k := rfl
    rw [he]
    have h1 := ih S.unmerge1
    have h2 := unmerge1_skel S
    refine ⟨h1.1.trans h2.1, h1.2.1.trans h2.2.1, h1.2.2.1.trans h2.2.2.1,
      h1.2.2.2.1.trans h2.2.2.2.1, ?_⟩
    rw [h1.2.2.2.2, h2.2.2.2.2, ← List.drop_one, List.drop_drop, Nat.add_comm 1 k]

theorem removeMon_Jp {S : EState} {c : Nat} (hJ : Jp S (c + 1)) (hc : c < S.mlen) :
    Jp (S.removeMon c) c := by
  have hv2 : S.v2i ((S.monAt c).var) = c := hJ.v2i_mvar c (by omega)
  have hrm := remove_cg_Jp hJ (v := (S.monAt c).var) (by rw [hv2]; omega)
    (by rw [hv2])
  rw [hv2] at hrm
  obtain ⟨hJ1, hnot1, hmk1, hsn1, hsp1, _⟩ := hrm
  set v := (S.monAt c).var with hvdef
  set S1 := S.remove_cg v with hS1
  -- the removeMon record over S1
  have hre : S.removeMon c
      = { S1 with
          useLists := fun w => (S1.useLists w).filter (fun x => x != c),
          var2index := S1.var2index.set v UINT_MAX } := by
    unfold EState.removeMon EState.mvarOf
    dsimp only
    rfl
  rw [hre]
  have hml1 : S1.mlen = S.mlen := by
    unfold EState.mlen
    rw [hS1, remove_cg_monomials]
  have hmona : ∀ k, S1.monAt k = S.monAt k := by
    intro k
    unfold EState.monAt
    rw [hS1, remove_cg_monomials]
  have hv2i1 : ∀ w, S1.v2i w = S.v2i w :=
    v2i_eq_of_var2index (by rw [hS1]; exact remove_cg_var2index S v)
  have hv2i' : ∀ w, w ≠ v →
      (S1.var2index.set v UINT_MAX).getD w UINT_MAX = S1.v2i w := by
    intro w hw
    exact getD_set_elsewhere _ _ hw
  have hventry : (S1.var2index.set v UINT_MAX).getD v UINT_MAX = UINT_MAX :=
    set_UINT_getD_self _ _
  have hmvne : ∀ k, k < c + 1 → k ≠ c → (S.monAt k).var ≠ v := by
    intro k hk hkc he
    apply hkc
    have h1 := hJ.v2i_mvar k hk
    rw [he, hv2] at h1
    exact h1.symm
  have hnotc : ∀ u ∈ S1.cgTable, S1.v2i u ≠ c := by
    intro u hu he
    apply hnot1
    have h1 := (hJ1.cg_sound u hu).2.1
    rw [he, hmona] at h1
    have h2 : v = u := by
      rw [hvdef]
      exact h1
    rw [h2]
    exact hu
  refine ⟨?_, ?_, ?_, ?_, ?_, ?_, ?_, ?_, ?_, ?_, ?_, ?_, ?_, ?_, ?_, ?_, ?_, ?_, ?_⟩
  · show c ≤ S1.mlen
    rw [hml1]
    omega
  · exact hJ1.len_c
  · exact hJ1.len_nx
  · exact hJ1.len_pv
  · exact hJ1.len_in
  · intro k hk
    show (S1.var2index.set v UINT_MAX).getD ((S1.monAt k).var) UINT_MAX = k
    rw [hmona]
    rw [hv2i' _ (hmvne k (by omega) (by omega))]
    rw [hv2i1]
    exact hJ.v2i_mvar k (by omega)
  · intro k hk
    exact hJ1.mvar_lt k hk
  · intro w hw
    have hw' : (S1.var2index.set v UINT_MAX).getD w UINT_MAX ≠ UINT_MAX := hw
    show (S1.var2index.set v UINT_MAX).getD w UINT_MAX < c ∧
      (S1.monAt ((S1.var2index.set v UINT_MAX).getD w UINT_MAX)).var = w
    by_cases hwv : w = v
    · subst hwv
      rw [hventry] at hw'
      exact absurd rfl hw'
    · rw [hv2i' _ hwv] at hw' ⊢
      have hs := hJ1.v2i_sound w hw'
      refine ⟨?_, hs.2⟩
      rcases Nat.lt_succ_iff_lt_or_eq.mp hs.1 with h | h
      · exact h
      · exfalso
        apply hwv
        have h2 := hs.2
        rw [h, hmona] at h2
        rw [← h2, hvdef]
  · intro k hk
    by_cases hkc : k = c
    · subst hkc
      exact hmk1
    · exact hJ1.unmarked_high k (by omega)
  · intro u hu
    have hs := hJ1.cg_sound u hu
    have hune : u ≠ v := fun e => hnot1 (e ▸ hu)
    show (S1.var2index.set v UINT_MAX).getD u UINT_MAX < c ∧
      (S1.monAt ((S1.var2index.set v UINT_MAX).getD u UINT_MAX)).var = u ∧
      S1.cgIn.getD ((S1.var2index.set v UINT_MAX).getD u UINT_MAX) false = true
    rw [hv2i' _ hune]
    refine ⟨?_, hs.2.1, hs.2.2⟩
    rcases Nat.lt_succ_iff_lt_or_eq.mp hs.1 with h | h
    · exact h
    · exact absurd h (hnotc u hu)
  · intro k hk hkm
    obtain ⟨u, hu, he⟩ := hJ1.cg_mix k (by omega) hkm
    refine ⟨u, hu, ?_⟩
    have hune : u ≠ v := fun e => hnot1 (e ▸ hu)
    show ((S1.canonized).getD ((S1.var2index.set v UINT_MAX).getD u UINT_MAX) default).vars
      = _
    rw [hv2i' _ hune]
    exact he
  · intro u hu w hw hne
    have hune : u ≠ v := fun e => hnot1 (e ▸ hu)
    have hwne : w ≠ v := fun e => hnot1 (e ▸ hw)
    show ((S1.canonized).getD ((S1.var2index.set v UINT_MAX).getD u UINT_MAX) default).vars
      ≠ ((S1.canonized).getD ((S1.var2index.set v UINT_MAX).getD w UINT_MAX) default).vars
    rw [hv2i' _ hune, hv2i' _ hwne]
    exact hJ1.table_fun u hu w hw hne
  · exact hJ1.table_nodup
  · exact hJ1.ring_nx_lt
  · exact hJ1.ring_pv_lt
  · exact hJ1.ring_pn
  · exact hJ1.ring_np
  · intro k hk
    by_cases hkc : k = c
    · subst hkc
      exact ⟨hsn1, hsp1⟩
    · exact hJ1.ring_high_self k (by omega)
  · intro w x hx
    show x < c
    dsimp only at hx
    rw [List.mem_filter] at hx
    have h1 := hJ1.ul_lt w x (by
      rw [hS1, remove_cg_useLists] at hx ⊢
      exact hx.1)
    have h2 : x ≠ c := by
      have := hx.2
      simpa using this
    omega

theorem removeDownFrom_Jp {S : EState} {n0 : Nat} (k : Nat) (hJ : Jp S (n0 + k)) :
    Jp (S.removeDownFrom n0 k) n0 := by
  induction k generalizing S with
  | zero => exact hJ
  | succ k ih =>
    show Jp ((S.removeMon (n0 + k)).removeDownFrom n0 k) n0
    apply ih
    have hc : n0 + k < S.mlen := by
      have := hJ.hc
      omega
    exact removeMon_Jp hJ hc

theorem trunc_Jinv {S : EState} {n0 : Nat} (hJ : Jp S n0) (lims tls : List Nat)
    (trl : List TrailRec) :
    Jinv { S with
      monomials := S.monomials.take n0,
      canonized := S.canonized.take n0,
      ringNext := S.ringNext.take n0,
      ringPrev := S.ringPrev.take n0,
      cgIn := S.cgIn.take n0,
      lim := lims, trailLim := tls, trail := trl } := by
  have hn0 : n0 ≤ S.mlen := hJ.hc
  have hn0' : n0 ≤ S.monomials.length := hn0
  set T : EState := { S with
    monomials := S.monomials.take n0,
    canonized := S.canonized.take n0,
    ringNext := S.ringNext.take n0,
    ringPrev := S.ringPrev.take n0,
    cgIn := S.cgIn.take n0,
    lim := lims, trailLim := tls, trail := trl } with hT
  have hml : T.mlen = n0 := by
    show (S.monomials.take n0).length = n0
    rw [List.length_take]
    omega
  have hmona : ∀ k, k < n0 → T.monAt k = S.monAt k := by
    intro k hk
    show (S.monomials.take n0).getD k default = S.monomials.getD k default
    exact getD_take_lt _ hk
  have hcanon : ∀ k, k < n0 → T.canonAt k = S.canonAt k := by
    intro k hk
    show (S.canonized.take n0).getD k default = S.canonized.getD k default
    exact getD_take_lt _ hk
  have hmarked : ∀ k, k < n0 → T.markedAt k = S.markedAt k := by
    intro k hk
    show (S.cgIn.take n0).getD k false = S.cgIn.getD k false
    exact getD_take_lt _ hk
  have hnx : ∀ k, k < n0 → T.nxAt k = S.nxAt k := by
    intro k hk
    show (S.ringNext.take n0).getD k k = S.ringNext.getD k k
    exact getD_take_lt _ hk
  have hpv : ∀ k, k < n0 → T.pvAt k = S.pvAt k := by
    intro k hk
    show (S.ringPrev.take n0).getD k k = S.ringPrev.getD k k
    exact getD_take_lt _ hk
  have hv2iT : ∀ w, T.v2i w = S.v2i w := fun w => rfl
  unfold Jinv
  rw [hml]
  refine ⟨?_, ?_, ?_, ?_, ?_, ?_, ?_, ?_, ?_, ?_, ?_, ?_, hJ.table_nodup,
    ?_, ?_, ?_, ?_, ?_, ?_⟩
  · rw [hml]
  · show (S.canonized.take n0).length = T.mlen
    rw [hml, List.length_take]
    have := hJ.len_c
    omega
  · show (S.ringNext.take n0).length = T.mlen
    rw [hml, List.length_take]
    have := hJ.len_nx
    omega
  · show (S.ringPrev.take n0).length = T.mlen
    rw [hml, List.length_take]
    have := hJ.len_pv
    omega
  · show (S.cgIn.take n0).length = T.mlen
    rw [hml, List.length_take]
    have := hJ.len_in
    omega
  · intro k hk
    rw [hv2iT, hmona k hk]
    exact hJ.v2i_mvar k hk
  · intro k hk
    rw [hml] at hk
    rw [hmona k hk]
    exact hJ.mvar_lt k (by omega)
  · intro w hw
    rw [hv2iT] at hw ⊢
    have hs := hJ.v2i_sound w hw
    rw [hmona _ hs.1]
    exact hs
  · intro k hk
    by_cases hkl : k < n0
    · omega
    · show (S.cgIn.take n0).getD k false = false
      apply getD_of_len_le
      rw [List.length_take]
      omega
  · intro u hu
    have hs := hJ.cg_sound u hu
    rw [hv2iT, hmona _ hs.1, hmarked _ hs.1]
    exact hs
  · intro k hk hkm
    rw [hmarked k hk] at hkm
    obtain ⟨u, hu, he⟩ := hJ.cg_mix k hk hkm
    refine ⟨u, hu, ?_⟩
    have hsu := (hJ.cg_sound u hu).1
    show ((S.canonized.take n0).getD (T.v2i u) default).vars = (T.canonAt k).vars
    rw [hv2iT, getD_take_lt _ hsu, hcanon k hk]
    exact he
  · intro u hu w hw hne
    have hsu := (hJ.cg_sound u hu).1
    have hsw := (hJ.cg_sound w hw).1
    show ((S.canonized.take n0).getD (T.v2i u) default).vars
      ≠ ((S.canonized.take n0).getD (T.v2i w) default).vars
    rw [hv2iT, hv2iT, getD_take_lt _ hsu, getD_take_lt _ hsw]
    exact hJ.table_fun u hu w hw hne
  · intro k hk
    rw [hml] at hk
    rw [hml, hnx k hk]
    exact (hJ.ring_low_closed hk).1
  · intro k hk
    rw [hml] at hk
    rw [hml, hpv k hk]
    exact (hJ.ring_low_closed hk).2
  · intro k hk
    rw [hml] at hk
    rw [hnx k hk, hpv _ ((hJ.ring_low_closed hk).1)]
    exact hJ.ring_pn k (by omega)
  · intro k hk
    rw [hml] at hk
    rw [hpv k hk, hnx _ ((hJ.ring_low_closed hk).2)]
    exact hJ.ring_np k (by omega)
  · intro k hk
    constructor
    · show (S.ringNext.take n0).getD k k = k
      apply getD_of_len_le
      rw [List.length_take]
      omega
    · show (S.ringPrev.take n0).getD k k = k
      apply getD_of_len_le
      rw [List.length_take]
      omega
  · intro w x hx
    exact hJ.ul_lt w x hx

theorem pop1_Jinv {S : EState} (hJ : Jinv S) : Jinv S.pop1 := by
  unfold EState.pop1
  cases hl : S.lim with
  | nil =>
    cases htl : S.trailLim with
    | nil => exact hJ
    | cons t0 tls => exact hJ
  | cons n0 lims =>
    cases htl : S.trailLim with
    | nil => exact hJ
    | cons t0 tls =>
      dsimp only
      have hJ1 : Jp (S.unmergeN (S.trail.length - t0)) S.mlen :=
        unmergeN_Jp hJ _
      have hml1 : (S.unmergeN (S.trail.length - t0)).mlen = S.mlen := by
        unfold EState.mlen
        rw [(unmergeN_skel S _).1]
      set S1 := S.unmergeN (S.trail.length - t0) with hS1
      by_cases hn0 : n0 ≤ S1.mlen
      · have hJ1' : Jp S1 (n0 + (S1.mlen - n0)) := by
          have he : n0 + (S1.mlen - n0) = S1.mlen := by omega
          rw [he, hml1]
          exact hJ1
        have hJ2 := removeDownFrom_Jp _ hJ1'
        have hml2 : (S1.removeDownFrom n0 (S1.mlen - n0)).mlen = S1.mlen := by
          unfold EState.mlen
          rw [(removeDownFrom_skel S1 _ _).2.1]
        exact trunc_Jinv hJ2 lims tls _
      · have hk0 : S1.monomials.length - n0 = 0 := by
          unfold EState.mlen at hn0
          omega
        rw [hk0]
        have hm : S1.mlen ≤ n0 := by omega
        show Jinv { S1 with
          monomials := S1.monomials.take n0,
          canonized := S1.canonized.take n0,
          ringNext := S1.ringNext.take n0,
          ringPrev := S1.ringPrev.take n0,
          cgIn := S1.cgIn.take n0,
          lim := lims, trailLim := tls }
        rw [List.take_of_length_le hm,
          List.take_of_length_le (le_of_eq_of_le hJ1.len_c hm),
          List.take_of_length_le (le_of_eq_of_le hJ1.len_nx hm),
          List.take_of_length_le (le_of_eq_of_le hJ1.len_pv hm),
          List.take_of_length_le (le_of_eq_of_le hJ1.len_in hm)]
        have hJ1' : Jp S1 S1.mlen := by
          rw [hml1]
          exact hJ1
        exact Jp.mk hJ1'.hc hJ1'.len_c hJ1'.len_nx hJ1'.len_pv hJ1'.len_in
          hJ1'.v2i_mvar hJ1'.mvar_lt hJ1'.v2i_sound hJ1'.unmarked_high
          hJ1'.cg_sound hJ1'.cg_mix hJ1'.table_fun hJ1'.table_nodup
          hJ1'.ring_nx_lt hJ1'.ring_pv_lt hJ1'.ring_pn hJ1'.ring_np
          hJ1'.ring_high_self hJ1'.ul_lt

theorem push_skel (S : EState) :
    S.push.ve = S.ve ∧ S.push.monomials = S.monomials ∧
    S.push.canonized = S.canonized ∧ S.push.var2index = S.var2index ∧
    S.push.useLists = S.useLists ∧ S.push.cgTable = S.cgTable ∧
    S.push.cgIn = S.cgIn ∧ S.push.ringNext = S.ringNext ∧
    S.push.ringPrev = S.ringPrev ∧ S.push.trail = S.trail ∧
    S.push.lim = S.monomials.length :: S.lim ∧
    S.push.trailLim = S.trail.length :: S.trailLim :=
  ⟨rfl, rfl, rfl, rfl, rfl, rfl, rfl, rfl, rfl, rfl, rfl, rfl⟩

/-- A rehash fold lands observationally on `S` whenever its start state agrees
with `S` outside the refreshed cache/mark entries and `S` itself is fresh and
marked on the refreshed indices. -/
theorem foldl_rehash_restores {M0 S : EState} (aff : List Nat)
    (hve : M0.ve = S.ve) (hmon : M0.monomials = S.monomials)
    (hv2i : M0.var2index = S.var2index)
    (hul : ∀ w, M0.useLists w = S.useLists w)
    (htrl : M0.trail = S.trail) (hlim : M0.lim = S.lim)
    (htlim : M0.trailLim = S.trailLim)
    (hlenc : M0.canonized.length = S.canonized.length)
    (hleni : M0.cgIn.length = S.cgIn.length)
    (haffb : ∀ x ∈ aff, x < S.mlen)
    (hlc : S.canonized.length = S.mlen) (hli : S.cgIn.length = S.mlen)
    (hvm : ∀ x, x < S.mlen → S.v2i (S.mvarOf x) = x)
    (hcanA : ∀ j, j ∉ aff → M0.canonized.getD j default = S.canonized.getD j default)
    (hcgA : ∀ j, j ∉ aff → M0.cgIn.getD j false = S.cgIn.getD j false)
    (hfreshS : ∀ j ∈ aff,
      do_canonize S.ve (S.monomials.getD j default) = S.canonized.getD j default)
    (hmarkS : ∀ j ∈ aff, S.cgIn.getD j false = true) :
    ObsEq (aff.foldl EState.rehash1 M0) S := by
  have hsk := foldl_rehash_skel aff M0
  refine ⟨hsk.1.trans hve, hsk.2.1.trans hmon, ?_, ?_, ?_, ?_,
    hsk.2.2.2.2.2.2.trans htrl, hsk.2.2.2.2.1.trans hlim,
    hsk.2.2.2.2.2.1.trans htlim⟩
  · apply list_ext_getD default
    · rw [foldl_rehash_canonized_length]
      exact hlenc
    · intro i hi
      rw [foldl_rehash_canonAt aff M0 i (by
        intro x hx
        rw [hlenc, hlc]
        exact haffb x hx)]
      by_cases hiaff : i ∈ aff
      · rw [if_pos hiaff, hve, hmon]
        exact hfreshS i hiaff
      · rw [if_neg hiaff]
        exact hcanA i hiaff
  · intro w
    rw [hsk.2.2.2.1]
    exact hul w
  · intro w
    show ((aff.foldl EState.rehash1 M0).var2index).getD w UINT_MAX
      = S.var2index.getD w UINT_MAX
    rw [hsk.2.2.1, hv2i]
  · apply list_ext_getD false
    · rw [foldl_rehash_cgIn_length]
      exact hleni
    · intro i hi
      rw [foldl_rehash_cgIn aff M0 i (by
        intro x hx
        constructor
        · show (M0.var2index).getD ((M0.monomials.getD x default).var) UINT_MAX = x
          rw [hv2i, hmon]
          exact hvm x (haffb x hx)
        · rw [hleni, hli]
          exact haffb x hx)]
      by_cases hiaff : i ∈ aff
      · rw [if_pos hiaff]
        exact (hmarkS i hiaff).symm
      · rw [if_neg hiaff]
        exact hcgA i hiaff

/-- The undo property at the heart of the scope protocol: an unmerge
notification reverts the observable effect of the matching merge
notification (the congruence table and the rings are reverted only up to
congruence). -/
theorem unmerge_undo {S : EState} (hI : Inv S) (r1 r2 : Nat) (s : Bool)
    (hne : r1 ≠ r2) :
    ObsEq ((S.onMerge r1 r2 s).unmerge1) S := by
  have hJ : Jp S S.mlen := hI.j
  have hMdef : S.onMerge r1 r2 s
      = ((S.useLists r1 ++ S.useLists r2).dedup).foldl EState.rehash1
        { S with
          ve := mergeVE S.ve r1 r2 s,
          useLists := fun w =>
            if w = r2 then S.useLists r1 ++ S.useLists r2 else S.useLists w,
          trail := ⟨r1, r2, s, S.ve⟩ :: S.trail } := rfl
  set aff := (S.useLists r1 ++ S.useLists r2).dedup with haff
  set S0 : EState :=
    { S with
      ve := mergeVE S.ve r1 r2 s,
      useLists := fun w =>
        if w = r2 then S.useLists r1 ++ S.useLists r2 else S.useLists w,
      trail := ⟨r1, r2, s, S.ve⟩ :: S.trail } with hS0
  have hsk := foldl_rehash_skel aff S0
  have htr : (aff.foldl EState.rehash1 S0).trail = ⟨r1, r2, s, S.ve⟩ :: S.trail :=
    hsk.2.2.2.2.2.2
  have hulM : (aff.foldl EState.rehash1 S0).useLists
      = fun w => if w = r2 then S.useLists r1 ++ S.useLists r2 else S.useLists w :=
    hsk.2.2.2.1
  have hmonM : (aff.foldl EState.rehash1 S0).monomials = S.monomials := hsk.2.1
  have hv2iM : (aff.foldl EState.rehash1 S0).var2index = S.var2index := hsk.2.2.1
  have hlimM : (aff.foldl EState.rehash1 S0).lim = S.lim := hsk.2.2.2.2.1
  have htlM : (aff.foldl EState.rehash1 S0).trailLim = S.trailLim := hsk.2.2.2.2.2.1
  have hlenc : (aff.foldl EState.rehash1 S0).canonized.length = S.canonized.length :=
    foldl_rehash_canonized_length aff S0
  have hleni : (aff.foldl EState.rehash1 S0).cgIn.length = S.cgIn.length :=
    foldl_rehash_cgIn_length aff S0
  have haffmem : ∀ x ∈ aff, x < S.mlen := by
    intro x hx
    rw [haff] at hx
    rcases List.mem_append.mp (List.mem_dedup.mp hx) with h | h
    · exact hJ.ul_lt r1 x h
    · exact hJ.ul_lt r2 x h
  have hcanM : ∀ j, (aff.foldl EState.rehash1 S0).canonized.getD j default
      = if j ∈ aff
        then do_canonize (mergeVE S.ve r1 r2 s) (S.monomials.getD j default)
        else S.canonized.getD j default := by
    intro j
    exact foldl_rehash_canonAt aff S0 j (by
      intro x hx
      show x < S.canonized.length
      rw [hJ.len_c]
      exact haffmem x hx)
  have hcgM : ∀ j, (aff.foldl EState.rehash1 S0).cgIn.getD j false
      = if j ∈ aff then true else S.cgIn.getD j false := by
    intro j
    exact foldl_rehash_cgIn aff S0 j (by
      intro x hx
      refine ⟨?_, ?_⟩
      · show S.var2index.getD ((S.monomials.getD x default).var) UINT_MAX = x
        exact hJ.v2i_mvar x (haffmem x hx)
      · show x < S.cgIn.length
        rw [hJ.len_in]
        exact haffmem x hx)
  rw [hMdef]
  unfold EState.unmerge1
  rw [htr]
  dsimp only
  rw [hulM]
  dsimp only
  rw [if_neg hne, if_pos rfl, cutRun_append_self, ← haff]
  refine foldl_rehash_restores aff rfl hmonM hv2iM ?_ rfl hlimM htlM hlenc hleni
    haffmem hJ.len_c hJ.len_in (fun x hx => hJ.v2i_mvar x hx) ?_ ?_ ?_ ?_
  · intro w
    show (if w = r2 then S.useLists r2
      else if w = r2 then S.useLists r1 ++ S.useLists r2 else S.useLists w)
      = S.useLists w
    by_cases hw : w = r2
    · subst hw
      rw [if_pos rfl]
    · rw [if_neg hw, if_neg hw]
  · intro j hj
    rw [hcanM j, if_neg hj]
  · intro j hj
    rw [hcgM j, if_neg hj]
  · intro j hj
    exact (hI.fresh j (haffmem j hj)).symm
  · intro j hj
    exact hI.all_marked j (haffmem j hj)

/-! ## The observable state evolves congruently: two observationally equal
states stay observationally equal under every internal step of a `pop`.  (The
hidden components — table representatives and rings — may diverge, but they
never feed back into the observables.) -/

theorem ObsEq_rehash1 {A B : EState} (h : ObsEq A B) (i : Nat) :
    ObsEq (A.rehash1 i) (B.rehash1 i) := by
  have hA := rehash1_skel A i
  have hB := rehash1_skel B i
  have hmv : A.mvarOf i = B.mvarOf i := by
    show (A.monomials.getD i default).var = (B.monomials.getD i default).var
    rw [h.monomials]
  have hv : A.v2i (A.mvarOf i) = B.v2i (B.mvarOf i) := by
    rw [hmv]
    exact h.v2i _
  refine ⟨?_, ?_, ?_, ?_, ?_, ?_, ?_, ?_, ?_⟩
  · rw [hA.1, hB.1, h.ve]
  · rw [hA.2.1, hB.2.1, h.monomials]
  · rw [rehash1_canonized, rehash1_canonized, h.canonized, h.ve, h.monomials]
  · intro w
    rw [hA.2.2.2.1, hB.2.2.2.1, h.useLists w]
  · intro w
    show ((A.rehash1 i).var2index).getD w UINT_MAX
      = ((B.rehash1 i).var2index).getD w UINT_MAX
    rw [hA.2.2.1, hB.2.2.1]
    exact h.v2i w
  · rw [rehash1_cgIn, rehash1_cgIn, h.cgIn, hv]
  · rw [hA.2.2.2.2.2.2, hB.2.2.2.2.2.2, h.trail]
  · rw [hA.2.2.2.2.1, hB.2.2.2.2.1, h.lim]
  · rw [hA.2.2.2.2.2.1, hB.2.2.2.2.2.1, h.trailLim]

theorem ObsEq_foldl_rehash {A B : EState} (h : ObsEq A B) (l : List Nat) :
    ObsEq (l.foldl EState.rehash1 A) (l.foldl EState.rehash1 B) := by
  induction l generalizing A B with
  | nil => exact h
  | cons a t ih =>
    rw [List.foldl_cons, List.foldl_cons]
    exact ih (ObsEq_rehash1 h a)

theorem ObsEq_unmerge1 {A B : EState} (h : ObsEq A B) :
    ObsEq A.unmerge1 B.unmerge1 := by
  unfold EState.unmerge1
  rw [← h.trail]
  cases htr : A.trail with
  | nil => exact h
  | cons t rest =>
    dsimp only
    rw [h.useLists t.r1, h.useLists t.r2]
    apply ObsEq_foldl_rehash
    refine ⟨rfl, h.monomials, h.canonized, ?_, h.v2i, h.cgIn,
      rfl, h.lim, h.trailLim⟩
    intro w
    show (if w = t.r2 then cutRun (B.useLists t.r2) (B.useLists t.r1)
        else A.useLists w)
      = (if w = t.r2 then cutRun (B.useLists t.r2) (B.useLists t.r1)
        else B.useLists w)
    by_cases hw : w = t.r2
    · rw [if_pos hw, if_pos hw]
    · rw [if_neg hw, if_neg hw]
      exact h.useLists w

theorem ObsEq_unmergeN {A B : EState} (h : ObsEq A B) (k : Nat) :
    ObsEq (A.unmergeN k) (B.unmergeN k) := by
  induction k generalizing A B with
  | zero => exact h
  | succ k ih =>
    show ObsEq ((A.unmerge1).unmergeN k) ((B.unmerge1).unmergeN k)
    exact ih (ObsEq_unmerge1 h)

theorem ObsEq_removeMon {A B : EState} (h : ObsEq A B) (i : Nat) :
    ObsEq (A.removeMon i) (B.removeMon i) := by
  have hA := removeMon_skel A i
  have hB := removeMon_skel B i
  have hmv : A.mvarOf i = B.mvarOf i := by
    show (A.monomials.getD i default).var = (B.monomials.getD i default).var
    rw [h.monomials]
  refine ⟨?_, ?_, ?_, ?_, ?_, ?_, ?_, ?_, ?_⟩
  · rw [hA.1, hB.1, h.ve]
  · rw [hA.2.1, hB.2.1, h.monomials]
  · rw [hA.2.2.1, hB.2.2.1, h.canonized]
  · intro w
    rw [removeMon_useLists, removeMon_useLists]
    dsimp only
    rw [h.useLists w]
  · intro w
    show ((A.removeMon i).var2index).getD w UINT_MAX
      = ((B.removeMon i).var2index).getD w UINT_MAX
    rw [removeMon_var2index, removeMon_var2index, hmv]
    by_cases hwv : w = B.mvarOf i
    · subst hwv
      rw [set_UINT_getD_self, set_UINT_getD_self]
    · rw [getD_set_elsewhere _ _ hwv, getD_set_elsewhere _ _ hwv]
      exact h.v2i w
  · rw [removeMon_cgIn, removeMon_cgIn, h.cgIn, hmv, h.v2i]
  · rw [hA.2.2.2.2.2, hB.2.2.2.2.2, h.trail]
  · rw [hA.2.2.2.1, hB.2.2.2.1, h.lim]
  · rw [hA.2.2.2.2.1, hB.2.2.2.2.1, h.trailLim]

theorem ObsEq_removeDownFrom {A B : EState} (h : ObsEq A B) (n0 k : Nat) :
    ObsEq (A.removeDownFrom n0 k) (B.removeDownFrom n0 k) := by
  induction k generalizing A B with
  | zero => exact h
  | succ k ih =>
    show ObsEq ((A.removeMon (n0 + k)).removeDownFrom n0 k)
      ((B.removeMon (n0 + k)).removeDownFrom n0 k)
    exact ih (ObsEq_removeMon h (n0 + k))

theorem ObsEq_pop1 {A B : EState} (h : ObsEq A B) : ObsEq A.pop1 B.pop1 := by
  unfold EState.pop1
  rw [← h.lim, ← h.trailLim, ← h.trail]
  cases hl : A.lim with
  | nil =>
    cases htl : A.trailLim with
    | nil => exact h
    | cons t0 tls => exact h
  | cons n0 lims =>
    cases htl : A.trailLim with
    | nil => exact h
    | cons t0 tls =>
      dsimp only
      have h1 : ObsEq (A.unmergeN (A.trail.length - t0))
          (B.unmergeN (A.trail.length - t0)) := ObsEq_unmergeN h _
      have hm1 : (A.unmergeN (A.trail.length - t0)).monomials.length
          = (B.unmergeN (A.trail.length - t0)).monomials.length := by
        rw [h1.monomials]
      rw [hm1]
      have h2 : ObsEq
          ((A.unmergeN (A.trail.length - t0)).removeDownFrom n0
            ((B.unmergeN (A.trail.length - t0)).monomials.length - n0))
          ((B.unmergeN (A.trail.length - t0)).removeDownFrom n0
            ((B.unmergeN (A.trail.length - t0)).monomials.length - n0)) :=
        ObsEq_removeDownFrom h1 _ _
      exact ⟨h2.ve, by rw [h2.monomials], by rw [h2.canonized], h2.useLists,
        h2.v2i, by rw [h2.cgIn], h2.trail, rfl, rfl⟩

/-- The number of live slots is bounded by the variable space: distinct slots
have distinct defining variables below `UINT_MAX`. -/
theorem Jp.c_le_UINT {S : EState} {c : Nat} (hJ : Jp S c) : c ≤ UINT_MAX := by
  have hinj : Function.Injective
      (fun i : Fin c =>
        (⟨(S.monAt i).var, hJ.mvar_lt i (lt_of_lt_of_le i.2 hJ.hc)⟩ : Fin UINT_MAX)) := by
    intro i j hij
    have h1 : (S.monAt (i : Nat)).var = (S.monAt (j : Nat)).var :=
      congrArg Fin.val hij
    have h2 := hJ.v2i_mvar (i : Nat) i.2
    have h3 := hJ.v2i_mvar (j : Nat) j.2
    rw [h1, h3] at h2
    exact Fin.ext h2.symm
  have hcard := Fintype.card_le_of_injective _ hinj
  rwa [Fintype.card_fin, Fintype.card_fin] at hcard

/-- The ghost relation driving the `add`-then-`pop` argument: `X` is `Y` with
one extra, freshly added monomial slot `c` (defining variable `v`, factors
`vs`) that sits at the head of the use lists of the factor representatives
`roots`; everything the observer can see below the ghost agrees. -/
structure GRel (c v : Nat) (vs : List Nat) (roots : List Nat)
    (X Y : EState) : Prop where
  ve : X.ve = Y.ve
  mlenY : Y.monomials.length = c
  monx : X.monomials = Y.monomials ++ [⟨v, vs⟩]
  canlenX : X.canonized.length = c + 1
  canlenY : Y.canonized.length = c
  can : ∀ j, j < c → X.canonized.getD j default = Y.canonized.getD j default
  cglenX : X.cgIn.length = c + 1
  cglenY : Y.cgIn.length = c
  cg : ∀ j, j < c → X.cgIn.getD j false = Y.cgIn.getD j false
  ul : ∀ w, X.useLists w = if w ∈ roots then c :: Y.useLists w else Y.useLists w
  v2ine : ∀ w, w ≠ v → X.v2i w = Y.v2i w
  v2iv : X.v2i v = c
  v2iY : Y.v2i v = UINT_MAX
  trail : X.trail = Y.trail

theorem GRel.mvarX {c v : Nat} {vs roots : List Nat} {X Y : EState}
    (h : GRel c v vs roots X Y) : X.mvarOf c = v := by
  show (X.monomials.getD c default).var = v
  rw [h.monx, ← h.mlenY, getD_append_len]

theorem GRel.monlow {c v : Nat} {vs roots : List Nat} {X Y : EState}
    (h : GRel c v vs roots X Y) {j : Nat} (hj : j < c) :
    X.monomials.getD j default = Y.monomials.getD j default := by
  rw [h.monx, getD_append_lt]
  rw [h.mlenY]
  exact hj

/-- A rehash fold preserves the ghost relation whenever the two index lists
agree away from the ghost slot. -/
theorem GRel_foldl {c v : Nat} {vs roots : List Nat} {X0 Y0 : EState}
    {affX affY : List Nat}
    (h : GRel c v vs roots X0 Y0)
    (hmemb : ∀ j, j ≠ c → (j ∈ affX ↔ j ∈ affY))
    (hbX : ∀ x ∈ affX, x < c + 1) (hbY : ∀ x ∈ affY, x < c)
    (hvmX : ∀ x ∈ affX, X0.v2i (X0.mvarOf x) = x)
    (hvmY : ∀ x ∈ affY, Y0.v2i (Y0.mvarOf x) = x) :
    GRel c v vs roots (affX.foldl EState.rehash1 X0)
      (affY.foldl EState.rehash1 Y0) := by
  have hskX := foldl_rehash_skel affX X0
  have hskY := foldl_rehash_skel affY Y0
  refine ⟨?_, ?_, ?_, ?_, ?_, ?_, ?_, ?_, ?_, ?_, ?_, ?_, ?_, ?_⟩
  · rw [hskX.1, hskY.1, h.ve]
  · rw [hskY.2.1, h.mlenY]
  · rw [hskX.2.1, hskY.2.1, h.monx]
  · rw [foldl_rehash_canonized_length, h.canlenX]
  · rw [foldl_rehash_canonized_length, h.canlenY]
  · intro j hj
    rw [foldl_rehash_canonAt affX X0 j (by
        intro x hx
        rw [h.canlenX]
        exact hbX x hx),
      foldl_rehash_canonAt affY Y0 j (by
        intro x hx
        rw [h.canlenY]
        exact hbY x hx)]
    have hjc : j ≠ c := Nat.ne_of_lt hj
    by_cases hmem : j ∈ affY
    · rw [if_pos ((hmemb j hjc).mpr hmem), if_pos hmem, h.ve, h.monlow hj]
    · rw [if_neg (fun hx => hmem ((hmemb j hjc).mp hx)), if_neg hmem]
      exact h.can j hj
  · rw [foldl_rehash_cgIn_length, h.cglenX]
  · rw [foldl_rehash_cgIn_length, h.cglenY]
  · intro j hj
    rw [foldl_rehash_cgIn affX X0 j (fun x hx =>
        ⟨hvmX x hx, by rw [h.cglenX]; exact hbX x hx⟩),
      foldl_rehash_cgIn affY Y0 j (fun x hx =>
        ⟨hvmY x hx, by rw [h.cglenY]; exact hbY x hx⟩)]
    have hjc : j ≠ c := Nat.ne_of_lt hj
    by_cases hmem : j ∈ affY
    · rw [if_pos ((hmemb j hjc).mpr hmem), if_pos hmem]
    · rw [if_neg (fun hx => hmem ((hmemb j hjc).mp hx)), if_neg hmem]
      exact h.cg j hj
  · intro w
    rw [hskX.2.2.2.1, hskY.2.2.2.1]
    exact h.ul w
  · intro w hw
    show ((affX.foldl EState.rehash1 X0).var2index).getD w UINT_MAX
      = ((affY.foldl EState.rehash1 Y0).var2index).getD w UINT_MAX
    rw [hskX.2.2.1, hskY.2.2.1]
    exact h.v2ine w hw
  · show ((affX.foldl EState.rehash1 X0).var2index).getD v UINT_MAX = c
    rw [hskX.2.2.1]
    exact h.v2iv
  · show ((affY.foldl EState.rehash1 Y0).var2index).getD v UINT_MAX = UINT_MAX
    rw [hskY.2.2.1]
    exact h.v2iY
  · rw [hskX.2.2.2.2.2.2, hskY.2.2.2.2.2.2, h.trail]

/-- One unmerge step preserves the ghost relation: the ghost cell only ever
sits at the head of a root's use list, never inside a frozen run. -/
theorem GRel_unmerge1 {c v : Nat} {vs roots : List Nat} {X Y : EState}
    (h : GRel c v vs roots X Y) (hJY : Jp Y c)
    (ht : ∀ t ∈ Y.trail, t.r1 ∉ roots) :
    GRel c v vs roots X.unmerge1 Y.unmerge1 := by
  have hcU : c ≤ UINT_MAX := hJY.c_le_UINT
  unfold EState.unmerge1
  rw [h.trail]
  cases htr : Y.trail with
  | nil => exact h
  | cons t rest =>
    dsimp only
    have hr1 : t.r1 ∉ roots := ht t (htr ▸ List.mem_cons_self _ _)
    have hXr1 : X.useLists t.r1 = Y.useLists t.r1 := by
      rw [h.ul, if_neg hr1]
    have hPlt : ∀ x ∈ Y.useLists t.r1, x < c := fun x hx => hJY.ul_lt t.r1 x hx
    have hcP : c ∉ Y.useLists t.r1 := fun hc' => absurd (hPlt c hc') (lt_irrefl c)
    have hL2lt : ∀ x ∈ cutRun (Y.useLists t.r2) (Y.useLists t.r1), x < c :=
      fun x hx => hJY.ul_lt t.r2 x (mem_of_mem_cutRun hx)
    have hvmX : ∀ x, x < c + 1 → X.v2i (X.mvarOf x) = x := by
      intro x hx
      by_cases hxc : x = c
      · subst hxc
        rw [h.mvarX]
        exact h.v2iv
      · have hxlt : x < c := by omega
        have hmv : X.mvarOf x = Y.mvarOf x := by
          show (X.monomials.getD x default).var = (Y.monomials.getD x default).var
          rw [h.monlow hxlt]
        have hmvne : Y.mvarOf x ≠ v := by
          intro he
          have h2 := hJY.v2i_mvar x hxlt
          have h3 : Y.v2i v = x := by
            rw [← he]
            exact h2
          rw [h.v2iY] at h3
          omega
        rw [hmv, h.v2ine _ hmvne]
        exact hJY.v2i_mvar x hxlt
    have hvmY : ∀ x, x < c → Y.v2i (Y.mvarOf x) = x :=
      fun x hx => hJY.v2i_mvar x hx
    rw [hXr1]
    by_cases hr2 : t.r2 ∈ roots
    · have hXr2 : X.useLists t.r2 = c :: Y.useLists t.r2 := by
        rw [h.ul, if_pos hr2]
      rw [hXr2, cutRun_cons_of_not_head _ _ _ hcP]
      refine GRel_foldl ⟨rfl, h.mlenY, h.monx, h.canlenX, h.canlenY, h.can,
        h.cglenX, h.cglenY, h.cg, ?_, h.v2ine, h.v2iv, h.v2iY, rfl⟩
        ?_ ?_ ?_ ?_ ?_
      · intro w
        show (if w = t.r2
            then c :: cutRun (Y.useLists t.r2) (Y.useLists t.r1)
            else X.useLists w)
          = if w ∈ roots
            then c :: (if w = t.r2
              then cutRun (Y.useLists t.r2) (Y.useLists t.r1)
              else Y.useLists w)
            else (if w = t.r2
              then cutRun (Y.useLists t.r2) (Y.useLists t.r1)
              else Y.useLists w)
        by_cases hw : w = t.r2
        · subst hw
          rw [if_pos rfl, if_pos rfl, if_pos hr2]
        · rw [if_neg hw, if_neg hw, h.ul w]
      · intro j hjc
        constructor
        · intro hj
          rcases List.mem_append.mp (List.mem_dedup.mp hj) with h' | h'
          · exact List.mem_dedup.mpr (List.mem_append.mpr (Or.inl h'))
          · rcases List.mem_cons.mp h' with h'' | h''
            · exact absurd h'' hjc
            · exact List.mem_dedup.mpr (List.mem_append.mpr (Or.inr h''))
        · intro hj
          rcases List.mem_append.mp (List.mem_dedup.mp hj) with h' | h'
          · exact List.mem_dedup.mpr (List.mem_append.mpr (Or.inl h'))
          · exact List.mem_dedup.mpr (List.mem_append.mpr
              (Or.inr (List.mem_cons_of_mem _ h')))
      · intro x hx
        rcases List.mem_append.mp (List.mem_dedup.mp hx) with h' | h'
        · exact lt_trans (hPlt x h') (Nat.lt_succ_self c)
        · rcases List.mem_cons.mp h' with h'' | h''
          · omega
          · exact lt_trans (hL2lt x h'') (Nat.lt_succ_self c)
      · intro x hx
        rcases List.mem_append.mp (List.mem_dedup.mp hx) with h' | h'
        · exact hPlt x h'
        · exact hL2lt x h'
      · intro x hx
        refine hvmX x ?_
        rcases List.mem_append.mp (List.mem_dedup.mp hx) with h' | h'
        · exact lt_trans (hPlt x h') (Nat.lt_succ_self c)
        · rcases List.mem_cons.mp h' with h'' | h''
          · omega
          · exact lt_trans (hL2lt x h'') (Nat.lt_succ_self c)
      · intro x hx
        refine hvmY x ?_
        rcases List.mem_append.mp (List.mem_dedup.mp hx) with h' | h'
        · exact hPlt x h'
        · exact hL2lt x h'
    · have hXr2 : X.useLists t.r2 = Y.useLists t.r2 := by
        rw [h.ul, if_neg hr2]
      rw [hXr2]
      refine GRel_foldl ⟨rfl, h.mlenY, h.monx, h.canlenX, h.canlenY, h.can,
        h.cglenX, h.cglenY, h.cg, ?_, h.v2ine, h.v2iv, h.v2iY, rfl⟩
        (fun j _ => Iff.rfl) ?_ ?_ ?_ ?_
      · intro w
        show (if w = t.r2
            then cutRun (Y.useLists t.r2) (Y.useLists t.r1)
            else X.useLists w)
          = if w ∈ roots
            then c :: (if w = t.r2
              then cutRun (Y.useLists t.r2) (Y.useLists t.r1)
              else Y.useLists w)
            else (if w = t.r2
              then cutRun (Y.useLists t.r2) (Y.useLists t.r1)
              else Y.useLists w)
        by_cases hw : w = t.r2
        · subst hw
          rw [if_pos rfl, if_neg hr2, if_pos rfl]
        · rw [if_neg hw, if_neg hw, h.ul w]
      · intro x hx
        rcases List.mem_append.mp (List.mem_dedup.mp hx) with h' | h'
        · exact lt_trans (hPlt x h') (Nat.lt_succ_self c)
        · exact lt_trans (hL2lt x h') (Nat.lt_succ_self c)
      · intro x hx
        rcases List.mem_append.mp (List.mem_dedup.mp hx) with h' | h'
        · exact hPlt x h'
        · exact hL2lt x h'
      · intro x hx
        refine hvmX x ?_
        rcases List.mem_append.mp (List.mem_dedup.mp hx) with h' | h'
        · exact lt_trans (hPlt x h') (Nat.lt_succ_self c)
        · exact lt_trans (hL2lt x h') (Nat.lt_succ_self c)
      · intro x hx
        refine hvmY x ?_
        rcases List.mem_append.mp (List.mem_dedup.mp hx) with h' | h'
        · exact hPlt x h'
        · exact hL2lt x h'

/-- The whole unmerge cascade preserves the ghost relation. -/
theorem GRel_unmergeN {c v : Nat} {vs roots : List Nat} {X Y : EState}
    (h : GRel c v vs roots X Y) (hJY : Jp Y c)
    (ht : ∀ t ∈ Y.trail, t.r1 ∉ roots) (k : Nat) :
    GRel c v vs roots (X.unmergeN k) (Y.unmergeN k) := by
  induction k generalizing X Y with
  | zero => exact h
  | succ k ih =>
    show GRel c v vs roots ((X.unmerge1).unmergeN k) ((Y.unmerge1).unmergeN k)
    refine ih (GRel_unmerge1 h hJY ht) (unmerge1_Jp hJY) ?_
    intro t' ht'
    rw [(unmerge1_skel Y).2.2.2.2] at ht'
    exact ht t' (List.mem_of_mem_tail ht')

/-- Registering a fresh monomial sets up the ghost relation between the new
state and the old one. -/
theorem GRel_add {S : EState} (hJ : Jinv S) {v : Nat} (vs : List Nat)
    (hfresh : S.v2i v = UINT_MAX) :
    GRel S.mlen v vs ((do_canonize S.ve ⟨v, vs⟩).vars.dedup) (S.add v vs) S := by
  have key : ∀ T : EState, T =
      { S with
        monomials := S.monomials ++ [⟨v, vs⟩],
        canonized := S.canonized ++ [do_canonize S.ve ⟨v, vs⟩],
        ringNext := S.ringNext ++ [S.monomials.length],
        ringPrev := S.ringPrev ++ [S.monomials.length],
        cgIn := S.cgIn ++ [false],
        var2index := setV2I S.var2index v S.monomials.length,
        useLists := fun w =>
          if w ∈ (do_canonize S.ve ⟨v, vs⟩).vars.dedup
          then S.monomials.length :: S.useLists w
          else S.useLists w } →
      GRel S.mlen v vs ((do_canonize S.ve ⟨v, vs⟩).vars.dedup) (T.insert_cg v) S := by
    intro T hT
    have hTm : T.monomials = S.monomials ++ [⟨v, vs⟩] := by rw [hT]
    have hTc : T.canonized = S.canonized ++ [do_canonize S.ve ⟨v, vs⟩] := by rw [hT]
    have hTcg : T.cgIn = S.cgIn ++ [false] := by rw [hT]
    have hTvi : T.var2index = setV2I S.var2index v S.monomials.length := by rw [hT]
    have hTu : T.useLists = fun w =>
        if w ∈ (do_canonize S.ve ⟨v, vs⟩).vars.dedup
        then S.monomials.length :: S.useLists w
        else S.useLists w := by rw [hT]
    have hTv : T.v2i v = S.monomials.length := by
      show T.var2index.getD v UINT_MAX = _
      rw [hTvi, setV2I_getD, if_pos rfl]
    refine ⟨?_, rfl, ?_, ?_, hJ.len_c, ?_, ?_, hJ.len_in, ?_, ?_, ?_, ?_,
      hfresh, ?_⟩
    · rw [insert_cg_ve, hT]
    · rw [insert_cg_monomials, hTm]
    · rw [insert_cg_canonized, hTc, List.length_append, hJ.len_c]
      rfl
    · intro j hj
      rw [insert_cg_canonized, hTc]
      exact getD_append_lt default (by rw [hJ.len_c]; exact hj)
    · rw [insert_cg_cgIn, List.length_set, hTcg, List.length_append, hJ.len_in]
      rfl
    · intro j hj
      rw [insert_cg_cgIn, hTv, hTcg,
        getD_set_elsewhere _ _ (Nat.ne_of_lt hj : j ≠ S.monomials.length),
        getD_append_lt false (by rw [hJ.len_in]; exact hj)]
    · intro w
      rw [insert_cg_useLists, hTu]
      rfl
    · intro w hw
      show ((T.insert_cg v).var2index).getD w UINT_MAX = S.var2index.getD w UINT_MAX
      rw [insert_cg_var2index, hTvi, setV2I_getD, if_neg hw]
    · show ((T.insert_cg v).var2index).getD v UINT_MAX = S.mlen
      rw [insert_cg_var2index, hTvi, setV2I_getD, if_pos rfl]
      rfl
    · rw [insert_cg_trail, hT]
  exact key _ rfl

/-- After the ghost slot's table entry, occurrence cells and variable mapping
are retired, the two states agree on every observable except the retired
tails of the per-slot stores beyond `c`. -/
structure GR2 (c : Nat) (X Y : EState) : Prop where
  ve : X.ve = Y.ve
  mlenY : Y.monomials.length = c
  monx : ∃ g, X.monomials = Y.monomials ++ [g]
  canlenX : X.canonized.length = c + 1
  canlenY : Y.canonized.length = c
  can : ∀ j, j < c → X.canonized.getD j default = Y.canonized.getD j default
  cglenX : X.cgIn.length = c + 1
  cglenY : Y.cgIn.length = c
  cg : ∀ j, j < c → X.cgIn.getD j false = Y.cgIn.getD j false
  ul : ∀ w, X.useLists w = Y.useLists w
  v2i : ∀ w, X.v2i w = Y.v2i w
  trail : X.trail = Y.trail

/-- Retiring the ghost slot turns the ghost relation into tail-only
disagreement. -/
theorem GRel_removeGhost {c v : Nat} {vs roots : List Nat} {X Y : EState}
    (h : GRel c v vs roots X Y) (hJY : Jp Y c) :
    GR2 c (X.removeMon c) Y := by
  have hsk := removeMon_skel X c
  have hvc : X.v2i (X.mvarOf c) = c := by
    rw [h.mvarX]
    exact h.v2iv
  have hfilt : ∀ w, (Y.useLists w).filter (fun x => x != c) = Y.useLists w := by
    intro w
    apply List.filter_eq_self.mpr
    intro x hx
    have := hJY.ul_lt w x hx
    simp only [bne_iff_ne, ne_eq]
    omega
  refine ⟨?_, h.mlenY, ⟨⟨v, vs⟩, ?_⟩, ?_, h.canlenY, ?_, ?_, h.cglenY, ?_,
    ?_, ?_, ?_⟩
  · rw [hsk.1, h.ve]
  · rw [hsk.2.1, h.monx]
  · rw [hsk.2.2.1, h.canlenX]
  · intro j hj
    rw [hsk.2.2.1]
    exact h.can j hj
  · rw [removeMon_cgIn, List.length_set, h.cglenX]
  · intro j hj
    rw [removeMon_cgIn, hvc, getD_set_elsewhere _ _ (Nat.ne_of_lt hj)]
    exact h.cg j hj
  · intro w
    rw [removeMon_useLists]
    dsimp only
    rw [h.ul w]
    by_cases hw : w ∈ roots
    · rw [if_pos hw, List.filter_cons_of_neg (by simp), hfilt w]
    · rw [if_neg hw, hfilt w]
  · intro w
    show ((X.removeMon c).var2index).getD w UINT_MAX = Y.var2index.getD w UINT_MAX
    rw [removeMon_var2index, h.mvarX]
    by_cases hw : w = v
    · subst hw
      rw [set_UINT_getD_self]
      exact h.v2iY.symm
    · rw [getD_set_elsewhere _ _ hw]
      exact h.v2ine w hw
  · rw [hsk.2.2.2.2.2, h.trail]

/-- Retiring any still-shared slot preserves the tail-only disagreement. -/
theorem GR2_removeMon {c : Nat} {X Y : EState} (h : GR2 c X Y) {j : Nat}
    (hj : j < c) : GR2 c (X.removeMon j) (Y.removeMon j) := by
  obtain ⟨g, hg⟩ := h.monx
  have hskX := removeMon_skel X j
  have hskY := removeMon_skel Y j
  have hmv : X.mvarOf j = Y.mvarOf j := by
    show (X.monomials.getD j default).var = (Y.monomials.getD j default).var
    rw [hg, getD_append_lt default (by rw [h.mlenY]; exact hj)]
  have hv2 : X.v2i (X.mvarOf j) = Y.v2i (Y.mvarOf j) := by
    rw [hmv]
    exact h.v2i _
  refine ⟨?_, ?_, ⟨g, ?_⟩, ?_, ?_, ?_, ?_, ?_, ?_, ?_, ?_, ?_⟩
  · rw [hskX.1, hskY.1, h.ve]
  · rw [hskY.2.1, h.mlenY]
  · rw [hskX.2.1, hskY.2.1, hg]
  · rw [hskX.2.2.1, h.canlenX]
  · rw [hskY.2.2.1, h.canlenY]
  · intro j' hj'
    rw [hskX.2.2.1, hskY.2.2.1]
    exact h.can j' hj'
  · rw [removeMon_cgIn, List.length_set, h.cglenX]
  · rw [removeMon_cgIn, List.length_set, h.cglenY]
  · intro j' hj'
    rw [removeMon_cgIn, removeMon_cgIn, hv2]
    by_cases hjp : j' = Y.v2i (Y.mvarOf j)
    · subst hjp
      rw [getD_set_self _ _ (by rw [h.cglenX]; omega),
        getD_set_self _ _ (by rw [h.cglenY]; omega)]
    · rw [getD_set_elsewhere _ _ hjp, getD_set_elsewhere _ _ hjp]
      exact h.cg j' hj'
  · intro w
    rw [removeMon_useLists, removeMon_useLists]
    dsimp only
    rw [h.ul w]
  · intro w
    show ((X.removeMon j).var2index).getD w UINT_MAX
      = ((Y.removeMon j).var2index).getD w UINT_MAX
    rw [removeMon_var2index, removeMon_var2index, hmv]
    by_cases hw : w = Y.mvarOf j
    · subst hw
      rw [set_UINT_getD_self, set_UINT_getD_self]
    · rw [getD_set_elsewhere _ _ hw, getD_set_elsewhere _ _ hw]
      exact h.v2i w
  · rw [hskX.2.2.2.2.2, hskY.2.2.2.2.2, h.trail]

theorem GR2_removeDownFrom {c : Nat} {X Y : EState} (h : GR2 c X Y)
    (n0 q : Nat) (hq : n0 + q ≤ c) :
    GR2 c (X.removeDownFrom n0 q) (Y.removeDownFrom n0 q) := by
  induction q generalizing X Y with
  | zero => exact h
  | succ q ih =>
    show GR2 c ((X.removeMon (n0 + q)).removeDownFrom n0 q)
      ((Y.removeMon (n0 + q)).removeDownFrom n0 q)
    exact ih (GR2_removeMon h (by omega)) (by omega)

/-- Truncating to a boundary at or below `c` erases the tail disagreement. -/
theorem GR2_trunc {c n0 : Nat} {X Y : EState} (h : GR2 c X Y) (hn0 : n0 ≤ c)
    (lims tls : List Nat) :
    ObsEq
      { X with
        monomials := X.monomials.take n0,
        canonized := X.canonized.take n0,
        ringNext := X.ringNext.take n0,
        ringPrev := X.ringPrev.take n0,
        cgIn := X.cgIn.take n0,
        lim := lims, trailLim := tls }
      { Y with
        monomials := Y.monomials.take n0,
        canonized := Y.canonized.take n0,
        ringNext := Y.ringNext.take n0,
        ringPrev := Y.ringPrev.take n0,
        cgIn := Y.cgIn.take n0,
        lim := lims, trailLim := tls } := by
  obtain ⟨g, hg⟩ := h.monx
  refine ⟨h.ve, ?_, ?_, h.ul, h.v2i, ?_, h.trail, rfl, rfl⟩
  · show X.monomials.take n0 = Y.monomials.take n0
    rw [hg, List.take_append_of_le_length (by rw [h.mlenY]; omega)]
  · show X.canonized.take n0 = Y.canonized.take n0
    apply list_ext_getD default
    · rw [List.length_take, List.length_take, h.canlenX, h.canlenY]
      omega
    · intro i hi
      rw [List.length_take, h.canlenX] at hi
      have hin0 : i < n0 := by omega
      rw [getD_take_lt _ hin0, getD_take_lt _ hin0]
      exact h.can i (by omega)
  · show X.cgIn.take n0 = Y.cgIn.take n0
    apply list_ext_getD false
    · rw [List.length_take, List.length_take, h.cglenX, h.cglenY]
      omega
    · intro i hi
      rw [List.length_take, h.cglenX] at hi
      have hin0 : i < n0 := by omega
      rw [getD_take_lt _ hin0, getD_take_lt _ hin0]
      exact h.cg i (by omega)

/-- The removal-and-truncation tail of a `pop1` maps ghost-related states to
observationally equal results. -/
theorem GRel_finish {c v n0 : Nat} {vs roots : List Nat} {X Y : EState}
    (h : GRel c v vs roots X Y) (hJY : Jp Y c) (hn0 : n0 ≤ c)
    (lims tls : List Nat) :
    ObsEq
      { X.removeDownFrom n0 (X.monomials.length - n0) with
        monomials :=
          (X.removeDownFrom n0 (X.monomials.length - n0)).monomials.take n0,
        canonized :=
          (X.removeDownFrom n0 (X.monomials.length - n0)).canonized.take n0,
        ringNext :=
          (X.removeDownFrom n0 (X.monomials.length - n0)).ringNext.take n0,
        ringPrev :=
          (X.removeDownFrom n0 (X.monomials.length - n0)).ringPrev.take n0,
        cgIn := (X.removeDownFrom n0 (X.monomials.length - n0)).cgIn.take n0,
        lim := lims, trailLim := tls }
      { Y.removeDownFrom n0 (Y.monomials.length - n0) with
        monomials :=
          (Y.removeDownFrom n0 (Y.monomials.length - n0)).monomials.take n0,
        canonized :=
          (Y.removeDownFrom n0 (Y.monomials.length - n0)).canonized.take n0,
        ringNext :=
          (Y.removeDownFrom n0 (Y.monomials.length - n0)).ringNext.take n0,
        ringPrev :=
          (Y.removeDownFrom n0 (Y.monomials.length - n0)).ringPrev.take n0,
        cgIn := (Y.removeDownFrom n0 (Y.monomials.length - n0)).cgIn.take n0,
        lim := lims, trailLim := tls } := by
  have hXlen : X.monomials.length = c + 1 := by
    rw [h.monx, List.length_append, h.mlenY]
    rfl
  have hYc : Y.monomials.length - n0 = c - n0 := by rw [h.mlenY]
  have hXc : X.monomials.length - n0 = (c - n0) + 1 := by
    rw [hXlen]
    omega
  rw [hXc, hYc]
  have hstep : X.removeDownFrom n0 ((c - n0) + 1)
      = (X.removeMon (n0 + (c - n0))).removeDownFrom n0 (c - n0) := rfl
  have hc' : n0 + (c - n0) = c := by omega
  rw [hstep, hc']
  exact GR2_trunc
    (GR2_removeDownFrom (GRel_removeGhost h hJY) n0 (c - n0) (by omega))
    hn0 lims tls

/-- A fresh `emonomials` instance satisfies the quiescent invariant. -/
theorem Inv_init : Inv EState.init := by
  refine ⟨⟨?_, rfl, rfl, rfl, rfl, ?_, ?_, ?_, ?_, ?_, ?_, ?_, ?_, ?_, ?_, ?_,
      ?_, ?_, ?_⟩, ?_, ?_, ?_, ?_, ?_, ?_, rfl, ?_, ?_, ?_, ?_⟩
  · exact le_refl _
  · intro i hi
    exact absurd hi (Nat.not_lt_zero i)
  · intro i hi
    exact absurd hi (Nat.not_lt_zero i)
  · intro w hw
    exact absurd rfl hw
  · intro i _
    rfl
  · intro u hu
    exact absurd hu (List.not_mem_nil u)
  · intro i hi
    exact absurd hi (Nat.not_lt_zero i)
  · intro u hu
    exact absurd hu (List.not_mem_nil u)
  · exact List.nodup_nil
  · intro i hi
    exact absurd hi (Nat.not_lt_zero i)
  · intro i hi
    exact absurd hi (Nat.not_lt_zero i)
  · intro i hi
    exact absurd hi (Nat.not_lt_zero i)
  · intro i hi
    exact absurd hi (Nat.not_lt_zero i)
  · intro i _
    exact ⟨rfl, rfl⟩
  · intro w x hx
    exact absurd hx (List.not_mem_nil x)
  · intro u
    rfl
  · intro i hi
    exact absurd hi (Nat.not_lt_zero i)
  · intro i hi
    exact absurd hi (Nat.not_lt_zero i)
  · intro r _ i hi
    exact absurd hi (Nat.not_lt_zero i)
  · intro t ht
    exact absurd ht (List.not_mem_nil t)
  · exact List.Pairwise.nil
  · intro n hn
    exact absurd hn (List.not_mem_nil n)
  · exact List.sorted_nil
  · intro t ht
    exact absurd ht (List.not_mem_nil t)
  · exact List.sorted_nil

/-- `push` preserves the quiescent invariant: it only records the current
boundaries, which satisfy the stack ordering by construction. -/
theorem Inv_push {S : EState} (hI : Inv S) : Inv S.push := by
  have hJ : Jp S S.mlen := hI.j
  have hJP : Jinv S.push :=
    Jp.mk hJ.hc hJ.len_c hJ.len_nx hJ.len_pv hJ.len_in hJ.v2i_mvar hJ.mvar_lt
      hJ.v2i_sound hJ.unmarked_high hJ.cg_sound hJ.cg_mix hJ.table_fun
      hJ.table_nodup hJ.ring_nx_lt hJ.ring_pv_lt hJ.ring_pn hJ.ring_np
      hJ.ring_high_self hJ.ul_lt
  refine ⟨hJP, hI.vewf, hI.fresh, hI.all_marked, hI.ul_mem, hI.trail_nonroot,
    hI.trail_pw, ?_, ?_, ?_, ?_, ?_⟩
  · show (S.monomials.length :: S.lim).length = (S.trail.length :: S.trailLim).length
    simp only [List.length_cons, hI.lim_len]
  · intro n hn
    rcases List.mem_cons.mp hn with h | h
    · subst h
      exact le_refl _
    · exact hI.lim_le n h
  · show (S.monomials.length :: S.lim).Sorted (fun a b => b ≤ a)
    exact List.sorted_cons.mpr ⟨fun b hb => hI.lim_le b hb, hI.lim_sorted⟩
  · intro t ht
    rcases List.mem_cons.mp ht with h | h
    · subst h
      exact le_refl _
    · exact hI.tlim_le t h
  · show (S.trail.length :: S.trailLim).Sorted (fun a b => b ≤ a)
    exact List.sorted_cons.mpr ⟨fun b hb => hI.tlim_le b hb, hI.tlim_sorted⟩

/-- `do_canonize` only consults the union-find on the monomial's factors. -/
theorem do_canonize_congr {ve1 ve2 : Nat → SignedVar} {m : Monomial}
    (h : ∀ x ∈ m.vars, ve1 x = ve2 x) :
    do_canonize ve1 m = do_canonize ve2 m := by
  have hfold : ∀ (l : List Nat) (s0 : SignedVars), (∀ x ∈ l, ve1 x = ve2 x) →
      l.foldl (fun s v => s.push_var (ve1 v)) s0
        = l.foldl (fun s v => s.push_var (ve2 v)) s0 := by
    intro l
    induction l with
    | nil =>
      intro s0 _
      rfl
    | cons a t ih =>
      intro s0 hall
      rw [List.foldl_cons, List.foldl_cons, hall a (List.mem_cons_self _ _)]
      exact ih _ (fun x hx => hall x (List.mem_cons_of_mem _ hx))
  unfold do_canonize
  rw [hfold m.vars _ h]

/-- Membership in a canonical factor sequence is existence of a factor with
that representative. -/
theorem mem_do_canonize_vars (ve : Nat → SignedVar) (m : Monomial) (r : Nat) :
    r ∈ (do_canonize ve m).vars ↔ ∃ x ∈ m.vars, (ve x).var = r := by
  rw [do_canonize_vars, (List.perm_insertionSort _ _).mem_iff]
  simp [List.mem_map]

/-- `add` of a fresh monomial variable preserves the quiescent invariant. -/
theorem Inv_add {S : EState} (hI : Inv S) {v : Nat} (vs : List Nat)
    (hfresh : S.v2i v = UINT_MAX) (hvlt : v < UINT_MAX) :
    Inv (S.add v vs) := by
  have hJ : Jp S S.mlen := hI.j
  have hcU : S.mlen ≤ UINT_MAX := hJ.c_le_UINT
  have key : ∀ T : EState, T =
      { S with
        monomials := S.monomials ++ [⟨v, vs⟩],
        canonized := S.canonized ++ [do_canonize S.ve ⟨v, vs⟩],
        ringNext := S.ringNext ++ [S.monomials.length],
        ringPrev := S.ringPrev ++ [S.monomials.length],
        cgIn := S.cgIn ++ [false],
        var2index := setV2I S.var2index v S.monomials.length,
        useLists := fun w =>
          if w ∈ (do_canonize S.ve ⟨v, vs⟩).vars.dedup
          then S.monomials.length :: S.useLists w
          else S.useLists w } →
      Inv (T.insert_cg v) := by
    intro T hT
    have hTm : T.monomials = S.monomials ++ [⟨v, vs⟩] := by rw [hT]
    have hTc : T.canonized = S.canonized ++ [do_canonize S.ve ⟨v, vs⟩] := by rw [hT]
    have hTn : T.ringNext = S.ringNext ++ [S.monomials.length] := by rw [hT]
    have hTp : T.ringPrev = S.ringPrev ++ [S.monomials.length] := by rw [hT]
    have hTcg : T.cgIn = S.cgIn ++ [false] := by rw [hT]
    have hTvi : T.var2index = setV2I S.var2index v S.monomials.length := by rw [hT]
    have hTu : T.useLists = fun w =>
        if w ∈ (do_canonize S.ve ⟨v, vs⟩).vars.dedup
        then S.monomials.length :: S.useLists w
        else S.useLists w := by rw [hT]
    have hTve : T.ve = S.ve := by rw [hT]
    have hTtr : T.trail = S.trail := by rw [hT]
    have hTl : T.lim = S.lim := by rw [hT]
    have hTtl : T.trailLim = S.trailLim := by rw [hT]
    have hTct : T.cgTable = S.cgTable := by rw [hT]
    have hml : T.mlen = S.mlen + 1 := by
      show T.monomials.length = S.mlen + 1
      rw [hTm, List.length_append]
      rfl
    have hTv2 : ∀ w, T.v2i w = if w = v then S.monomials.length else S.v2i w := by
      intro w
      show T.var2index.getD w UINT_MAX = _
      rw [hTvi, setV2I_getD]
      rfl
    have hTvv : T.v2i v = S.mlen := by
      rw [hTv2, if_pos rfl]
      rfl
    have hmv_ne : ∀ k, k < S.mlen → (S.monAt k).var ≠ v := by
      intro k hk he
      have h2 := hJ.v2i_mvar k hk
      rw [he, hfresh] at h2
      omega
    have hmonlow : ∀ k, k < S.mlen → T.monAt k = S.monAt k := by
      intro k hk
      show T.monomials.getD k default = S.monomials.getD k default
      rw [hTm]
      exact getD_append_lt default hk
    have hmonc : T.monAt S.mlen = ⟨v, vs⟩ := by
      show T.monomials.getD S.mlen default = _
      rw [hTm]
      exact getD_append_len default _
    have hcanlow : ∀ k, k < S.mlen → T.canonAt k = S.canonAt k := by
      intro k hk
      show T.canonized.getD k default = S.canonized.getD k default
      rw [hTc]
      exact getD_append_lt default (by rw [hJ.len_c]; exact hk)
    have hcanc : T.canonAt S.mlen = do_canonize S.ve ⟨v, vs⟩ := by
      show T.canonized.getD S.mlen default = _
      rw [hTc]
      have h1 : (S.canonized ++ [do_canonize S.ve ⟨v, vs⟩]).getD
          S.canonized.length default = do_canonize S.ve ⟨v, vs⟩ :=
        getD_append_len default _
      rw [hJ.len_c] at h1
      exact h1
    have hcglow : ∀ k, k < S.mlen → T.markedAt k = S.markedAt k := by
      intro k hk
      show T.cgIn.getD k false = S.cgIn.getD k false
      rw [hTcg]
      exact getD_append_lt false (by rw [hJ.len_in]; exact hk)
    have hcgc : T.markedAt S.mlen = false := by
      show T.cgIn.getD S.mlen false = false
      rw [hTcg]
      have h1 : (S.cgIn ++ [false]).getD S.cgIn.length false = false :=
        getD_append_len false false
      rw [hJ.len_in] at h1
      exact h1
    have hnxlow : ∀ k, k < S.mlen → T.nxAt k = S.nxAt k := by
      intro k hk
      show T.ringNext.getD k k = S.ringNext.getD k k
      rw [hTn]
      exact getD_append_lt k (by rw [hJ.len_nx]; exact hk)
    have hnxc : T.nxAt S.mlen = S.mlen := by
      show T.ringNext.getD S.mlen S.mlen = S.mlen
      rw [hTn]
      have h1 : (S.ringNext ++ [S.monomials.length]).getD
          S.ringNext.length S.mlen = S.monomials.length :=
        getD_append_len S.mlen _
      rw [hJ.len_nx] at h1
      exact h1
    have hpvlow : ∀ k, k < S.mlen → T.pvAt k = S.pvAt k := by
      intro k hk
      show T.ringPrev.getD k k = S.ringPrev.getD k k
      rw [hTp]
      exact getD_append_lt k (by rw [hJ.len_pv]; exact hk)
    have hpvc : T.pvAt S.mlen = S.mlen := by
      show T.ringPrev.getD S.mlen S.mlen = S.mlen
      rw [hTp]
      have h1 : (S.ringPrev ++ [S.monomials.length]).getD
          S.ringPrev.length S.mlen = S.monomials.length :=
        getD_append_len S.mlen _
      rw [hJ.len_pv] at h1
      exact h1
    have hvnotin : v ∉ S.cgTable := by
      intro hv
      have h1 := (hJ.cg_sound v hv).1
      rw [hfresh] at h1
      omega
    have hune_tab : ∀ u ∈ S.cgTable, u ≠ v := by
      intro u hu he
      exact hvnotin (he ▸ hu)
    have hJT : Jp T (S.mlen + 1) := by
      refine ⟨?_, ?_, ?_, ?_, ?_, ?_, ?_, ?_, ?_, ?_, ?_, ?_, ?_, ?_, ?_, ?_,
        ?_, ?_, ?_⟩
      · rw [hml]
      · rw [hTc, List.length_append, hJ.len_c, hml]
        rfl
      · rw [hTn, List.length_append, hJ.len_nx, hml]
        rfl
      · rw [hTp, List.length_append, hJ.len_pv, hml]
        rfl
      · rw [hTcg, List.length_append, hJ.len_in, hml]
        rfl
      · intro k hk
        by_cases hkc : k = S.mlen
        · subst hkc
          rw [hmonc]
          show T.v2i v = S.mlen
          exact hTvv
        · have hk' : k < S.mlen := by omega
          rw [hmonlow k hk', hTv2, if_neg (hmv_ne k hk')]
          exact hJ.v2i_mvar k hk'
      · intro k hk
        rw [hml] at hk
        by_cases hkc : k = S.mlen
        · subst hkc
          rw [hmonc]
          exact hvlt
        · have hk' : k < S.mlen := by omega
          rw [hmonlow k hk']
          exact hJ.mvar_lt k hk'
      · intro w hw
        rw [hTv2 w] at hw
        rw [hTv2 w]
        by_cases hwv : w = v
        · subst hwv
          rw [if_pos rfl]
          refine ⟨Nat.lt_succ_self _, ?_⟩
          rw [show T.monAt S.monomials.length = (⟨w, vs⟩ : Monomial) from hmonc]
        · rw [if_neg hwv] at hw
          rw [if_neg hwv]
          have hs := hJ.v2i_sound w hw
          refine ⟨by omega, ?_⟩
          rw [hmonlow _ hs.1]
          exact hs.2
      · intro k hk
        show T.cgIn.getD k false = false
        rw [hTcg]
        apply getD_of_len_le
        rw [List.length_append, hJ.len_in]
        show S.mlen + 1 ≤ k
        exact hk
      · intro u hu
        rw [hTct] at hu
        have hs := hJ.cg_sound u hu
        have hune : u ≠ v := hune_tab u hu
        rw [hTv2 u, if_neg hune]
        refine ⟨by have := hs.1; omega, ?_, ?_⟩
        · rw [hmonlow _ hs.1]
          exact hs.2.1
        · show T.cgIn.getD (S.v2i u) false = true
          rw [hTcg, getD_append_lt false (by rw [hJ.len_in]; exact hs.1)]
          exact hs.2.2
      · intro k hk hkm
        by_cases hkc : k = S.mlen
        · subst hkc
          rw [hcgc] at hkm
          exact absurd hkm (by simp)
        · have hk' : k < S.mlen := by omega
          rw [hcglow k hk'] at hkm
          obtain ⟨u, hu, he⟩ := hJ.cg_mix k hk' hkm
          refine ⟨u, by rw [hTct]; exact hu, ?_⟩
          show (T.canonized.getD (T.v2i u) default).vars = (T.canonAt k).vars
          have hsu := (hJ.cg_sound u hu).1
          rw [hTv2 u, if_neg (hune_tab u hu), hTc,
            getD_append_lt default (by rw [hJ.len_c]; exact hsu),
            hcanlow k hk']
          exact he
      · intro u hu w hw hne
        rw [hTct] at hu hw
        show (T.canonized.getD (T.v2i u) default).vars
          ≠ (T.canonized.getD (T.v2i w) default).vars
        have hsu := (hJ.cg_sound u hu).1
        have hsw := (hJ.cg_sound w hw).1
        rw [hTv2 u, if_neg (hune_tab u hu), hTv2 w, if_neg (hune_tab w hw), hTc,
          getD_append_lt default (by rw [hJ.len_c]; exact hsu),
          getD_append_lt default (by rw [hJ.len_c]; exact hsw)]
        exact hJ.table_fun u hu w hw hne
      · rw [hTct]
        exact hJ.table_nodup
      · intro k hk
        rw [hml] at hk
        rw [hml]
        by_cases hkc : k = S.mlen
        · subst hkc
          rw [hnxc]
          omega
        · have hk' : k < S.mlen := by omega
          rw [hnxlow k hk']
          have := hJ.ring_nx_lt k hk'
          omega
      · intro k hk
        rw [hml] at hk
        rw [hml]
        by_cases hkc : k = S.mlen
        · subst hkc
          rw [hpvc]
          omega
        · have hk' : k < S.mlen := by omega
          rw [hpvlow k hk']
          have := hJ.ring_pv_lt k hk'
          omega
      · intro k hk
        rw [hml] at hk
        by_cases hkc : k = S.mlen
        · subst hkc
          rw [hnxc, hpvc]
        · have hk' : k < S.mlen := by omega
          rw [hnxlow k hk', hpvlow _ (hJ.ring_nx_lt k hk')]
          exact hJ.ring_pn k hk'
      · intro k hk
        rw [hml] at hk
        by_cases hkc : k = S.mlen
        · subst hkc
          rw [hpvc, hnxc]
        · have hk' : k < S.mlen := by omega
          rw [hpvlow k hk', hnxlow _ (hJ.ring_pv_lt k hk')]
          exact hJ.ring_np k hk'
      · intro k hk
        constructor
        · show T.ringNext.getD k k = k
          rw [hTn]
          apply getD_of_len_le
          rw [List.length_append, hJ.len_nx]
          show S.mlen + 1 ≤ k
          exact hk
        · show T.ringPrev.getD k k = k
          rw [hTp]
          apply getD_of_len_le
          rw [List.length_append, hJ.len_pv]
          show S.mlen + 1 ≤ k
          exact hk
      · intro w x hx
        rw [hTu] at hx
        dsimp only at hx
        by_cases hw : w ∈ (do_canonize S.ve ⟨v, vs⟩).vars.dedup
        · rw [if_pos hw] at hx
          rcases List.mem_cons.mp hx with h | h
          · subst h
            exact Nat.lt_succ_self _
          · have := hJ.ul_lt w x h
            omega
        · rw [if_neg hw] at hx
          have := hJ.ul_lt w x hx
          omega
    have hICJ := insert_cg_Jp hJT
      (by rw [hTvv]; exact Nat.lt_succ_self _)
      (by rw [hTvv]; rw [show T.monAt S.mlen = (⟨v, vs⟩ : Monomial) from hmonc])
      (by rw [hTct]; exact hvnotin)
      (by rw [hTvv, hnxc])
      (by rw [hTvv, hpvc])
    have hJA : Jp (T.insert_cg v) (S.mlen + 1) := hICJ.1
    have hAml : (T.insert_cg v).mlen = S.mlen + 1 := by
      show (T.insert_cg v).monomials.length = _
      rw [insert_cg_monomials]
      exact hml
    have hAve : (T.insert_cg v).ve = S.ve := by rw [insert_cg_ve, hTve]
    have hAcan : (T.insert_cg v).canonized
        = S.canonized ++ [do_canonize S.ve ⟨v, vs⟩] := by
      rw [insert_cg_canonized, hTc]
    have hAmon : (T.insert_cg v).monomials = S.monomials ++ [⟨v, vs⟩] := by
      rw [insert_cg_monomials, hTm]
    have hAcg : (T.insert_cg v).cgIn = (S.cgIn ++ [false]).set S.mlen true := by
      rw [insert_cg_cgIn, hTvv, hTcg]
    have hAu : (T.insert_cg v).useLists = T.useLists := insert_cg_useLists T v
    have hAtr : (T.insert_cg v).trail = S.trail := by rw [insert_cg_trail, hTtr]
    have hAl : (T.insert_cg v).lim = S.lim := by rw [insert_cg_lim, hTl]
    have hAtl : (T.insert_cg v).trailLim = S.trailLim := by
      rw [insert_cg_trailLim, hTtl]
    have hAcanAt_low : ∀ i, i < S.mlen → (T.insert_cg v).canonAt i = S.canonAt i := by
      intro i hi
      show (T.insert_cg v).canonized.getD i default = _
      rw [hAcan]
      exact getD_append_lt default (by rw [hJ.len_c]; exact hi)
    have hAcanAt_c : (T.insert_cg v).canonAt S.mlen = do_canonize S.ve ⟨v, vs⟩ := by
      show (T.insert_cg v).canonized.getD S.mlen default = _
      rw [hAcan]
      have h1 : (S.canonized ++ [do_canonize S.ve ⟨v, vs⟩]).getD
          S.canonized.length default = do_canonize S.ve ⟨v, vs⟩ :=
        getD_append_len default _
      rw [hJ.len_c] at h1
      exact h1
    have hAmonAt_low : ∀ i, i < S.mlen → (T.insert_cg v).monAt i = S.monAt i := by
      intro i hi
      show (T.insert_cg v).monomials.getD i default = _
      rw [hAmon]
      exact getD_append_lt default hi
    have hAmonAt_c : (T.insert_cg v).monAt S.mlen = ⟨v, vs⟩ := by
      show (T.insert_cg v).monomials.getD S.mlen default = _
      rw [hAmon]
      exact getD_append_len default _
    refine ⟨?_, ?_, ?_, ?_, ?_, ?_, ?_, ?_, ?_, ?_, ?_, ?_⟩
    · unfold Jinv
      rw [hAml]
      exact hJA
    · intro u
      rw [hAve]
      exact hI.vewf u
    · intro i hi
      rw [hAml] at hi
      rw [hAve]
      by_cases hic : i = S.mlen
      · subst hic
        rw [hAcanAt_c, hAmonAt_c]
      · have hi' : i < S.mlen := by omega
        rw [hAcanAt_low i hi', hAmonAt_low i hi']
        exact hI.fresh i hi'
    · intro i hi
      rw [hAml] at hi
      show (T.insert_cg v).cgIn.getD i false = true
      rw [hAcg]
      by_cases hic : i = S.mlen
      · subst hic
        exact getD_set_self _ _
          (by rw [List.length_append, hJ.len_in]; exact Nat.lt_succ_self _)
      · have hi' : i < S.mlen := by omega
        rw [getD_set_elsewhere _ _ hic,
          getD_append_lt false (by rw [hJ.len_in]; exact hi')]
        exact hI.all_marked i hi'
    · intro r hr i hi
      rw [hAml] at hi
      rw [hAve] at hr
      rw [hAu, hTu]
      dsimp only
      by_cases hic : i = S.mlen
      · subst hic
        rw [hAcanAt_c]
        constructor
        · intro hmem
          by_cases hw : r ∈ (do_canonize S.ve ⟨v, vs⟩).vars.dedup
          · exact List.mem_dedup.mp hw
          · rw [if_neg hw] at hmem
            have := hJ.ul_lt r _ hmem
            omega
        · intro hmem
          rw [if_pos (List.mem_dedup.mpr hmem)]
          exact List.mem_cons_self _ _
      · have hi' : i < S.mlen := by omega
        rw [hAcanAt_low i hi']
        have base := hI.ul_mem r hr i hi'
        by_cases hw : r ∈ (do_canonize S.ve ⟨v, vs⟩).vars.dedup
        · rw [if_pos hw]
          constructor
          · intro hmem
            rcases List.mem_cons.mp hmem with h | h
            · rw [h] at hi'
              exact absurd hi' (lt_irrefl S.mlen)
            · exact base.mp h
          · intro hmem
            exact List.mem_cons_of_mem _ (base.mpr hmem)
        · rw [if_neg hw]
          exact base
    · intro t ht
      rw [hAtr] at ht
      rw [hAve]
      exact hI.trail_nonroot t ht
    · rw [hAtr]
      exact hI.trail_pw
    · rw [hAl, hAtl]
      exact hI.lim_len
    · intro n hn
      rw [hAl] at hn
      rw [hAml]
      have := hI.lim_le n hn
      omega
    · rw [hAl]
      exact hI.lim_sorted
    · intro t ht
      rw [hAtl] at ht
      rw [hAtr]
      exact hI.tlim_le t ht
    · rw [hAtl]
      exact hI.tlim_sorted
  exact key _ rfl

/-- A merge notification for two distinct roots preserves the quiescent
invariant: the spliced use list and the rehash of every affected monomial
re-establish freshness against the merged union-find. -/
theorem Inv_onMerge {S : EState} (hI : Inv S) {r1 r2 : Nat} (s : Bool)
    (hr1 : IsRoot S.ve r1) (hr2 : IsRoot S.ve r2) (hne : r1 ≠ r2) :
    Inv (S.onMerge r1 r2 s) := by
  have hJ : Jp S S.mlen := hI.j
  have hMdef : S.onMerge r1 r2 s
      = ((S.useLists r1 ++ S.useLists r2).dedup).foldl EState.rehash1
        { S with
          ve := mergeVE S.ve r1 r2 s,
          useLists := fun w =>
            if w = r2 then S.useLists r1 ++ S.useLists r2 else S.useLists w,
          trail := ⟨r1, r2, s, S.ve⟩ :: S.trail } := rfl
  set aff := (S.useLists r1 ++ S.useLists r2).dedup with haff
  set S0 : EState :=
    { S with
      ve := mergeVE S.ve r1 r2 s,
      useLists := fun w =>
        if w = r2 then S.useLists r1 ++ S.useLists r2 else S.useLists w,
      trail := ⟨r1, r2, s, S.ve⟩ :: S.trail } with hS0
  have haffmem : ∀ x ∈ aff, x < S.mlen := by
    intro x hx
    rw [haff] at hx
    rcases List.mem_append.mp (List.mem_dedup.mp hx) with h | h
    · exact hJ.ul_lt r1 x h
    · exact hJ.ul_lt r2 x h
  have hsk := foldl_rehash_skel aff S0
  have hAve : (S.onMerge r1 r2 s).ve = mergeVE S.ve r1 r2 s := by
    rw [hMdef]
    exact hsk.1
  have hAmon : (S.onMerge r1 r2 s).monomials = S.monomials := by
    rw [hMdef]
    exact hsk.2.1
  have hAvi : (S.onMerge r1 r2 s).var2index = S.var2index := by
    rw [hMdef]
    exact hsk.2.2.1
  have hAul : (S.onMerge r1 r2 s).useLists
      = fun w => if w = r2 then S.useLists r1 ++ S.useLists r2
        else S.useLists w := by
    rw [hMdef]
    exact hsk.2.2.2.1
  have hAl : (S.onMerge r1 r2 s).lim = S.lim := by
    rw [hMdef]
    exact hsk.2.2.2.2.1
  have hAtl : (S.onMerge r1 r2 s).trailLim = S.trailLim := by
    rw [hMdef]
    exact hsk.2.2.2.2.2.1
  have hAtr : (S.onMerge r1 r2 s).trail = ⟨r1, r2, s, S.ve⟩ :: S.trail := by
    rw [hMdef]
    exact hsk.2.2.2.2.2.2
  have hAml : (S.onMerge r1 r2 s).mlen = S.mlen := by
    show (S.onMerge r1 r2 s).monomials.length = S.mlen
    rw [hAmon]
    rfl
  have hr2var : (S.ve r2).var = r2 := by rw [hr2]
  have hroot' : ∀ r, IsRoot (mergeVE S.ve r1 r2 s) r ↔ (IsRoot S.ve r ∧ r ≠ r1) := by
    intro r
    constructor
    · intro h
      have h' : (if (S.ve r).var = r1 then
          (⟨r2, xor (S.ve r).sign s⟩ : SignedVar) else S.ve r) = ⟨r, false⟩ := h
      by_cases hu : (S.ve r).var = r1
      · rw [if_pos hu] at h'
        have h2 : r2 = r := congrArg SignedVar.var h'
        rw [← h2] at hu
        rw [hr2var] at hu
        exact absurd hu.symm hne
      · rw [if_neg hu] at h'
        refine ⟨h', ?_⟩
        intro he
        rw [he] at h'
        apply hu
        rw [he, h']
    · intro h
      show (if (S.ve r).var = r1 then
          (⟨r2, xor (S.ve r).sign s⟩ : SignedVar) else S.ve r) = ⟨r, false⟩
      have hvar : (S.ve r).var = r := by rw [h.1]
      rw [if_neg (by rw [hvar]; exact h.2), h.1]
  have hmergeV : ∀ x, (S.ve x).var ≠ r1 → mergeVE S.ve r1 r2 s x = S.ve x := by
    intro x hx
    show (if (S.ve x).var = r1 then _ else S.ve x) = S.ve x
    rw [if_neg hx]
  have hJ0 : Jp S0 S.mlen :=
    Jp.mk hJ.hc hJ.len_c hJ.len_nx hJ.len_pv hJ.len_in hJ.v2i_mvar hJ.mvar_lt
      hJ.v2i_sound hJ.unmarked_high hJ.cg_sound hJ.cg_mix hJ.table_fun
      hJ.table_nodup hJ.ring_nx_lt hJ.ring_pv_lt hJ.ring_pn hJ.ring_np
      hJ.ring_high_self (by
        intro w x hx
        rw [hS0] at hx
        dsimp only at hx
        by_cases hw : w = r2
        · rw [if_pos hw] at hx
          rcases List.mem_append.mp hx with h | h
          · exact hJ.ul_lt r1 x h
          · exact hJ.ul_lt r2 x h
        · rw [if_neg hw] at hx
          exact hJ.ul_lt w x hx)
  have hJA : Jp (S.onMerge r1 r2 s) S.mlen := by
    rw [hMdef]
    exact (foldl_rehash_Jp aff hJ0 haffmem).1
  have hAcan : ∀ i, (S.onMerge r1 r2 s).canonAt i
      = if i ∈ aff then do_canonize (mergeVE S.ve r1 r2 s) (S.monAt i)
        else S.canonAt i := by
    intro i
    show (S.onMerge r1 r2 s).canonized.getD i default = _
    rw [hMdef]
    exact foldl_rehash_canonAt aff S0 i (by
      intro x hx
      show x < S.canonized.length
      rw [hJ.len_c]
      exact haffmem x hx)
  have hAfresh : ∀ i, i < S.mlen → (S.onMerge r1 r2 s).canonAt i
      = do_canonize (mergeVE S.ve r1 r2 s) (S.monAt i) := by
    intro i hi
    rw [hAcan i]
    by_cases hiaff : i ∈ aff
    · rw [if_pos hiaff]
    · rw [if_neg hiaff]
      rw [hI.fresh i hi]
      apply do_canonize_congr
      intro x hx
      refine (hmergeV x ?_).symm
      intro hxr1
      apply hiaff
      have hmem : r1 ∈ (S.canonAt i).vars := by
        rw [hI.fresh i hi, mem_do_canonize_vars]
        exact ⟨x, hx, hxr1⟩
      have hin1 : i ∈ S.useLists r1 := (hI.ul_mem r1 hr1 i hi).mpr hmem
      rw [haff]
      exact List.mem_dedup.mpr (List.mem_append.mpr (Or.inl hin1))
  have hAcg : ∀ i, (S.onMerge r1 r2 s).cgIn.getD i false
      = if i ∈ aff then true else S.cgIn.getD i false := by
    intro i
    rw [hMdef]
    exact foldl_rehash_cgIn aff S0 i (by
      intro x hx
      refine ⟨?_, ?_⟩
      · show S.var2index.getD ((S.monomials.getD x default).var) UINT_MAX = x
        exact hJ.v2i_mvar x (haffmem x hx)
      · show x < S.cgIn.length
        rw [hJ.len_in]
        exact haffmem x hx)
  refine ⟨?_, ?_, ?_, ?_, ?_, ?_, ?_, ?_, ?_, ?_, ?_, ?_⟩
  · unfold Jinv
    rw [hAml]
    exact hJA
  · intro u
    rw [hAve]
    by_cases hu : (S.ve u).var = r1
    · rw [show mergeVE S.ve r1 r2 s u = ⟨r2, xor (S.ve u).sign s⟩ from by
        show (if (S.ve u).var = r1 then _ else S.ve u) = _
        rw [if_pos hu]]
      show mergeVE S.ve r1 r2 s r2 = ⟨r2, false⟩
      rw [hmergeV r2 (by rw [hr2var]; exact fun he => hne he.symm)]
      exact hr2
    · rw [hmergeV u hu]
      have hw := hI.vewf u
      have hwvar : (S.ve ((S.ve u).var)).var = (S.ve u).var := by rw [hw]
      rw [hmergeV _ (by rw [hwvar]; exact hu)]
      exact hw
  · intro i hi
    rw [hAml] at hi
    rw [hAfresh i hi, hAve]
    have hm : (S.onMerge r1 r2 s).monAt i = S.monAt i := by
      show (S.onMerge r1 r2 s).monomials.getD i default = _
      rw [hAmon]
      rfl
    rw [hm]
  · intro i hi
    rw [hAml] at hi
    show (S.onMerge r1 r2 s).cgIn.getD i false = true
    rw [hAcg i]
    by_cases hiaff : i ∈ aff
    · rw [if_pos hiaff]
    · rw [if_neg hiaff]
      exact hI.all_marked i hi
  · intro r hr i hi
    rw [hAml] at hi
    rw [hAve] at hr
    have hrS := (hroot' r).mp hr
    rw [hAul]
    dsimp only
    rw [hAfresh i hi, mem_do_canonize_vars]
    by_cases hwr2 : r = r2
    · rw [hwr2] at hrS ⊢
      rw [if_pos rfl]
      constructor
      · intro hmem
        rcases List.mem_append.mp hmem with h | h
        · have hin : r1 ∈ (S.canonAt i).vars := (hI.ul_mem r1 hr1 i hi).mp h
          rw [hI.fresh i hi, mem_do_canonize_vars] at hin
          obtain ⟨x, hx, hxe⟩ := hin
          refine ⟨x, hx, ?_⟩
          show (if (S.ve x).var = r1 then
            (⟨r2, xor (S.ve x).sign s⟩ : SignedVar) else S.ve x).var = r2
          rw [if_pos hxe]
        · have hin : r2 ∈ (S.canonAt i).vars := (hI.ul_mem r2 hrS.1 i hi).mp h
          rw [hI.fresh i hi, mem_do_canonize_vars] at hin
          obtain ⟨x, hx, hxe⟩ := hin
          refine ⟨x, hx, ?_⟩
          rw [hmergeV x (by rw [hxe]; exact fun he => hne he.symm)]
          exact hxe
      · rintro ⟨x, hx, hxe⟩
        by_cases hxr1 : (S.ve x).var = r1
        · apply List.mem_append.mpr
          left
          apply (hI.ul_mem r1 hr1 i hi).mpr
          rw [hI.fresh i hi, mem_do_canonize_vars]
          exact ⟨x, hx, hxr1⟩
        · apply List.mem_append.mpr
          right
          apply (hI.ul_mem r2 hrS.1 i hi).mpr
          rw [hI.fresh i hi, mem_do_canonize_vars]
          rw [hmergeV x hxr1] at hxe
          exact ⟨x, hx, hxe⟩
    · rw [if_neg hwr2]
      have base := hI.ul_mem r hrS.1 i hi
      rw [hI.fresh i hi, mem_do_canonize_vars] at base
      constructor
      · intro hmem
        obtain ⟨x, hx, hxe⟩ := base.mp hmem
        refine ⟨x, hx, ?_⟩
        rw [hmergeV x (by rw [hxe]; exact hrS.2)]
        exact hxe
      · rintro ⟨x, hx, hxe⟩
        apply base.mpr
        by_cases hxr1 : (S.ve x).var = r1
        · exfalso
          apply hwr2
          rw [show mergeVE S.ve r1 r2 s x = ⟨r2, xor (S.ve x).sign s⟩ from by
            show (if (S.ve x).var = r1 then _ else S.ve x) = _
            rw [if_pos hxr1]] at hxe
          exact hxe.symm
        · rw [hmergeV x hxr1] at hxe
          exact ⟨x, hx, hxe⟩
  · intro t ht
    rw [hAtr] at ht
    rw [hAve]
    rcases List.mem_cons.mp ht with he | hm
    · subst he
      intro h
      exact ((hroot' r1).mp h).2 rfl
    · intro h
      exact hI.trail_nonroot t hm ((hroot' t.r1).mp h).1
  · rw [hAtr]
    apply List.pairwise_cons.mpr
    refine ⟨?_, hI.trail_pw⟩
    intro t ht
    constructor
    · intro he
      exact hI.trail_nonroot t ht (he ▸ hr1)
    · intro he
      exact hI.trail_nonroot t ht (he ▸ hr2)
  · rw [hAl, hAtl]
    exact hI.lim_len
  · intro n hn
    rw [hAl] at hn
    rw [hAml]
    exact hI.lim_le n hn
  · rw [hAl]
    exact hI.lim_sorted
  · intro t ht
    rw [hAtl] at ht
    rw [hAtr]
    simp only [List.length_cons]
    have := hI.tlim_le t ht
    omega
  · rw [hAtl]
    exact hI.tlim_sorted

/-- The ghost lemma: a `pop1` erases a preceding `add` of a fresh monomial
variable observationally — popping after the add restores the same observable
state that popping without the add would have. -/
theorem ghost_add_pop1 {S : EState} (hI : Inv S) (v : Nat) (vs : List Nat)
    (hfresh : S.v2i v = UINT_MAX) {n0 t0 : Nat} {lims tls : List Nat}
    (hl : S.lim = n0 :: lims) (htl : S.trailLim = t0 :: tls) :
    ObsEq ((S.add v vs).pop1) S.pop1 := by
  have haL : (S.add v vs).lim = S.lim := insert_cg_lim _ v
  have haTL : (S.add v vs).trailLim = S.trailLim := insert_cg_trailLim _ v
  have haTr : (S.add v vs).trail = S.trail := insert_cg_trail _ v
  have hroots : ∀ t ∈ S.trail,
      t.r1 ∉ (do_canonize S.ve ⟨v, vs⟩).vars.dedup := by
    intro t ht hmem
    have hvars : t.r1 ∈ (do_canonize S.ve (⟨v, vs⟩ : Monomial)).vars :=
      List.mem_dedup.mp hmem
    rw [do_canonize_vars] at hvars
    have hvars2 : t.r1 ∈ ((⟨v, vs⟩ : Monomial).vars.map (fun u => (S.ve u).var)) :=
      (List.perm_insertionSort _ _).mem_iff.mp hvars
    obtain ⟨x, _, hx⟩ := List.mem_map.mp hvars2
    have hR : IsRoot S.ve t.r1 := by
      show S.ve t.r1 = ⟨t.r1, false⟩
      rw [← hx]
      exact hI.vewf x
    exact hI.trail_nonroot t ht hR
  have hn0c : n0 ≤ S.mlen := hI.lim_le n0 (by rw [hl]; exact List.mem_cons_self _ _)
  unfold EState.pop1
  rw [haL, haTL, hl, htl, haTr]
  dsimp only
  have hg0 : GRel S.mlen v vs ((do_canonize S.ve ⟨v, vs⟩).vars.dedup)
      (S.add v vs) S := GRel_add hI.j vs hfresh
  have hgk := GRel_unmergeN hg0 hI.j hroots (S.trail.length - t0)
  have hJYk : Jp (S.unmergeN (S.trail.length - t0)) S.mlen :=
    unmergeN_Jp hI.j (S.trail.length - t0)
  exact GRel_finish hgk hJYk hn0c lims tls

/-- A `pop1` erases a preceding merge notification observationally: the extra
trail record makes the cascade one step longer, and that extra step is exactly
the undo of the merge. -/
theorem merge_pop1 {S : EState} (hI : Inv S) (r1 r2 : Nat) (s : Bool)
    (hne : r1 ≠ r2) {n0 t0 : Nat} {lims tls : List Nat}
    (hl : S.lim = n0 :: lims) (htl : S.trailLim = t0 :: tls) :
    ObsEq ((S.onMerge r1 r2 s).pop1) S.pop1 := by
  have hu : ObsEq ((S.onMerge r1 r2 s).unmerge1) S := unmerge_undo hI r1 r2 s hne
  have hp := ObsEq_pop1 hu
  have hsk := onMerge_skel S r1 r2 s
  have hMl : (S.onMerge r1 r2 s).lim = n0 :: lims := by
    rw [hsk.2.2.2.2.1, hl]
  have hMtl : (S.onMerge r1 r2 s).trailLim = t0 :: tls := by
    rw [hsk.2.2.2.2.2.1, htl]
  have hMtr : (S.onMerge r1 r2 s).trail = ⟨r1, r2, s, S.ve⟩ :: S.trail :=
    hsk.2.2.2.2.2.2
  have husk := unmerge1_skel (S.onMerge r1 r2 s)
  have heq : (S.onMerge r1 r2 s).pop1 = ((S.onMerge r1 r2 s).unmerge1).pop1 := by
    unfold EState.pop1
    rw [hMl, hMtl, husk.2.2.1, husk.2.2.2.1, hMl, hMtl, husk.2.2.2.2, hMtr,
      List.tail_cons]
    dsimp only
    simp only [List.length_cons]
    have hc1 : S.trail.length + 1 - t0 = (S.trail.length - t0) + 1 := by
      have ht0 : t0 ≤ S.trail.length :=
        hI.tlim_le t0 (by rw [htl]; exact List.mem_cons_self _ _)
      omega
    rw [hc1]
    rfl
  rw [heq]
  exact hp

/-- `push` immediately followed by `pop1` is the exact identity on the state:
nothing was merged and nothing was added, so the unmerge cascade is empty and
the truncations cut nothing. -/
theorem pushpop {S : EState} (hJ : Jinv S) : (S.push).pop1 = S := by
  have hl : (S.push).lim = S.monomials.length :: S.lim := rfl
  have htl : (S.push).trailLim = S.trail.length :: S.trailLim := rfl
  have htr : (S.push).trail = S.trail := rfl
  unfold EState.pop1
  rw [hl, htl]
  dsimp only
  rw [htr, Nat.sub_self]
  have hu0 : (S.push).unmergeN 0 = S.push := rfl
  rw [hu0]
  have hm : (S.push).monomials = S.monomials := rfl
  rw [hm, Nat.sub_self]
  have hr0 : (S.push).removeDownFrom S.monomials.length 0 = S.push := rfl
  rw [hr0]
  show ({ S with
    monomials := S.monomials.take S.monomials.length,
    canonized := S.canonized.take S.monomials.length,
    ringNext := S.ringNext.take S.monomials.length,
    ringPrev := S.ringPrev.take S.monomials.length,
    cgIn := S.cgIn.take S.monomials.length,
    lim := S.lim, trailLim := S.trailLim } : EState) = S
  rw [List.take_length,
    List.take_of_length_le
      (le_of_eq hJ.len_c : S.canonized.length ≤ S.monomials.length),
    List.take_of_length_le
      (le_of_eq hJ.len_nx : S.ringNext.length ≤ S.monomials.length),
    List.take_of_length_le
      (le_of_eq hJ.len_pv : S.ringPrev.length ≤ S.monomials.length),
    List.take_of_length_le
      (le_of_eq hJ.len_in : S.cgIn.length ≤ S.monomials.length)]

/-- The quiescent invariant transports backwards across observational
equality, provided the hidden congruence structure is well-formed on its
own. -/
theorem Inv_transport {A B : EState} (hOE : ObsEq A B) (hI1 : Inv B)
    (hJ : Jinv A) : Inv A := by
  have hml : A.mlen = B.mlen := by
    show A.monomials.length = B.monomials.length
    rw [hOE.monomials]
  have hcan : ∀ i, A.canonAt i = B.canonAt i := by
    intro i
    show A.canonized.getD i default = B.canonized.getD i default
    rw [hOE.canonized]
  have hmon : ∀ i, A.monAt i = B.monAt i := by
    intro i
    show A.monomials.getD i default = B.monomials.getD i default
    rw [hOE.monomials]
  refine ⟨hJ, ?_, ?_, ?_, ?_, ?_, ?_, ?_, ?_, ?_, ?_, ?_⟩
  · intro u
    rw [hOE.ve]
    exact hI1.vewf u
  · intro i hi
    rw [hml] at hi
    rw [hcan i, hOE.ve, hmon i]
    exact hI1.fresh i hi
  · intro i hi
    rw [hml] at hi
    show A.cgIn.getD i false = true
    rw [hOE.cgIn]
    exact hI1.all_marked i hi
  · intro r hr i hi
    rw [hml] at hi
    rw [hOE.ve] at hr
    rw [hOE.useLists r, hcan i]
    exact hI1.ul_mem r hr i hi
  · intro t ht
    rw [hOE.trail] at ht
    rw [hOE.ve]
    exact hI1.trail_nonroot t ht
  · rw [hOE.trail]
    exact hI1.trail_pw
  · rw [hOE.lim, hOE.trailLim]
    exact hI1.lim_len
  · intro n hn
    rw [hOE.lim] at hn
    rw [hml]
    exact hI1.lim_le n hn
  · rw [hOE.lim]
    exact hI1.lim_sorted
  · intro t ht
    rw [hOE.trailLim] at ht
    rw [hOE.trail]
    exact hI1.tlim_le t ht
  · rw [hOE.trailLim]
    exact hI1.tlim_sorted

/-- The master soundness theorem of the protocol model: every state reachable
through the public interface satisfies the quiescent invariant, and its scope
stack is good — each pending scope level restores, observationally, the exact
quiescent state that was pushed. -/
theorem Reachable_Inv {S : EState} (h : Reachable S) :
    Inv S ∧ ∃ st, GoodStack S st ∧ st.length = S.lim.length := by
  induction h with
  | init =>
    exact ⟨Inv_init, [], GoodStack.nil rfl rfl, rfl⟩
  | add hR h1 h2 ih =>
    rename_i S v vs
    obtain ⟨hI, st, hst, hlen⟩ := ih
    have hfr : S.v2i v = UINT_MAX := by
      have h1' := h1
      unfold EState.is_monomial_var at h1'
      simpa using h1'
    have haL : (S.add v vs).lim = S.lim := insert_cg_lim _ v
    have haTL : (S.add v vs).trailLim = S.trailLim := insert_cg_trailLim _ v
    refine ⟨Inv_add hI vs hfr h2, st, ?_, by rw [haL]; exact hlen⟩
    cases hst with
    | nil hn1 hn2 =>
      exact GoodStack.nil (by rw [haL]; exact hn1) (by rw [haTL]; exact hn2)
    | cons hOE hI1 hst' =>
      rename_i S1 st'
      have hlnem : S.lim ≠ [] := by
        intro he
        rw [he] at hlen
        simp at hlen
      cases hl : S.lim with
      | nil => exact absurd hl hlnem
      | cons n0 lims =>
        cases htl : S.trailLim with
        | nil =>
          have := hI.lim_len
          rw [hl, htl] at this
          simp at this
        | cons t0 tls =>
          exact GoodStack.cons
            ((ghost_add_pop1 hI v vs hfr hl htl).trans hOE) hI1 hst'
  | merge hR hr1 hr2 hne ih =>
    rename_i S r1 r2 s
    obtain ⟨hI, st, hst, hlen⟩ := ih
    have hsk := onMerge_skel S r1 r2 s
    have hmL : (S.onMerge r1 r2 s).lim = S.lim := hsk.2.2.2.2.1
    have hmTL : (S.onMerge r1 r2 s).trailLim = S.trailLim := hsk.2.2.2.2.2.1
    refine ⟨Inv_onMerge hI s hr1 hr2 hne, st, ?_, by rw [hmL]; exact hlen⟩
    cases hst with
    | nil hn1 hn2 =>
      exact GoodStack.nil (by rw [hmL]; exact hn1) (by rw [hmTL]; exact hn2)
    | cons hOE hI1 hst' =>
      rename_i S1 st'
      have hlnem : S.lim ≠ [] := by
        intro he
        rw [he] at hlen
        simp at hlen
      cases hl : S.lim with
      | nil => exact absurd hl hlnem
      | cons n0 lims =>
        cases htl : S.trailLim with
        | nil =>
          have := hI.lim_len
          rw [hl, htl] at this
          simp at this
        | cons t0 tls =>
          exact GoodStack.cons
            ((merge_pop1 hI r1 r2 s hne hl htl).trans hOE) hI1 hst'
  | push hR ih =>
    rename_i S
    obtain ⟨hI, st, hst, hlen⟩ := ih
    refine ⟨Inv_push hI, S :: st, ?_, ?_⟩
    · refine GoodStack.cons ?_ hI hst
      rw [pushpop hI.j]
      exact ObsEq.refl S
    · show st.length + 1 = (S.push).lim.length
      rw [show (S.push).lim = S.monomials.length :: S.lim from rfl]
      simp only [List.length_cons, hlen]
  | pop1 hR hlim ih =>
    rename_i S
    obtain ⟨hI, st, hst, hlen⟩ := ih
    cases hl : S.lim with
    | nil => exact absurd hl hlim
    | cons n0 lims =>
      cases htl : S.trailLim with
      | nil =>
        have := hI.lim_len
        rw [hl, htl] at this
        simp at this
      | cons t0 tls =>
        have hpl : S.pop1.lim = lims := by
          unfold EState.pop1
          rw [hl, htl]
        have hptl : S.pop1.trailLim = tls := by
          unfold EState.pop1
          rw [hl, htl]
        cases hst with
        | nil hn1 hn2 =>
          rw [hl] at hn1
          exact absurd hn1 (by simp)
        | cons hOE hI1 hst' =>
          rename_i S1 st'
          have hInew : Inv S.pop1 := Inv_transport hOE hI1 (pop1_Jinv hI.j)
          refine ⟨hInew, st', ?_, ?_⟩
          · cases hst' with
            | nil hm1 hm2 =>
              exact GoodStack.nil (by rw [hOE.lim]; exact hm1)
                (by rw [hOE.trailLim]; exact hm2)
            | cons hOE2 hI2 hst'' =>
              exact GoodStack.cons ((ObsEq_pop1 hOE).trans hOE2) hI2 hst''
          · rw [hpl]
            rw [hl] at hlen
            simpa using hlen

/-! ## Consequences used by the claim verdicts -/

theorem Reachable_Jinv {S : EState} (h : Reachable S) : Jinv S :=
  (Reachable_Inv h).1.j

/-- At every reachable (quiescent) state, `canonize` of a live monomial is its
recomputation against the current union-find. -/
theorem Reachable_fresh {S : EState} (h : Reachable S) {i : Nat}
    (hi : i < S.mlen) :
    S.canonize (S.monAt i) = do_canonize S.ve (S.monAt i) := by
  have hI := (Reachable_Inv h).1
  show S.canonized.getD (S.v2i (S.monAt i).var) default = _
  rw [hI.j.v2i_mvar i hi]
  exact hI.fresh i hi

theorem cgVarsOf_mvar {S : EState} (hJ : Jp S S.mlen) {i : Nat}
    (hi : i < S.mlen) : S.cgVarsOf (S.mvarOf i) = (S.canonAt i).vars := by
  show (S.canonized.getD (S.v2i (S.monAt i).var) default).vars = _
  rw [hJ.v2i_mvar i hi]
  rfl

theorem cgLookup_isSome {S : EState} (hI : Inv S) {i : Nat} (hi : i < S.mlen) :
    (S.cgLookup (S.mvarOf i)).isSome = true := by
  obtain ⟨u, hu, he⟩ := hI.j.cg_mix i hi (hI.all_marked i hi)
  show (S.cgTable.find? (fun u => S.cgVarsOf u == S.cgVarsOf (S.mvarOf i))).isSome
    = true
  rw [List.find?_isSome]
  refine ⟨u, hu, ?_⟩
  rw [cgVarsOf_mvar hI.j hi]
  exact beq_iff_eq.mpr he

/-- The congruence table holds exactly one member per class of live canonical
factor sequences. -/
theorem cgTable_classes {S : EState} (hI : Inv S) (l : List Nat) :
    (∃ u ∈ S.cgTable, S.cgVarsOf u = l)
      ↔ (∃ i, i < S.mlen ∧ (S.canonAt i).vars = l) := by
  constructor
  · rintro ⟨u, hu, he⟩
    have hs := hI.j.cg_sound u hu
    exact ⟨S.v2i u, hs.1, he⟩
  · rintro ⟨i, hi, he⟩
    obtain ⟨u, hu, hvar⟩ := hI.j.cg_mix i hi (hI.all_marked i hi)
    exact ⟨u, hu, by rw [hvar, he]⟩

/-- The operation sequences the scope protocol allows inside an open scope:
registrations of fresh monomial variables and merges of distinct roots. -/
inductive InScope : EState → EState → Prop where
  | refl {A : EState} : InScope A A
  | add {A B : EState} {v : Nat} {vs : List Nat} : InScope A B →
      B.is_monomial_var v = false → v < UINT_MAX → InScope A (B.add v vs)
  | merge {A B : EState} {r1 r2 : Nat} {s : Bool} : InScope A B →
      IsRoot B.ve r1 → IsRoot B.ve r2 → r1 ≠ r2 → InScope A (B.onMerge r1 r2 s)

theorem InScope_Reachable {A B : EState} (hA : Reachable A)
    (h : InScope A B) : Reachable B := by
  induction h with
  | refl => exact hA
  | add _ h1 h2 ih => exact Reachable.add ih h1 h2
  | merge _ h1 h2 h3 ih => exact Reachable.merge ih h1 h2 h3

theorem InScope_lims {A B : EState} (h : InScope A B) :
    B.lim = A.lim ∧ B.trailLim = A.trailLim := by
  induction h with
  | refl => exact ⟨rfl, rfl⟩
  | add hsc h1 h2 ih =>
    rename_i B' v vs
    refine ⟨?_, ?_⟩
    · exact ((insert_cg_lim _ v : (B'.add v vs).lim = B'.lim)).trans ih.1
    · exact ((insert_cg_trailLim _ v :
        (B'.add v vs).trailLim = B'.trailLim)).trans ih.2
  | merge hsc h1 h2 h3 ih =>
    rename_i B' r1 r2 s
    have hsk := onMerge_skel B' r1 r2 s
    exact ⟨hsk.2.2.2.2.1.trans ih.1, hsk.2.2.2.2.2.1.trans ih.2⟩

/-- The scope-restoration theorem behind claim C6: however a scope is
populated, its `pop1` lands observationally on the pushed state. -/
theorem InScope_pop1 {S B : EState} (hR : Reachable S)
    (hsc : InScope S.push B) : ObsEq B.pop1 S := by
  induction hsc with
  | refl =>
    rw [pushpop (Reachable_Jinv hR)]
    exact ObsEq.refl S
  | add hsc' h1 h2 ih =>
    rename_i B' v vs
    have hRB : Reachable B' := InScope_Reachable (Reachable.push hR) hsc'
    have hIB : Inv B' := (Reachable_Inv hRB).1
    have hfr : B'.v2i v = UINT_MAX := by
      have h1' := h1
      unfold EState.is_monomial_var at h1'
      simpa using h1'
    have hlims := InScope_lims hsc'
    have hl : B'.lim = S.monomials.length :: S.lim := hlims.1
    have htl : B'.trailLim = S.trail.length :: S.trailLim := hlims.2
    exact (ghost_add_pop1 hIB v vs hfr hl htl).trans ih
  | merge hsc' h1 h2 h3 ih =>
    rename_i B' r1 r2 s
    have hRB : Reachable B' := InScope_Reachable (Reachable.push hR) hsc'
    have hIB : Inv B' := (Reachable_Inv hRB).1
    have hlims := InScope_lims hsc'
    have hl : B'.lim = S.monomials.length :: S.lim := hlims.1
    have htl : B'.trailLim = S.trail.length :: S.trailLim := hlims.2
    exact (merge_pop1 hIB r1 r2 s h3 hl htl).trans ih

/-! ## The claims -/

/-- A state whose canonical-form cache is stale for its one monomial: the
cache holds factor list `[2]` while recomputation against the (identity)
union-find gives `[1]`. -/
def staleCache : EState :=
  { ve := veId, monomials := [⟨5, [1]⟩], canonized := [⟨5, [2], false⟩],
    ringNext := [0], ringPrev := [0], cgIn := [true],
    var2index := [UINT_MAX, UINT_MAX, UINT_MAX, UINT_MAX, UINT_MAX, 0],
    useLists := fun _ => [], cgTable := [5], lim := [], trailLim := [],
    trail := [] }

/-- **C1, counterexample.**  `canonize` does not recompute on demand: it is a
pure read of the cached `m_canonized` entry (`emonomials.h` line 208), so on a
state whose cache entry is stale with respect to the union-find it returns the
stale sequence, not the recomputation. -/
theorem C1_counterexample :
    (staleCache.canonize ⟨5, [1]⟩).vars
      ≠ (do_canonize staleCache.ve ⟨5, [1]⟩).vars := by
  decide

/-- **C1, amended.**  The accessors are cache reads and never recompute; the
returned canonical form nevertheless reflects the current union-find state at
every reachable quiescent state, because `add` and the merge/unmerge
notifications eagerly re-canonize every affected slot: for every live
monomial, `canonize` returns exactly `do_canonize` of the current union-find,
and `var2canonical` of its defining variable returns the same. -/
theorem C1_accessors_fresh {S : EState} (h : Reachable S) {i : Nat}
    (hi : i < S.mlen) :
    S.canonize (S.monAt i) = do_canonize S.ve (S.monAt i) ∧
    S.var2canonical (S.monAt i).var = some (do_canonize S.ve (S.monAt i)) := by
  have hJ := Reachable_Jinv h
  have h1 := Reachable_fresh h hi
  refine ⟨h1, ?_⟩
  have hv2 : S.v2i (S.monAt i).var = i := hJ.v2i_mvar i hi
  have himv : S.is_monomial_var (S.monAt i).var = true := by
    show (S.v2i (S.monAt i).var != UINT_MAX) = true
    rw [hv2]
    have hne : i ≠ UINT_MAX := by
      have h3 := hJ.c_le_UINT
      have h4 := hJ.hc
      omega
    simpa using hne
  show (S.var2monomial (S.monAt i).var).map (fun m => S.canonize m) = _
  unfold EState.var2monomial
  rw [himv, if_pos rfl, hv2]
  show some (S.canonize (S.monAt i)) = _
  exact congrArg some h1

/-- **C1, witness.** -/
theorem C1_accessors_fresh_witness :
    (EState.init.add 5 [2, 1]).canonize ((EState.init.add 5 [2, 1]).monAt 0)
        = do_canonize (EState.init.add 5 [2, 1]).ve
          ((EState.init.add 5 [2, 1]).monAt 0) ∧
    (EState.init.add 5 [2, 1]).var2canonical
        ((EState.init.add 5 [2, 1]).monAt 0).var
        = some (do_canonize (EState.init.add 5 [2, 1]).ve
          ((EState.init.add 5 [2, 1]).monAt 0)) :=
  C1_accessors_fresh (Reachable.add Reachable.init (by decide) (by decide))
    (by decide)

/-- **C2.**  After any reachable history of adds and merges, the canonical
factor sequence of every live monomial is sorted, and its length equals the
length of the factor list the monomial was registered with (stored unchanged
in the monomial store) — duplicates preserved. -/
theorem C2_canonical_sorted_length {S : EState} (h : Reachable S) {i : Nat}
    (hi : i < S.mlen) :
    (S.canonize (S.monAt i)).vars.Sorted (· ≤ ·) ∧
    (S.canonize (S.monAt i)).vars.length = (S.monAt i).vars.length := by
  rw [Reachable_fresh h hi]
  exact ⟨do_canonize_vars_sorted _ _, do_canonize_vars_length _ _⟩

/-- **C2, witness** (a duplicated factor and one merge). -/
theorem C2_canonical_sorted_length_witness :
    (((EState.init.add 5 [2, 1, 2]).onMerge 1 2 false).canonize
        (((EState.init.add 5 [2, 1, 2]).onMerge 1 2 false).monAt 0)).vars.Sorted
        (· ≤ ·) ∧
    (((EState.init.add 5 [2, 1, 2]).onMerge 1 2 false).canonize
        (((EState.init.add 5 [2, 1, 2]).onMerge 1 2 false).monAt 0)).vars.length
      = (((EState.init.add 5 [2, 1, 2]).onMerge 1 2 false).monAt 0).vars.length :=
  C2_canonical_sorted_length
    (Reachable.merge (Reachable.add Reachable.init (by decide) (by decide))
      rfl rfl (by decide))
    (by decide)

/-- **C3.**  The sign bit of every live monomial's canonical form is the
exclusive-or of its factors' signs relative to their class representatives as
reported by the union-find, and `rsign` maps that bit to the rational `-1`
(true) or `+1` (false). -/
theorem C3_sign_xor_rsign {S : EState} (h : Reachable S) {i : Nat}
    (hi : i < S.mlen) :
    (S.canonize (S.monAt i)).sign
        = ((S.monAt i).vars.map (fun x => (S.ve x).sign)).foldl xor false ∧
    (S.canonize (S.monAt i)).rsign
        = (if ((S.monAt i).vars.map (fun x => (S.ve x).sign)).foldl xor false
          then (-1 : Rat) else 1) := by
  rw [Reachable_fresh h hi]
  refine ⟨do_canonize_sign _ _, ?_⟩
  show (if (do_canonize S.ve (S.monAt i)).sign then (-1 : Rat) else 1) = _
  rw [do_canonize_sign]

/-- **C3, witness** (a negative-sign merge flips the accumulated sign). -/
theorem C3_sign_xor_rsign_witness :
    (((EState.init.add 6 [1]).onMerge 1 2 true).canonize
        (((EState.init.add 6 [1]).onMerge 1 2 true).monAt 0)).sign
        = ((((EState.init.add 6 [1]).onMerge 1 2 true).monAt 0).vars.map
          (fun x => ((((EState.init.add 6 [1]).onMerge 1 2 true)).ve x).sign)).foldl
          xor false ∧
    (((EState.init.add 6 [1]).onMerge 1 2 true).canonize
        (((EState.init.add 6 [1]).onMerge 1 2 true).monAt 0)).rsign
        = (if ((((EState.init.add 6 [1]).onMerge 1 2 true).monAt 0).vars.map
            (fun x => ((((EState.init.add 6 [1]).onMerge 1 2 true)).ve x).sign)).foldl
            xor false
          then (-1 : Rat) else 1) :=
  C3_sign_xor_rsign
    (Reachable.merge (Reachable.add Reachable.init (by decide) (by decide))
      rfl rfl (by decide))
    (by decide)

/-- **C6, counterexample.**  The congruence table's contents are *not*
restored bit-for-bit by `pop`: with two congruent monomials, a merge inside
the scope rehashes them in list order, and the unmerge cascade promotes the
other member to represent the class, so the table holds `[11]` after the pop
where it held `[10]` before the push.  Everything else is restored. -/
theorem C6_counterexample :
    (((((EState.init.add 10 [1, 2]).add 11 [1, 2]).push).onMerge 1 3
        false).pop 1).cgTable
      ≠ ((EState.init.add 10 [1, 2]).add 11 [1, 2]).cgTable := by
  decide

/-- **C6, amended.**  For every reachable state `S`, `push` followed by any
in-scope sequence of adds of fresh monomial variables and root merges,
followed by `pop1`: the monomial store, the canonical cache, every use list,
the variable-to-slot map, the union-find view, the trail and the scope stacks
are restored exactly (`ObsEq`), and the congruence table is restored up to
congruence: it holds a member for exactly the same canonical factor sequences
as before the push — but which member variable represents a class may
differ. -/
theorem C6_scope_restore {S B : EState} (hR : Reachable S)
    (hsc : InScope S.push B) :
    ObsEq B.pop1 S ∧
    ∀ l, (∃ u ∈ B.pop1.cgTable, B.pop1.cgVarsOf u = l)
      ↔ (∃ u ∈ S.cgTable, S.cgVarsOf u = l) := by
  have hOE := InScope_pop1 hR hsc
  refine ⟨hOE, ?_⟩
  intro l
  have hRB : Reachable B := InScope_Reachable (Reachable.push hR) hsc
  have hlims := InScope_lims hsc
  have hRP : Reachable B.pop1 := Reachable.pop1 hRB (by
    rw [hlims.1]
    exact fun h => List.noConfusion (h : S.monomials.length :: S.lim = []))
  have hIP : Inv B.pop1 := (Reachable_Inv hRP).1
  have hIS : Inv S := (Reachable_Inv hR).1
  rw [cgTable_classes hIP l, cgTable_classes hIS l]
  have hml : B.pop1.mlen = S.mlen := by
    show B.pop1.monomials.length = S.monomials.length
    rw [hOE.monomials]
  have hcan : ∀ i, B.pop1.canonAt i = S.canonAt i := by
    intro i
    show B.pop1.canonized.getD i default = S.canonized.getD i default
    rw [hOE.canonized]
  constructor
  · rintro ⟨i, hi, he⟩
    exact ⟨i, by rw [← hml]; exact hi, by rw [← hcan i]; exact he⟩
  · rintro ⟨i, hi, he⟩
    exact ⟨i, by rw [hml]; exact hi, by rw [hcan i]; exact he⟩

/-- **C6, witness** (two congruent monomials, a merge in scope, one pop). -/
theorem C6_scope_restore_witness :
    ObsEq ((((((EState.init.add 10 [1, 2]).add 11 [1, 2]).push).onMerge 1 3
        false).pop1))
      ((EState.init.add 10 [1, 2]).add 11 [1, 2]) ∧
    ∀ l, (∃ u ∈ (((((EState.init.add 10 [1, 2]).add 11 [1, 2]).push).onMerge 1 3
          false).pop1).cgTable,
        (((((EState.init.add 10 [1, 2]).add 11 [1, 2]).push).onMerge 1 3
          false).pop1).cgVarsOf u = l)
      ↔ (∃ u ∈ ((EState.init.add 10 [1, 2]).add 11 [1, 2]).cgTable,
        ((EState.init.add 10 [1, 2]).add 11 [1, 2]).cgVarsOf u = l) :=
  C6_scope_restore
    (Reachable.add (Reachable.add Reachable.init (by decide) (by decide))
      (by decide) (by decide))
    (InScope.merge InScope.refl rfl rfl (by decide))

/-- **C4.**  At every reachable quiescent state, every live monomial's
congruence-table lookup succeeds, and two live monomials have equal canonical
factor sequences exactly when their lookups resolve to the same table
member. -/
theorem C4_table_lookup_iff {S : EState} (h : Reachable S) {i j : Nat}
    (hi : i < S.mlen) (hj : j < S.mlen) :
    (S.cgLookup (S.mvarOf i)).isSome = true ∧
    ((S.canonAt i).vars = (S.canonAt j).vars
      ↔ S.cgLookup (S.mvarOf i) = S.cgLookup (S.mvarOf j)) := by
  have hI := (Reachable_Inv h).1
  have hJ := hI.j
  refine ⟨cgLookup_isSome hI hi, ?_, ?_⟩
  · intro hv
    unfold EState.cgLookup
    apply find?_congr_mem
    intro u hu
    rw [cgVarsOf_mvar hJ hi, cgVarsOf_mvar hJ hj, hv]
  · intro hl
    obtain ⟨u, hu⟩ := Option.isSome_iff_exists.mp (cgLookup_isSome hI hi)
    have h2 : S.cgLookup (S.mvarOf j) = some u := by
      rw [← hl]
      exact hu
    have hp1 := List.find?_some hu
    have hp2 := List.find?_some h2
    have e1 : S.cgVarsOf u = S.cgVarsOf (S.mvarOf i) := eq_of_beq hp1
    have e2 : S.cgVarsOf u = S.cgVarsOf (S.mvarOf j) := eq_of_beq hp2
    rw [cgVarsOf_mvar hJ hi] at e1
    rw [cgVarsOf_mvar hJ hj] at e2
    rw [← e1, ← e2]

/-- **C4, witness** (two monomials registered with the same factors up to
order). -/
theorem C4_table_lookup_iff_witness :
    (((EState.init.add 10 [1, 2]).add 11 [2, 1]).cgLookup
        (((EState.init.add 10 [1, 2]).add 11 [2, 1]).mvarOf 0)).isSome = true ∧
    ((((EState.init.add 10 [1, 2]).add 11 [2, 1]).canonAt 0).vars
        = (((EState.init.add 10 [1, 2]).add 11 [2, 1]).canonAt 1).vars
      ↔ ((EState.init.add 10 [1, 2]).add 11 [2, 1]).cgLookup
          (((EState.init.add 10 [1, 2]).add 11 [2, 1]).mvarOf 0)
        = ((EState.init.add 10 [1, 2]).add 11 [2, 1]).cgLookup
          (((EState.init.add 10 [1, 2]).add 11 [2, 1]).mvarOf 1)) :=
  C4_table_lookup_iff
    (Reachable.add (Reachable.add Reachable.init (by decide) (by decide))
      (by decide) (by decide))
    (by decide) (by decide)

/-- **C5.**  `canonize_divides` decides multiset divisibility of canonical
factor sequences: it returns `true` exactly when every factor of the first
canonical sequence occurs in the second with at least equal multiplicity. -/
theorem C5_divides_iff_counts {S : EState} (h : Reachable S) {i j : Nat}
    (hi : i < S.mlen) (hj : j < S.mlen) :
    S.canonize_divides (S.monAt i) (S.monAt j) = true
      ↔ ∀ x, (S.canonize (S.monAt i)).vars.count x
          ≤ (S.canonize (S.monAt j)).vars.count x := by
  show sortedSubsetMerge (S.canonize (S.monAt i)).vars
    (S.canonize (S.monAt j)).vars = true ↔ _
  rw [Reachable_fresh h hi, Reachable_fresh h hj]
  exact sortedSubsetMerge_iff_count (do_canonize_vars_sorted _ _)
    (do_canonize_vars_sorted _ _)

/-- **C5, witness** (the spec's scenario `v1 := {a, b}`, `v3 := {a, a, b}`:
slot 0 divides slot 1). -/
theorem C5_divides_iff_counts_witness :
    ((EState.init.add 20 [1, 2]).add 21 [1, 1, 2]).canonize_divides
        (((EState.init.add 20 [1, 2]).add 21 [1, 1, 2]).monAt 0)
        (((EState.init.add 20 [1, 2]).add 21 [1, 1, 2]).monAt 1) = true
      ↔ ∀ x, (((EState.init.add 20 [1, 2]).add 21 [1, 1, 2]).canonize
            (((EState.init.add 20 [1, 2]).add 21 [1, 1, 2]).monAt 0)).vars.count x
          ≤ (((EState.init.add 20 [1, 2]).add 21 [1, 1, 2]).canonize
            (((EState.init.add 20 [1, 2]).add 21 [1, 1, 2]).monAt 1)).vars.count x :=
  C5_divides_iff_counts
    (Reachable.add (Reachable.add Reachable.init (by decide) (by decide))
      (by decide) (by decide))
    (by decide) (by decide)

/-- **C7.**  A live monomial appears in `get_use_list(v)` — the occurrence
list owned by `v`'s current class root — exactly when the current
representative of `v` occurs among the factors of its canonical form. -/
theorem C7_use_list_membership {S : EState} (h : Reachable S) {i : Nat}
    (hi : i < S.mlen) (v : Nat) :
    i ∈ S.useListIdxs v ↔ (S.ve v).var ∈ (S.canonize (S.monAt i)).vars := by
  have hI := (Reachable_Inv h).1
  have hroot : IsRoot S.ve ((S.ve v).var) := hI.vewf v
  have base := hI.ul_mem ((S.ve v).var) hroot i hi
  show i ∈ S.useLists ((S.ve v).var) ↔ _
  rw [Reachable_fresh h hi]
  rw [hI.fresh i hi] at base
  exact base

/-- **C7, witness** (after a merge, the absorbed variable's occurrences are
found through its new representative). -/
theorem C7_use_list_membership_witness :
    0 ∈ ((EState.init.add 7 [1, 2]).onMerge 1 2 false).useListIdxs 1
      ↔ ((((EState.init.add 7 [1, 2]).onMerge 1 2 false)).ve 1).var
        ∈ (((EState.init.add 7 [1, 2]).onMerge 1 2 false).canonize
          (((EState.init.add 7 [1, 2]).onMerge 1 2 false).monAt 0)).vars :=
  C7_use_list_membership
    (Reachable.merge (Reachable.add Reachable.init (by decide) (by decide))
      rfl rfl (by decide))
    (by decide) 1

/-- **C10.**  `is_monomial_var` is total — on variables never registered and
on ids beyond the map's length it returns `false` (the `getD` default
`UINT_MAX` signals absence) — and it returns `true` exactly for the defining
variables of live monomials; `var2monomial` is guarded by exactly this
predicate: outside it it returns nothing, inside it it returns the monomial
defined by the queried variable. -/
theorem C10_is_monomial_var_guard {S : EState} (h : Reachable S) (v : Nat) :
    (S.is_monomial_var v = true ↔ ∃ i, i < S.mlen ∧ (S.monAt i).var = v) ∧
    (S.var2index.length ≤ v → S.is_monomial_var v = false) ∧
    (S.is_monomial_var v = false → S.var2monomial v = none) ∧
    (S.is_monomial_var v = true →
      S.var2monomial v = some (S.monAt (S.v2i v))
        ∧ (S.monAt (S.v2i v)).var = v) := by
  have hJ := Reachable_Jinv h
  refine ⟨⟨?_, ?_⟩, ?_, ?_, ?_⟩
  · intro himv
    have hne : S.v2i v ≠ UINT_MAX := by
      simpa [EState.is_monomial_var] using himv
    have hs := hJ.v2i_sound v hne
    exact ⟨S.v2i v, hs.1, hs.2⟩
  · rintro ⟨i, hi, he⟩
    show (S.v2i v != UINT_MAX) = true
    have h2 := hJ.v2i_mvar i hi
    rw [he] at h2
    rw [h2]
    have hne : i ≠ UINT_MAX := by
      have h3 := hJ.c_le_UINT
      have h4 := hJ.hc
      omega
    simpa using hne
  · intro hlen
    show (S.v2i v != UINT_MAX) = false
    have he : S.v2i v = UINT_MAX := getD_of_len_le _ hlen
    rw [he]
    simp
  · intro hf
    unfold EState.var2monomial
    rw [hf]
    rfl
  · intro ht
    have hne : S.v2i v ≠ UINT_MAX := by
      simpa [EState.is_monomial_var] using ht
    have hs := hJ.v2i_sound v hne
    refine ⟨?_, hs.2⟩
    unfold EState.var2monomial
    rw [ht, if_pos rfl]
    rfl

/-- **C10, witness** (a registered variable, and id 99 beyond the map). -/
theorem C10_is_monomial_var_guard_witness :
    ((EState.init.add 5 [1, 2]).is_monomial_var 5 = true
      ↔ ∃ i, i < (EState.init.add 5 [1, 2]).mlen
        ∧ ((EState.init.add 5 [1, 2]).monAt i).var = 5) ∧
    ((EState.init.add 5 [1, 2]).var2index.length ≤ 5
      → (EState.init.add 5 [1, 2]).is_monomial_var 5 = false) ∧
    ((EState.init.add 5 [1, 2]).is_monomial_var 5 = false
      → (EState.init.add 5 [1, 2]).var2monomial 5 = none) ∧
    ((EState.init.add 5 [1, 2]).is_monomial_var 5 = true
      → (EState.init.add 5 [1, 2]).var2monomial 5
          = some ((EState.init.add 5 [1, 2]).monAt
            ((EState.init.add 5 [1, 2]).v2i 5))
        ∧ (((EState.init.add 5 [1, 2]).monAt
            ((EState.init.add 5 [1, 2]).v2i 5))).var = 5) :=
  C10_is_monomial_var_guard
    (Reachable.add Reachable.init (by decide) (by decide)) 5

/-- The ring links are a permutation of the live slots (`ring_pn`/`ring_np`),
so iterating `m_next` from any live slot returns to it within `mlen` steps. -/
theorem ring_orbit_return {S : EState} (hJ : Jp S S.mlen) {i : Nat}
    (hi : i < S.mlen) :
    ∃ n, 0 < n ∧ n ≤ S.mlen ∧ (S.nxAt)^[n] i = i := by
  have hstay : ∀ k, (S.nxAt)^[k] i < S.mlen := by
    intro k
    induction k with
    | zero => exact hi
    | succ k ih =>
      rw [Function.iterate_succ_apply']
      exact hJ.ring_nx_lt _ ih
  have hinj : ∀ a b, a < S.mlen → b < S.mlen → S.nxAt a = S.nxAt b → a = b := by
    intro a b ha hb he
    have h1 := hJ.ring_pn a ha
    have h2 := hJ.ring_pn b hb
    rw [he] at h1
    rw [h1] at h2
    exact h2
  have hpeel : ∀ a x y, x < S.mlen → y < S.mlen →
      (S.nxAt)^[a] x = (S.nxAt)^[a] y → x = y := by
    intro a
    induction a with
    | zero =>
      intro x y _ _ he
      exact he
    | succ a ih =>
      intro x y hx hy he
      rw [Function.iterate_succ_apply, Function.iterate_succ_apply] at he
      exact hinj x y hx hy
        (ih (S.nxAt x) (S.nxAt y) (hJ.ring_nx_lt _ hx) (hJ.ring_nx_lt _ hy) he)
  have hcard : Fintype.card (Fin S.mlen) < Fintype.card (Fin (S.mlen + 1)) := by
    simp
  obtain ⟨a, b, hne, heq⟩ := Fintype.exists_ne_map_eq_of_card_lt
    (fun k : Fin (S.mlen + 1) =>
      (⟨(S.nxAt)^[(k : Nat)] i, hstay (k : Nat)⟩ : Fin S.mlen))
    hcard
  have heq' : (S.nxAt)^[(a : Nat)] i = (S.nxAt)^[(b : Nat)] i :=
    congrArg Fin.val heq
  have hcases : (a : Nat) < (b : Nat) ∨ (b : Nat) < (a : Nat) := by
    rcases Nat.lt_trichotomy (a : Nat) (b : Nat) with h1 | h1 | h1
    · exact Or.inl h1
    · exact absurd (Fin.ext h1) hne
    · exact Or.inr h1
  rcases hcases with hab | hab
  · refine ⟨(b : Nat) - (a : Nat), by omega, ?_, ?_⟩
    · have hb := b.2
      omega
    · apply hpeel (a : Nat) _ i (hstay _) hi
      rw [← Function.iterate_add_apply,
        show (a : Nat) + ((b : Nat) - (a : Nat)) = (b : Nat) from by omega]
      exact heq'.symm
  · refine ⟨(a : Nat) - (b : Nat), by omega, ?_, ?_⟩
    · have ha := a.2
      omega
    · apply hpeel (b : Nat) _ i (hstay _) hi
      rw [← Function.iterate_add_apply,
        show (b : Nat) + ((a : Nat) - (b : Nat)) = (a : Nat) from by omega]
      exact heq'

/-- **C8.**  Sign-equivalence (equal canonical factor sequences, the sign
ignored) is an equivalence relation on the live slots, the enumeration
starting at a live monomial starts with that monomial itself, and iterating
the ring's `m_next` pointer returns to the starting slot after at most `mlen`
(and at least one) steps — the enumeration is finite and cyclic. -/
theorem C8_sign_equiv_ring {S : EState} (h : Reachable S) {i : Nat}
    (hi : i < S.mlen) :
    ((S.canonAt i).vars = (S.canonAt i).vars) ∧
    (∀ j, (S.canonAt i).vars = (S.canonAt j).vars
      → (S.canonAt j).vars = (S.canonAt i).vars) ∧
    (∀ j k, (S.canonAt i).vars = (S.canonAt j).vars
      → (S.canonAt j).vars = (S.canonAt k).vars
      → (S.canonAt i).vars = (S.canonAt k).vars) ∧
    (S.nxAt)^[0] i = i ∧
    (∃ n, 0 < n ∧ n ≤ S.mlen ∧ (S.nxAt)^[n] i = i) := by
  refine ⟨rfl, fun j he => he.symm, fun j k h1 h2 => h1.trans h2, rfl, ?_⟩
  exact ring_orbit_return (Reachable_Jinv h) hi

/-- **C8, witness** (two congruent monomials share a two-element ring). -/
theorem C8_sign_equiv_ring_witness :
    ((((EState.init.add 10 [1, 2]).add 11 [2, 1]).canonAt 0).vars
      = (((EState.init.add 10 [1, 2]).add 11 [2, 1]).canonAt 0).vars) ∧
    (∀ j, (((EState.init.add 10 [1, 2]).add 11 [2, 1]).canonAt 0).vars
        = (((EState.init.add 10 [1, 2]).add 11 [2, 1]).canonAt j).vars
      → (((EState.init.add 10 [1, 2]).add 11 [2, 1]).canonAt j).vars
        = (((EState.init.add 10 [1, 2]).add 11 [2, 1]).canonAt 0).vars) ∧
    (∀ j k, (((EState.init.add 10 [1, 2]).add 11 [2, 1]).canonAt 0).vars
        = (((EState.init.add 10 [1, 2]).add 11 [2, 1]).canonAt j).vars
      → (((EState.init.add 10 [1, 2]).add 11 [2, 1]).canonAt j).vars
        = (((EState.init.add 10 [1, 2]).add 11 [2, 1]).canonAt k).vars
      → (((EState.init.add 10 [1, 2]).add 11 [2, 1]).canonAt 0).vars
        = (((EState.init.add 10 [1, 2]).add 11 [2, 1]).canonAt k).vars) ∧
    (((EState.init.add 10 [1, 2]).add 11 [2, 1]).nxAt)^[0] 0 = 0 ∧
    (∃ n, 0 < n ∧ n ≤ ((EState.init.add 10 [1, 2]).add 11 [2, 1]).mlen
      ∧ (((EState.init.add 10 [1, 2]).add 11 [2, 1]).nxAt)^[n] 0 = 0) :=
  C8_sign_equiv_ring
    (Reachable.add (Reachable.add Reachable.init (by decide) (by decide))
      (by decide) (by decide))
    (by decide)

/-- **C9.**  `find_canonical` on a sorted sequence matching no live
monomial's canonical form returns `none` — a normal miss, not a fault — and
after registering a fresh monomial whose canonical form has exactly that
factor sequence, the same query returns that monomial's canonical record. -/
theorem C9_find_canonical_miss_hit {S : EState} (h : Reachable S)
    (vars : List Nat)
    (hmiss : ∀ i, i < S.mlen → (S.canonAt i).vars ≠ vars) :
    S.find_canonical vars = none ∧
    ∀ v vs, S.is_monomial_var v = false → v < UINT_MAX →
      (do_canonize S.ve ⟨v, vs⟩).vars = vars →
      (S.add v vs).find_canonical vars = some (do_canonize S.ve ⟨v, vs⟩) := by
  have hJ := Reachable_Jinv h
  have hcU : S.mlen ≤ UINT_MAX := hJ.c_le_UINT
  have hnone : ∀ u ∈ S.cgTable, ¬ (S.cgVarsOf u == vars) = true := by
    intro u hu hbe
    have hs := hJ.cg_sound u hu
    have he := eq_of_beq hbe
    have h2 : S.cgVarsOf u = (S.canonAt (S.v2i u)).vars := rfl
    rw [h2] at he
    exact hmiss (S.v2i u) hs.1 he
  constructor
  · show (S.cgTable.find? (fun u => S.cgVarsOf u == vars)).map
      (fun u => S.canonized.getD (S.v2i u) default) = none
    rw [List.find?_eq_none.mpr hnone]
    rfl
  · intro v vs hfrB hvlt hvars
    have hfr : S.v2i v = UINT_MAX := by
      simpa [EState.is_monomial_var] using hfrB
    have hune_tab : ∀ u ∈ S.cgTable, u ≠ v := by
      intro u hu he
      have hs := hJ.cg_sound u hu
      rw [he, hfr] at hs
      have := hs.1
      omega
    have key : ∀ T : EState, T =
        { S with
          monomials := S.monomials ++ [⟨v, vs⟩],
          canonized := S.canonized ++ [do_canonize S.ve ⟨v, vs⟩],
          ringNext := S.ringNext ++ [S.monomials.length],
          ringPrev := S.ringPrev ++ [S.monomials.length],
          cgIn := S.cgIn ++ [false],
          var2index := setV2I S.var2index v S.monomials.length,
          useLists := fun w =>
            if w ∈ (do_canonize S.ve ⟨v, vs⟩).vars.dedup
            then S.monomials.length :: S.useLists w
            else S.useLists w } →
        (T.insert_cg v).find_canonical vars
          = some (do_canonize S.ve ⟨v, vs⟩) := by
      intro T hT
      have hTct : T.cgTable = S.cgTable := by rw [hT]
      have hTc : T.canonized = S.canonized ++ [do_canonize S.ve ⟨v, vs⟩] := by
        rw [hT]
      have hTvi : T.var2index = setV2I S.var2index v S.monomials.length := by
        rw [hT]
      have hTv2 : ∀ w, T.v2i w
          = if w = v then S.monomials.length else S.v2i w := by
        intro w
        show T.var2index.getD w UINT_MAX = _
        rw [hTvi, setV2I_getD]
        rfl
      have hlen : S.monomials.length = S.canonized.length := hJ.len_c.symm
      have hlast : (S.canonized ++ [do_canonize S.ve ⟨v, vs⟩]).getD
          S.monomials.length default = do_canonize S.ve ⟨v, vs⟩ := by
        rw [hlen]
        exact getD_append_len default _
      have hcgv : ∀ u, u ≠ v → S.v2i u < S.mlen
          → T.cgVarsOf u = S.cgVarsOf u := by
        intro u hune hult
        show (T.canonized.getD (T.v2i u) default).vars = _
        rw [hTv2 u, if_neg hune, hTc,
          getD_append_lt default (by rw [hJ.len_c]; exact hult)]
        rfl
      have hcgvv : T.cgVarsOf v = vars := by
        show (T.canonized.getD (T.v2i v) default).vars = vars
        rw [hTv2 v, if_pos rfl, hTc, hlast]
        exact hvars
      have hTnone : T.cgTable.find?
          (fun u => T.cgVarsOf u == T.cgVarsOf v) = none := by
        rw [hTct]
        apply List.find?_eq_none.mpr
        intro u hu hbe
        have hs := hJ.cg_sound u hu
        have he2 := eq_of_beq hbe
        rw [hcgv u (hune_tab u hu) hs.1, hcgvv] at he2
        have h2 : S.cgVarsOf u = (S.canonAt (S.v2i u)).vars := rfl
        rw [h2] at he2
        exact hmiss (S.v2i u) hs.1 he2
      have hA_table : (T.insert_cg v).cgTable = S.cgTable ++ [v] := by
        unfold EState.insert_cg
        rw [hTnone]
        dsimp only
        rw [hTct]
      have hAcg_eq : ∀ u, (T.insert_cg v).cgVarsOf u = T.cgVarsOf u :=
        cgVarsOf_eq_of (insert_cg_canonized T v) (insert_cg_var2index T v)
      have hswap : ∀ (l : List Nat),
          l.find? (fun u => (T.insert_cg v).cgVarsOf u == vars)
            = l.find? (fun u => T.cgVarsOf u == vars) := by
        intro l
        apply find?_congr_mem
        intro x _
        rw [hAcg_eq x]
      have hnone2 : ∀ u ∈ S.cgTable, ¬ (T.cgVarsOf u == vars) = true := by
        intro u hu hbe
        have hs := hJ.cg_sound u hu
        have he2 := eq_of_beq hbe
        rw [hcgv u (hune_tab u hu) hs.1] at he2
        have h2 : S.cgVarsOf u = (S.canonAt (S.v2i u)).vars := rfl
        rw [h2] at he2
        exact hmiss (S.v2i u) hs.1 he2
      have hvpred : ((fun u => T.cgVarsOf u == vars) v) = true := by
        have h1 : (T.cgVarsOf v == vars) = true := by
          rw [hcgvv]
          exact beq_self_eq_true vars
        exact h1
      show ((T.insert_cg v).cgTable.find?
          (fun u => (T.insert_cg v).cgVarsOf u == vars)).map
          (fun u => (T.insert_cg v).canonized.getD
            ((T.insert_cg v).v2i u) default)
        = some (do_canonize S.ve ⟨v, vs⟩)
      have hfv : List.find? (fun u => T.cgVarsOf u == vars) [v] = some v :=
        List.find?_cons_of_pos _ hvpred
      rw [hA_table, hswap, List.find?_append, List.find?_eq_none.mpr hnone2,
        hfv]
      show some ((T.insert_cg v).canonized.getD
        ((T.insert_cg v).v2i v) default) = _
      have hv2A : (T.insert_cg v).v2i v = S.monomials.length := by
        show ((T.insert_cg v).var2index).getD v UINT_MAX = _
        rw [insert_cg_var2index, hTvi, setV2I_getD, if_pos rfl]
      rw [insert_cg_canonized, hTc, hv2A, hlast]
    exact key _ rfl

/-- **C9, witness** (empty store: the query misses; a matching registration
makes it hit). -/
theorem C9_find_canonical_miss_hit_witness :
    EState.init.find_canonical [3, 4] = none ∧
    ∀ v vs, EState.init.is_monomial_var v = false → v < UINT_MAX →
      (do_canonize EState.init.ve ⟨v, vs⟩).vars = [3, 4] →
      (EState.init.add v vs).find_canonical [3, 4]
        = some (do_canonize EState.init.ve ⟨v, vs⟩) :=
  C9_find_canonical_miss_hit Reachable.init [3, 4]
    (fun i hi => absurd hi (Nat.not_lt_zero i))

end EmonSpec
